import Mathlib

/-! Type store of the experimental type system.

A shallow embedding of `libsolidity/ast/experimental/TypeSystem.cpp`:
the substitution table with `resolve`, `instantiate`, `unify`, `fresh`,
the builtin registry and the tuple helpers.

Conventions of the embedding.

* A function that may throw returns `Except Err _`; a member function that
  also mutates the store returns the outcome together with the store as it is
  when the call ends (normally or by an exception).
* `resolve`, `unify` and `fresh` contain loops or recursion that need not
  terminate.  They carry a fuel argument and return `none` when the fuel runs
  out; `some _` is a finished call.
-/

namespace TypeSystem

/-- Modelled from the spec: the builtin tags declared in `TypeSystem.h`
(the header is not part of the sources at hand).  The spec names `Function`,
`Unit`, `Pair`, `Word` and `Integer`; `Void` is the tag behind `m_voidType`
of `TypeInference.h`. -/
inductive BuiltinType where
  | Void
  | Function
  | Unit
  | Pair
  | Word
  | Integer
  deriving DecidableEq

/-- The variant `TypeExpression::Constructor`: a builtin tag or a pointer to a
user declaration (a pointer is modelled by a number, compared by identity). -/
inductive Constructor where
  | builtin (tag : BuiltinType)
  | declaration (ptr : Nat)
  deriving DecidableEq

/-- The class `TypeVariable`: owning store (`m_parent`, the store's identity),
`m_index` and `m_generic`. -/
structure TypeVariable where
  parent : Nat
  index : Nat
  generic : Bool
  deriving DecidableEq

/-- The variant `Type`: a type variable or a type expression, a constructor
applied to an ordered sequence of types. -/
inductive Ty where
  | var (v : TypeVariable)
  | expr (constructor : Constructor) (arguments : List Ty)

mutual
/-- Structural equality of two types is decidable. -/
def Ty.decEq : (a b : Ty) → Decidable (a = b)
  | .var v, .var w =>
    if h : v = w then isTrue (by rw [h]) else isFalse (fun e => h (by cases e; rfl))
  | .var _, .expr _ _ => isFalse (fun e => by cases e)
  | .expr _ _, .var _ => isFalse (fun e => by cases e)
  | .expr c xs, .expr d ys =>
    if h : c = d then
      match Ty.decEqList xs ys with
      | isTrue h2 => isTrue (by rw [h, h2])
      | isFalse h2 => isFalse (fun e => h2 (by cases e; rfl))
    else isFalse (fun e => h (by cases e; rfl))
/-- Structural equality of two sequences of types is decidable. -/
def Ty.decEqList : (a b : List Ty) → Decidable (a = b)
  | [], [] => isTrue rfl
  | [], _ :: _ => isFalse (fun e => by cases e)
  | _ :: _, [] => isFalse (fun e => by cases e)
  | x :: xs, y :: ys =>
    match Ty.decEq x y with
    | isTrue h1 =>
      match Ty.decEqList xs ys with
      | isTrue h2 => isTrue (by rw [h1, h2])
      | isFalse h2 => isFalse (fun e => h2 (by cases e; rfl))
    | isFalse h1 => isFalse (fun e => h1 (by cases e; rfl))
end

instance : DecidableEq Ty := Ty.decEq

/-- The record `TypeConstructorInfo` of the builtin registry. -/
structure TypeConstructorInfo where
  name : String
  arity : Nat
  deriving DecidableEq

/-- The member data of `TypeSystem`: `self` stands for the address of the
store (what `this` is compared with), `typeVariables` is `m_typeVariables`
and `builtinTypes` is the map `m_builtinTypes`, as an association list. -/
structure Store where
  self : Nat
  typeVariables : List (Option Ty)
  builtinTypes : List (BuiltinType × TypeConstructorInfo)
  deriving DecidableEq

/-- The two ways a call can throw: a failed `solAssert`, or the
`std::out_of_range` of a checked `at`. -/
inductive Err where
  | assertion
  | outOfRange
  deriving DecidableEq

/-- The record `UnificationFailure{a, b}`. -/
structure UnificationFailure where
  a : Ty
  b : Ty
  deriving DecidableEq

instance instDecidableEqExcept {ε α : Type} [DecidableEq ε] [DecidableEq α] :
    DecidableEq (Except ε α) := fun x y =>
  match x, y with
  | .ok a, .ok b => if h : a = b then isTrue (by rw [h]) else isFalse (fun e => h (by cases e; rfl))
  | .error a, .error b =>
    if h : a = b then isTrue (by rw [h]) else isFalse (fun e => h (by cases e; rfl))
  | .ok _, .error _ => isFalse (fun e => by cases e)
  | .error _, .ok _ => isFalse (fun e => by cases e)

/-- The body of `TypeSystem::validate`: two assertions, the owning store and
the range of the index. -/
def validate (s : Store) (v : TypeVariable) : Except Err Unit :=
  if v.parent ≠ s.self then .error .assertion
  else if ¬ (v.index < s.typeVariables.length) then .error .assertion
  else .ok ()

/-- The body of `TypeSystem::freshTypeVariable`: the new index is the size of
the table, and one empty slot is appended. -/
def freshTypeVariable (s : Store) (generic : Bool) : Ty × Store :=
  (.var ⟨s.self, s.typeVariables.length, generic⟩,
    { s with typeVariables := s.typeVariables ++ [none] })

/-- The body of `TypeSystem::instantiate`: `validate`, the checked `at` with
the assertion that the slot is empty, the assertion on the parent, the
assignment. -/
def instantiate (s : Store) (v : TypeVariable) (t : Ty) : Except Err Unit × Store :=
  match validate s v with
  | .error e => (.error e, s)
  | .ok _ =>
    match s.typeVariables[v.index]? with
    | none => (.error .outOfRange, s)
    | some (some _) => (.error .assertion, s)
    | some none =>
      if v.parent ≠ s.self then (.error .assertion, s)
      else (.ok (), { s with typeVariables := s.typeVariables.set v.index (some t) })

/-- The loop of `TypeSystem::resolve`; the fuel bounds the number of
iterations, each of which reads one slot with the checked `at`. -/
def resolve : Nat → Store → Ty → Option (Except Err Ty)
  | _, _, .expr c args => some (.ok (.expr c args))
  | 0, _, .var _ => none
  | n + 1, s, .var v =>
    match s.typeVariables[v.index]? with
    | none => some (.error .outOfRange)
    | some none => some (.ok (.var v))
    | some (some t) => resolve n s t

/-- The result of a call of `unify`: what it returned or threw, and the store
at that moment. -/
abbrev UnifyResult := Except Err (List UnificationFailure) × Store

/-- The `for` loop over the zipped arguments in the expression/expression case
of `unify`; `u` is the recursive call.  An exception leaves the loop, a
returned list is appended to `failures`. -/
def unifyArguments (u : Store → Ty → Ty → Option UnifyResult) :
    List (Ty × Ty) → Store → Option UnifyResult
  | [], s => some (.ok [], s)
  | (left, right) :: rest, s =>
    match u s left right with
    | none => none
    | some (.error e, s1) => some (.error e, s1)
    | some (.ok failures, s1) =>
      match unifyArguments u rest s1 with
      | none => none
      | some (.error e, s2) => some (.error e, s2)
      | some (.ok more, s2) => some (.ok (failures ++ more), s2)

/-- A visitor branch of `unify` that only calls `instantiate`: an exception
propagates, otherwise `failures` stays empty. -/
def afterInstantiate (r : Except Err Unit × Store) : Option UnifyResult :=
  match r with
  | (.error e, s1) => some (.error e, s1)
  | (.ok _, s1) => some (.ok [], s1)

/-- The `std::visit` of `unify` on the two resolved types, one branch per
lambda; `u` is the recursive call.  The failure that is recorded holds `_a` and
`_b` after they have been overwritten by their resolutions.  (The last lambda,
`(auto, auto)`, is never selected: the variant has two alternatives.) -/
def unifyVisit (u : Store → Ty → Ty → Option UnifyResult) (s : Store) :
    Ty → Ty → Option UnifyResult
  | .var left, .var right =>
    match validate s left with
    | .error e => some (.error e, s)
    | .ok _ =>
      match validate s right with
      | .error e => some (.error e, s)
      | .ok _ =>
        if left.index ≠ right.index then afterInstantiate (instantiate s left (.var right))
        else some (.ok [], s)
  | .var v, .expr c args => afterInstantiate (instantiate s v (.expr c args))
  | .expr c args, .var v => afterInstantiate (instantiate s v (.expr c args))
  | .expr c xs, .expr d ys =>
    if c ≠ d then some (.ok [⟨.expr c xs, .expr d ys⟩], s)
    else if xs.length ≠ ys.length then some (.ok [⟨.expr c xs, .expr d ys⟩], s)
    else unifyArguments u (xs.zip ys) s

/-- The body of `TypeSystem::unify`: both sides are resolved, then visited.
The fuel bounds the depth of the recursion (and the two loops of `resolve`). -/
def unify : Nat → Store → Ty → Ty → Option UnifyResult
  | 0, _, _, _ => none
  | n + 1, s, a, b =>
    match resolve (n + 1) s a with
    | none => none
    | some (.error e) => some (.error e, s)
    | some (.ok ra) =>
      match resolve (n + 1) s b with
      | none => none
      | some (.error e) => some (.error e, s)
      | some (.ok rb) => unifyVisit (unify n) s ra rb

/-- The local `mapping` of `fresh` (an `unordered_map` from index to type),
as an association list with unique keys. -/
abbrev Mapping := List (Nat × Ty)

/-- The result of a call of `freshImpl`: what it returned or threw, the store
and the `mapping` at that moment. -/
abbrev FreshResult (α : Type) := Except Err α × Store × Mapping

/-- The `transform` over the arguments in the expression case of `freshImpl`,
from left to right; `f` is the recursive call. -/
def freshArguments (f : Ty → Store → Mapping → Option (FreshResult Ty)) :
    List Ty → Store → Mapping → Option (FreshResult (List Ty))
  | [], s, m => some (.ok [], s, m)
  | t :: rest, s, m =>
    match f t s m with
    | none => none
    | some (.error e, s1, m1) => some (.error e, s1, m1)
    | some (.ok t1, s1, m1) =>
      match freshArguments f rest s1 m1 with
      | none => none
      | some (.error e, s2, m2) => some (.error e, s2, m2)
      | some (.ok rest1, s2, m2) => some (.ok (t1 :: rest1), s2, m2)

/-- The `std::visit` of `freshImpl` on the resolved type; `t` is `_type`, the
type `freshImpl` was called with, which the branch that keeps a variable
returns (not its resolution), and `f` is the recursive call. -/
def freshVisit (f : Ty → Store → Mapping → Option (FreshResult Ty)) (generalize : Bool)
    (t : Ty) (s : Store) (m : Mapping) : Ty → Option (FreshResult Ty)
  | .expr c args =>
    match freshArguments f args s m with
    | none => none
    | some (.error e, s1, m1) => some (.error e, s1, m1)
    | some (.ok args1, s1, m1) => some (.ok (.expr c args1), s1, m1)
  | .var v =>
    match validate s v with
    | .error e => some (.error e, s, m)
    | .ok _ =>
      if generalize || v.generic then
        match m.lookup v.index with
        | some r => some (.ok r, s, m)
        | none =>
          let w := freshTypeVariable s true
          some (.ok w.1, w.2, (v.index, w.1) :: m)
      else some (.ok t, s, m)

/-- The lambda `freshImpl` of `TypeSystem::fresh`: the type is resolved, then
visited.  The fuel bounds the depth of the recursion. -/
def freshImpl : Nat → Bool → Ty → Store → Mapping → Option (FreshResult Ty)
  | 0, _, _, _, _ => none
  | n + 1, generalize, t, s, m =>
    match resolve (n + 1) s t with
    | none => none
    | some (.error e) => some (.error e, s, m)
    | some (.ok r) => freshVisit (freshImpl n generalize) generalize t s m r

/-- The body of `TypeSystem::fresh`: `freshImpl` on an empty `mapping`. -/
def fresh (n : Nat) (s : Store) (t : Ty) (generalize : Bool) : Option (FreshResult Ty) :=
  freshImpl n generalize t s []

/-- The body of `TypeSystem::builtinType`: the checked `at` of the registry,
the assertion on the arity, the expression. -/
def builtinType (s : Store) (tag : BuiltinType) (arguments : List Ty) : Except Err Ty :=
  match s.builtinTypes.lookup tag with
  | none => .error .outOfRange
  | some info =>
    if info.arity = arguments.length then .ok (.expr (.builtin tag) arguments)
    else .error .assertion

/-- The `for` loop of `tupleType` over the reversed elements without the
last one. -/
def tupleTypeLoop (s : Store) : List Ty → Ty → Except Err Ty
  | [], result => .ok result
  | type :: rest, result =>
    match builtinType s .Pair [type, result] with
    | .error e => .error e
    | .ok r => tupleTypeLoop s rest r

/-- The body of `TypeSystemHelpers::tupleType`. -/
def tupleType (s : Store) (elements : List Ty) : Except Err Ty :=
  match elements with
  | [] => builtinType s .Unit []
  | [x] => .ok x
  | x :: y :: rest =>
    tupleTypeLoop s ((x :: y :: rest).reverse.drop 1) ((x :: y :: rest).getLast (by simp))

/-- The body of `TypeSystemHelpers::destTypeExpression`. -/
def destTypeExpression : Ty → Except Err (Constructor × List Ty)
  | .expr c args => .ok (c, args)
  | .var _ => .error .assertion

/-- The `while (true)` loop of `destTupleType` on `result` and `tail`. -/
def destTupleLoop : List Ty → Ty → Except Err (List Ty)
  | result, .expr (.builtin .Pair) [a, b] => destTupleLoop (result ++ [a]) b
  | _, .expr (.builtin .Pair) _ => .error .assertion
  | result, tail => .ok (result ++ [tail])

/-- The body of `TypeSystemHelpers::destTupleType`. -/
def destTupleType (t : Ty) : Except Err (List Ty) :=
  match destTypeExpression t with
  | .error e => .error e
  | .ok (.builtin .Unit, _) => .ok []
  | .ok (.builtin .Pair, [a, b]) => destTupleLoop [a] b
  | .ok (.builtin .Pair, _) => .error .assertion
  | .ok _ => .ok [t]

/-- The body of `TypeSystem::declareBuiltinType`. -/
def declareBuiltinType (s : Store) (tag : BuiltinType) (name : String) (arity : Nat) :
    Except Err Unit × Store :=
  match s.builtinTypes.lookup tag with
  | some _ => (.error .assertion, s)
  | none => (.ok (), { s with builtinTypes := (tag, ⟨name, arity⟩) :: s.builtinTypes })

/-- A type expression whose constructor is the builtin `Pair`. -/
def isPairExpression : Ty → Bool
  | .expr (.builtin .Pair) _ => true
  | _ => false

/-- The sequences that survive `tupleType` followed by `destTupleType`: the
empty one, a single type expression that is neither `Unit` nor `Pair`, and two
or more elements the last of which is not a `Pair` expression. -/
def tupleRecoverable : List Ty → Bool
  | [] => true
  | [.var _] => false
  | [.expr c _] => decide (c ≠ .builtin .Unit) && decide (c ≠ .builtin .Pair)
  | x :: y :: rest => !isPairExpression ((x :: y :: rest).getLast (by simp))

/-- The composition `destTupleType(tupleType(xs))`; an exception of the inner
call propagates. -/
def destTupleOfTupleType (s : Store) (xs : List Ty) : Except Err (List Ty) :=
  match tupleType s xs with
  | .error e => .error e
  | .ok t => destTupleType t

/-- A store with two free slots in which `Unit`, `Pair`, `Function` and
`Integer` are declared. -/
def exampleStore : Store :=
  { self := 1
    typeVariables := [none, none]
    builtinTypes :=
      [(.Unit, ⟨"unit", 0⟩), (.Pair, ⟨"pair", 2⟩), (.Function, ⟨"fun", 2⟩),
        (.Integer, ⟨"integer", 0⟩)] }

/-- Single assignment as a relation between the store before and after a
call: the table is not shorter, and every slot that was bound is bound to the
same type. -/
def Store.preserves (s s' : Store) : Prop :=
  s.typeVariables.length ≤ s'.typeVariables.length ∧
  ∀ (i : Nat) (t : Ty), s.typeVariables[i]? = some (some t) → s'.typeVariables[i]? = some (some t)

/-- The store after some slots of `s` that were empty have been bound: nothing
else differs. -/
def Store.binds (s s' : Store) : Prop :=
  s'.self = s.self ∧ s'.builtinTypes = s.builtinTypes ∧
  s'.typeVariables.length = s.typeVariables.length ∧
  ∀ i : Nat, s'.typeVariables[i]? = s.typeVariables[i]? ∨
    (s.typeVariables[i]? = some none ∧ ∃ t, s'.typeVariables[i]? = some (some t))

/-- The store `s` with `k` empty slots appended. -/
def Store.grow (s : Store) (k : Nat) : Store :=
  { s with typeVariables := s.typeVariables ++ List.replicate k none }

/-- The shape of `mapping` while `fresh` runs on a store that had `size` slots
when the call began: the keys are distinct, and the entry added when `j`
entries were present maps to the generic variable with index `size + j` of
this store. -/
def Mapping.wellFormed (self size : Nat) : Mapping → Prop
  | [] => True
  | (i, w) :: m =>
    w = .var ⟨self, size + m.length, true⟩ ∧ i ∉ m.map Prod.fst ∧
      Mapping.wellFormed self size m


/-- What a finished call of `freshImpl` leaves behind, in terms of the store
`s0` at the start of `fresh`: the mapping has grown at the front, is still
well formed, and the store is `s0` with one empty slot per entry. -/
def FreshInv (s0 : Store) (m : Mapping) (s' : Store) (m' : Mapping) : Prop :=
  (∃ added, m' = added ++ m) ∧
    Mapping.wellFormed s0.self s0.typeVariables.length m' ∧ s' = s0.grow m'.length

/-- The failure list of two argument sequences in the words of the spec:
the arguments are unified pairwise in order, each call on the store the
previous one left, and the lists the calls return are concatenated. -/
inductive ArgumentFailures (n : Nat) :
    Store → List Ty → List Ty → List UnificationFailure → Store → Prop
  | nil (s : Store) : ArgumentFailures n s [] [] [] s
  | cons (s s1 s2 : Store) (x y : Ty) (xs ys : List Ty) (fs more : List UnificationFailure) :
    unify n s x y = some (.ok fs, s1) → ArgumentFailures n s1 xs ys more s2 →
    ArgumentFailures n s (x :: xs) (y :: ys) (fs ++ more) s2

mutual
/-- The type variables that occur in a type, from left to right. -/
def Ty.variables : Ty → List TypeVariable
  | .var v => [v]
  | .expr _ args => Ty.variablesList args
/-- The type variables that occur in a sequence of types. -/
def Ty.variablesList : List Ty → List TypeVariable
  | [] => []
  | t :: ts => Ty.variables t ++ Ty.variablesList ts
end

mutual
/-- The type with `k` added to the index of every variable in it. -/
def Ty.shift (k : Nat) : Ty → Ty
  | .var v => .var ⟨v.parent, v.index + k, v.generic⟩
  | .expr c args => .expr c (Ty.shiftList k args)
/-- The sequence with `k` added to the index of every variable in it. -/
def Ty.shiftList (k : Nat) : List Ty → List Ty
  | [] => []
  | t :: ts => Ty.shift k t :: Ty.shiftList k ts
end

/-- A traversal of arguments from left to right that gives up at the first
argument without a result. -/
def mapArguments {α : Type} (f : Ty → Option α) : List Ty → Option (List α)
  | [] => some []
  | t :: ts =>
    match f t with
    | none => none
    | some r =>
      match mapArguments f ts with
      | none => none
      | some rs => some (r :: rs)

/-- The full resolution of a type: `resolve` applied at the top and then,
recursively, to every argument.  There is no result when a `resolve` throws or
the fuel runs out. -/
def fullResolve : Nat → Store → Ty → Option Ty
  | 0, _, _ => none
  | n + 1, s, t =>
    match resolve (n + 1) s t with
    | some (.ok (.var v)) => some (.var v)
    | some (.ok (.expr c args)) =>
      match mapArguments (fullResolve n s) args with
      | none => none
      | some args1 => some (.expr c args1)
    | _ => none

/-- The copy of `t` that the spec describes for a rename map `m`: type
expressions are rebuilt after resolution, a resolved variable is replaced by
its entry in `m` when `generalize` is set or the variable is generic, and a
type that resolves to any other variable is kept as it is. -/
def renameWith (m : Mapping) (generalize : Bool) : Nat → Store → Ty → Option Ty
  | 0, _, _ => none
  | n + 1, s, t =>
    match resolve (n + 1) s t with
    | some (.ok (.var v)) => if generalize || v.generic then m.lookup v.index else some t
    | some (.ok (.expr c args)) =>
      match mapArguments (renameWith m generalize n s) args with
      | none => none
      | some args1 => some (.expr c args1)
    | _ => none

/-- The indices of the source variables that a call of `fresh` replaces: the
variables the traversal of `t` resolves to, kept when `generalize` is set or
the variable is generic, in the order of the traversal (with repetitions). -/
def replacedIndices (generalize : Bool) : Nat → Store → Ty → Option (List Nat)
  | 0, _, _ => none
  | n + 1, s, t =>
    match resolve (n + 1) s t with
    | some (.ok (.var v)) => if generalize || v.generic then some [v.index] else some []
    | some (.ok (.expr _ args)) =>
      match mapArguments (replacedIndices generalize n s) args with
      | none => none
      | some ls => some ls.flatten
    | _ => none

/-- The rename map with `k` added to the index of every variable among its
values. -/
def Mapping.shift (k : Nat) (m : Mapping) : Mapping :=
  m.map fun p => (p.1, Ty.shift k p.2)

/-- The statement that `resolve` returns `r` for `t` in the store `s`, with
the fuel left out. -/
def Resolves (s : Store) (t r : Ty) : Prop :=
  ∃ n, resolve n s t = some (.ok r)

/-- Two resolved types that `unify` treats alike: the same type expression, or
two variables. -/
def Ty.sameHead : Ty → Ty → Prop
  | .expr c xs, .expr d ys => c = d ∧ xs = ys
  | .var _, .var _ => True
  | _, _ => False

/-- Two stores that resolve every type alike: what resolves in the first
resolves in the second to the same expression or again to a variable, and two
types resolve to variables with one index in the first store exactly when
they do in the second. -/
def Store.simulates (s1 s2 : Store) : Prop :=
  (∀ t x, Resolves s1 t x → ∃ y, Resolves s2 t y ∧ Ty.sameHead x y) ∧
  (∀ t t' v v' w w', Resolves s1 t (.var v) → Resolves s1 t' (.var v') →
    Resolves s2 t (.var w) → Resolves s2 t' (.var w') →
    (v.index = v'.index ↔ w.index = w'.index))

/-- The resolution of a type after the empty slot `i` has been bound to `x`:
a variable with index `i` now resolves to `x`, everything else as before. -/
def Ty.rebind (i : Nat) (x : Ty) : Ty → Ty
  | .var u => if u.index = i then x else .var u
  | .expr c xs => .expr c xs

/-- Every variable in the type belongs to the store with identity `self`. -/
def Ty.localTo (self : Nat) (t : Ty) : Prop :=
  ∀ v ∈ t.variables, v.parent = self

/-- Every variable in a bound slot belongs to the store itself. -/
def Store.local (s : Store) : Prop :=
  ∀ (i : Nat) (t : Ty), s.typeVariables[i]? = some (some t) → Ty.localTo s.self t

/-- The body of `TypeSystemHelpers::functionType`. -/
def functionType (s : Store) (argType resultType : Ty) : Except Err Ty :=
  builtinType s .Function [argType, resultType]

/-- The body of `TypeSystemHelpers::destFunctionType`: the assertion of
`destTypeExpression`, the assertion on the constructor, the assertion on the
number of arguments, then `front` and `back`. -/
def destFunctionType (t : Ty) : Except Err (Ty × Ty) :=
  match destTypeExpression t with
  | .error e => .error e
  | .ok (.builtin .Function, [a, b]) => .ok (a, b)
  | .ok _ => .error .assertion

/-- The composition `destFunctionType(functionType(a, b))`; an exception of
the inner call propagates. -/
def destFunctionOfFunctionType (s : Store) (a b : Ty) : Except Err (Ty × Ty) :=
  match functionType s a b with
  | .error e => .error e
  | .ok t => destFunctionType t

/-- The result of `destTupleType` with one more element in front; an
exception stays as it is. -/
def consResult (a : Ty) : Except Err (List Ty) → Except Err (List Ty)
  | .error e => .error e
  | .ok l => .ok (a :: l)

/-- The substitution chain that starts at a type, as the list of the indices
of the variables `resolve` visits within `n` iterations: a variable with a
bound slot is followed by the chain of the type in the slot. -/
def chain : Nat → Store → Ty → List Nat
  | _, _, .expr _ _ => []
  | 0, _, .var _ => []
  | n + 1, s, .var v =>
    v.index ::
      (match s.typeVariables[v.index]? with
      | some (some t) => chain n s t
      | _ => [])

/-- The first element of the chain of `t` that is a type expression or a
variable with an empty slot, in the words of the spec. -/
inductive ChainEnds (s : Store) : Ty → Ty → Prop
  | expr (c : Constructor) (args : List Ty) : ChainEnds s (.expr c args) (.expr c args)
  | unbound (v : TypeVariable) : s.typeVariables[v.index]? = some none →
    ChainEnds s (.var v) (.var v)
  | step (v : TypeVariable) (t r : Ty) : s.typeVariables[v.index]? = some (some t) →
    ChainEnds s t r → ChainEnds s (.var v) r

/-- Every variable in the type satisfies `P`. -/
def Ty.allVariables (P : TypeVariable → Prop) (t : Ty) : Prop :=
  ∀ v ∈ t.variables, P v

/-- Every variable in a bound slot satisfies `P`. -/
def Store.allVariables (P : TypeVariable → Prop) (s : Store) : Prop :=
  ∀ (i : Nat) (t : Ty), s.typeVariables[i]? = some (some t) → Ty.allVariables P t

/-- Every chain of bound slots that starts at a variable of the table ends: in
a type expression or in a variable with an empty slot. -/
def Store.terminating (s : Store) : Prop :=
  ∀ v : TypeVariable, v.index < s.typeVariables.length → ∃ r, Resolves s (.var v) r

/-- The stores that can be reached from a store with an empty table by
`freshTypeVariable`, `unify` and `fresh`, whether the calls return or throw;
`instantiate` is not called directly. -/
inductive Reachable : Store → Prop
  | empty (self : Nat) (registry : List (BuiltinType × TypeConstructorInfo)) :
    Reachable ⟨self, [], registry⟩
  | freshTypeVariable (s : Store) (generic : Bool) :
    Reachable s → Reachable (freshTypeVariable s generic).2
  | unify (s : Store) (n : Nat) (a b : Ty) (res : UnifyResult) :
    Reachable s → unify n s a b = some res → Reachable res.2
  | fresh (s : Store) (n : Nat) (t : Ty) (generalize : Bool) (res : FreshResult Ty) :
    Reachable s → fresh n s t generalize = some res → Reachable res.2.1

/-- Modelled from the spec: `builtinTypeName`, declared in the header, which
is not part of the sources at hand.  The spec prints a builtin by its
registered name, so this is the name the registry holds for the tag (the
checked `at` throws when the tag is not declared). -/
def builtinTypeName (s : Store) (tag : BuiltinType) : Except Err String :=
  match s.builtinTypes.lookup tag with
  | none => .error .outOfRange
  | some info => .ok info.name

/-- Sequencing of two steps of `typeToString`: no result when the first step
has none, its exception when it throws, the second step otherwise. -/
def thenPrint {α : Type} (x : Option (Except Err α))
    (k : α → Option (Except Err String)) : Option (Except Err String) :=
  match x with
  | none => none
  | some (.error e) => some (.error e)
  | some (.ok a) => k a

/-- The two loops of `typeToString` that print a non-empty sequence of types:
every element but the last followed by `", "`, then the last; `f` is the
recursive call. -/
def printSequence (f : Ty → Option (Except Err String)) : List Ty → Option (Except Err String)
  | [] => some (.ok "")
  | [t] => f t
  | t :: rest =>
    thenPrint (f t) fun x => thenPrint (printSequence f rest) fun y => some (.ok (x ++ ", " ++ y))

/-- The lambda `printTypeArguments` of `typeToString`: nothing for no
arguments, otherwise the arguments in parentheses and a blank. -/
def printTypeArguments (f : Ty → Option (Except Err String)) (arguments : List Ty) :
    Option (Except Err String) :=
  match arguments with
  | [] => some (.ok "")
  | _ :: _ => thenPrint (printSequence f arguments) fun x => some (.ok ("(" ++ x ++ ") "))

/-- The `std::visit` of `typeToString` on the resolved type; `names` gives
the name of a user declaration, and `f` is the recursive call.  A variable is
printed with `?` when generic and with an apostrophe otherwise. -/
def typeToStringVisit (names : Nat → String) (s : Store) (f : Ty → Option (Except Err String)) :
    Ty → Option (Except Err String)
  | .var v => some (.ok ((if v.generic then "?" else "\x27") ++ "var" ++ toString v.index))
  | .expr (.declaration ptr) arguments =>
    thenPrint (printTypeArguments f arguments) fun x => some (.ok (x ++ names ptr))
  | .expr (.builtin .Function) arguments =>
    match arguments with
    | [a, b] => thenPrint (f a) fun x => thenPrint (f b) fun y => some (.ok (x ++ " -> " ++ y))
    | _ => some (.error .assertion)
  | .expr (.builtin .Unit) arguments =>
    match arguments with
    | [] => some (.ok "()")
    | _ :: _ => some (.error .assertion)
  | .expr (.builtin .Pair) arguments =>
    match destTupleType (.expr (.builtin .Pair) arguments) with
    | .error e => some (.error e)
    | .ok tupleTypes => thenPrint (printSequence f tupleTypes) fun x => some (.ok ("(" ++ x ++ ")"))
  | .expr (.builtin tag) arguments =>
    thenPrint (printTypeArguments f arguments) fun x =>
      match builtinTypeName s tag with
      | .error e => some (.error e)
      | .ok name => some (.ok (x ++ name))

/-- The body of `TypeSystem::typeToString`: the type is resolved, then
visited.  The fuel bounds the depth of the recursion. -/
def typeToString (names : Nat → String) : Nat → Store → Ty → Option (Except Err String)
  | 0, _, _ => none
  | n + 1, s, t =>
    match resolve (n + 1) s t with
    | none => none
    | some (.error e) => some (.error e)
    | some (.ok r) => typeToStringVisit names s (typeToString names n s) r

/-- The statement that the full resolution of `t` in the store `s` is finite
and is `u`, with the fuel left out. -/
def FullResolves (s : Store) (t u : Ty) : Prop :=
  ∃ n, fullResolve n s t = some u

mutual
/-- A type in which every `Unit` has no arguments and every `Pair` has exactly
two arguments, at every depth. -/
def Ty.tupleWellFormed : Ty → Bool
  | .var _ => true
  | .expr c args =>
    (match c with
      | .builtin .Unit => decide (args.length = 0)
      | .builtin .Pair => decide (args.length = 2)
      | _ => true) && Ty.tupleWellFormedList args
/-- Every type of the sequence is well formed in the sense of
`Ty.tupleWellFormed`. -/
def Ty.tupleWellFormedList : List Ty → Bool
  | [] => true
  | t :: ts => Ty.tupleWellFormed t && Ty.tupleWellFormedList ts
end

/-- The composition `tupleType(destTupleType(t))`; an exception of the inner
call propagates. -/
def tupleOfDestTupleType (s : Store) (t : Ty) : Except Err Ty :=
  match destTupleType t with
  | .error e => .error e
  | .ok xs => tupleType s xs

/-! ## Properties of the embedding -/

theorem resolve_expr (n : Nat) (s : Store) (c : Constructor) (args : List Ty) :
    resolve n s (.expr c args) = some (.ok (.expr c args)) := by
  cases n <;> rfl

theorem resolve_var_succ (n : Nat) (s : Store) (v : TypeVariable) :
    resolve (n + 1) s (.var v) =
      match s.typeVariables[v.index]? with
      | none => some (.error .outOfRange)
      | some none => some (.ok (.var v))
      | some (some t) => resolve n s t := rfl

theorem resolve_shape (n : Nat) (s : Store) (t r : Ty) (h : resolve n s t = some (.ok r)) :
    (∃ c args, r = .expr c args) ∨ (∃ v, r = .var v ∧ s.typeVariables[v.index]? = some none) := by
  induction n generalizing t with
  | zero =>
    cases t with
    | var v => simp [resolve] at h
    | expr c args =>
      rw [resolve_expr] at h
      exact Or.inl ⟨c, args, by simpa using h.symm⟩
  | succ n ih =>
    cases t with
    | expr c args =>
      rw [resolve_expr] at h
      exact Or.inl ⟨c, args, by simpa using h.symm⟩
    | var v =>
      rw [resolve_var_succ] at h
      split at h
      · simp at h
      · rename_i hs
        exact Or.inr ⟨v, by simpa using h.symm, hs⟩
      · exact ih _ h

/-- C5: `resolve` is idempotent.  When `resolve` returns `r` for `t`, it returns
`r` for `r` as well, and `r` is a type expression or a variable whose slot is
empty. -/
theorem resolve_idempotent (n : Nat) (s : Store) (t r : Ty)
    (h : resolve n s t = some (.ok r)) :
    resolve n s r = some (.ok r) ∧
      ((∃ c args, r = .expr c args) ∨
        (∃ v, r = .var v ∧ s.typeVariables[v.index]? = some none)) := by
  refine ⟨?_, resolve_shape n s t r h⟩
  rcases resolve_shape n s t r h with ⟨c, args, rfl⟩ | ⟨v, rfl, hv⟩
  · exact resolve_expr n s c args
  · cases n with
    | zero =>
      cases t with
      | var w => simp [resolve] at h
      | expr c args => rw [resolve_expr] at h; simp at h
    | succ n => rw [resolve_var_succ, hv]

theorem destTupleLoop_length (acc : List Ty) (t : Ty) (r : List Ty)
    (h : destTupleLoop acc t = .ok r) : acc.length + 1 ≤ r.length := by
  induction acc, t using destTupleLoop.induct generalizing r with
  | case1 acc a b ih =>
    rw [destTupleLoop] at h
    have := ih r h
    simp at this
    omega
  | case2 acc args hne =>
    rw [destTupleLoop.eq_2 _ _ hne] at h
    cases h
  | case3 acc t h1 h2 =>
    rw [destTupleLoop.eq_3 _ _ h1 h2] at h
    cases h; simp

theorem destTupleLoop_not_pair (acc : List Ty) (t : Ty) (h : isPairExpression t = false) :
    destTupleLoop acc t = .ok (acc ++ [t]) := by
  apply destTupleLoop.eq_3
  · intro a b e; subst e; simp [isPairExpression] at h
  · intro args e; subst e; simp [isPairExpression] at h

theorem destTupleLoop_pair_length (acc : List Ty) (t : Ty) (r : List Ty)
    (hp : isPairExpression t = true) (h : destTupleLoop acc t = .ok r) :
    acc.length + 2 ≤ r.length := by
  cases t with
  | var v => simp [isPairExpression] at hp
  | expr c args =>
    by_cases hargs : ∃ a b, args = [a, b]
    · obtain ⟨a, b, rfl⟩ := hargs
      cases c with
      | declaration p => simp [isPairExpression] at hp
      | builtin tag =>
        cases tag <;> simp [isPairExpression] at hp
        rw [destTupleLoop] at h
        have := destTupleLoop_length _ _ _ h
        simp at this
        omega
    · cases c with
      | declaration p => simp [isPairExpression] at hp
      | builtin tag =>
        cases tag <;> simp [isPairExpression] at hp
        rw [destTupleLoop.eq_2] at h
        · cases h
        · intro a b e; exact hargs ⟨a, b, e⟩

theorem tupleTypeLoop_eq (s : Store) (name : String)
    (hPair : s.builtinTypes.lookup .Pair = some ⟨name, 2⟩) (pre : List Ty) (acc : Ty) :
    tupleTypeLoop s pre acc
      = .ok (pre.foldl (fun r t => .expr (.builtin .Pair) [t, r]) acc) := by
  induction pre generalizing acc with
  | nil => rfl
  | cons t rest ih =>
    simp only [tupleTypeLoop, builtinType, hPair, List.foldl_cons]
    simpa using ih _

theorem destTupleLoop_chain (acc pre : List Ty) (last : Ty) :
    destTupleLoop acc (pre.foldr (fun t r => .expr (.builtin .Pair) [t, r]) last)
      = destTupleLoop (acc ++ pre) last := by
  induction pre generalizing acc with
  | nil => simp
  | cons t rest ih =>
    simp only [List.foldr_cons]
    rw [destTupleLoop, ih]
    simp

theorem tupleType_two (s : Store) (name : String)
    (hPair : s.builtinTypes.lookup .Pair = some ⟨name, 2⟩) (x y : Ty) (rest : List Ty) :
    tupleType s (x :: y :: rest)
      = .ok (.expr (.builtin .Pair) [x, ((y :: rest).dropLast).foldr
          (fun t r => .expr (.builtin .Pair) [t, r]) ((y :: rest).getLast (by simp))]) := by
  show tupleTypeLoop s ((x :: y :: rest).reverse.drop 1) ((x :: y :: rest).getLast (by simp)) = _
  rw [tupleTypeLoop_eq s name hPair]
  have h1 : (x :: y :: rest).reverse.drop 1 = ((x :: y :: rest).dropLast).reverse := by
    rw [List.dropLast_eq_take]
    rw [List.reverse_take]
    simp
  rw [h1, List.foldl_reverse]
  have h2 : (x :: y :: rest).dropLast = x :: (y :: rest).dropLast := by simp
  have h3 : (x :: y :: rest).getLast (by simp) = (y :: rest).getLast (by simp) := by simp
  rw [h2, h3]
  rfl

theorem destTupleOfTupleType_two (s : Store) (name : String)
    (hPair : s.builtinTypes.lookup .Pair = some ⟨name, 2⟩) (x y : Ty) (rest : List Ty) :
    destTupleOfTupleType s (x :: y :: rest)
      = destTupleLoop (x :: (y :: rest).dropLast) ((y :: rest).getLast (by simp)) := by
  unfold destTupleOfTupleType
  rw [tupleType_two s name hPair]
  simp only [destTupleType, destTypeExpression]
  rw [destTupleLoop_chain]
  simp

/-- C4 (amended): with `Unit` declared at arity 0 and `Pair` at arity 2,
`destTupleType(tupleType(xs))` returns `xs` exactly when `xs` is empty, or is a
single type expression that is neither `Unit` nor `Pair`, or has two or more
elements the last of which is not a `Pair` expression. -/
theorem destTupleType_tupleType_iff (s : Store) (nameUnit namePair : String)
    (hUnit : s.builtinTypes.lookup .Unit = some ⟨nameUnit, 0⟩)
    (hPair : s.builtinTypes.lookup .Pair = some ⟨namePair, 2⟩) (xs : List Ty) :
    destTupleOfTupleType s xs = .ok xs ↔ tupleRecoverable xs = true := by
  match xs with
  | [] =>
    simp [destTupleOfTupleType, tupleType, builtinType, hUnit, destTupleType,
      destTypeExpression, tupleRecoverable]
  | [.var v] =>
    simp [destTupleOfTupleType, tupleType, destTupleType, destTypeExpression, tupleRecoverable]
  | [.expr c args] =>
    cases c with
    | declaration p =>
      simp [destTupleOfTupleType, tupleType, destTupleType, destTypeExpression, tupleRecoverable]
    | builtin tag =>
      cases tag
      case Unit =>
        simp [destTupleOfTupleType, tupleType, destTupleType, destTypeExpression,
          tupleRecoverable]
      case Pair =>
        simp only [tupleRecoverable, destTupleOfTupleType, tupleType]
        constructor
        · intro h
          exfalso
          match args, h with
          | [a, b], h =>
            simp only [destTupleType, destTypeExpression] at h
            have := destTupleLoop_length _ _ _ h
            simp at this
          | [], h => simp [destTupleType, destTypeExpression] at h
          | [_], h => simp [destTupleType, destTypeExpression] at h
          | _ :: _ :: _ :: _, h => simp [destTupleType, destTypeExpression] at h
        · intro h; simp at h
      all_goals
        simp [destTupleOfTupleType, tupleType, destTupleType, destTypeExpression,
          tupleRecoverable]
  | x :: y :: rest =>
    rw [destTupleOfTupleType_two s namePair hPair]
    simp only [tupleRecoverable]
    cases hp : isPairExpression ((y :: rest).getLast (by simp)) with
    | false =>
      rw [destTupleLoop_not_pair _ _ hp]
      have h3 : (x :: y :: rest).getLast (by simp) = (y :: rest).getLast (by simp) := by simp
      rw [h3, hp]
      simp only [Bool.not_false, iff_true]
      have := List.dropLast_append_getLast (l := y :: rest) (by simp)
      simp only [List.cons_append]
      rw [this]
    | true =>
      have h3 : (x :: y :: rest).getLast (by simp) = (y :: rest).getLast (by simp) := by simp
      rw [h3, hp]
      simp only [Bool.not_true, Bool.false_eq_true, iff_false]
      intro h
      have := destTupleLoop_pair_length _ _ _ hp h
      simp at this

/-- C4 fails on the singleton `[Unit]` (the result is empty), on a singleton
`Pair` (its two arguments come back), on a singleton variable (the assertion of
`destTypeExpression` fails) and on a last element that is a `Pair` (it is
flattened). -/
theorem destTupleType_tupleType_counterexample :
    destTupleOfTupleType exampleStore [.expr (.builtin .Unit) []] = .ok [] ∧
    destTupleOfTupleType exampleStore [.expr (.builtin .Unit) []]
      ≠ .ok [.expr (.builtin .Unit) []] ∧
    destTupleOfTupleType exampleStore
        [.expr (.builtin .Pair) [.expr (.builtin .Integer) [], .expr (.builtin .Integer) []]]
      = .ok [.expr (.builtin .Integer) [], .expr (.builtin .Integer) []] ∧
    destTupleOfTupleType exampleStore [.var ⟨1, 0, false⟩] = .error .assertion ∧
    destTupleOfTupleType exampleStore
        [.var ⟨1, 0, false⟩, .expr (.builtin .Pair) [.var ⟨1, 1, false⟩, .expr (.builtin .Unit) []]]
      = .ok [.var ⟨1, 0, false⟩, .var ⟨1, 1, false⟩, .expr (.builtin .Unit) []] := by
  decide

/-- C4 (amended), at a sequence of three elements that ends in a variable. -/
theorem destTupleType_tupleType_iff_witness :
    destTupleOfTupleType exampleStore
        [.var ⟨1, 0, false⟩, .expr (.builtin .Integer) [], .var ⟨1, 1, false⟩]
      = .ok [.var ⟨1, 0, false⟩, .expr (.builtin .Integer) [], .var ⟨1, 1, false⟩] :=
  (destTupleType_tupleType_iff exampleStore "unit" "pair" (by decide) (by decide) _).2 (by decide)

/-- C5, on a chain of two bound slots that ends in an empty one. -/
theorem resolve_idempotent_witness :
    resolve 3 ⟨1, [some (.var ⟨1, 1, false⟩), some (.var ⟨1, 2, true⟩), none], []⟩
        (.var ⟨1, 2, true⟩) = some (.ok (.var ⟨1, 2, true⟩)) :=
  (resolve_idempotent 3 ⟨1, [some (.var ⟨1, 1, false⟩), some (.var ⟨1, 2, true⟩), none], []⟩
    (.var ⟨1, 0, false⟩) (.var ⟨1, 2, true⟩) rfl).1

theorem Store.preserves_refl (s : Store) : s.preserves s :=
  ⟨Nat.le_refl _, fun _ _ h => h⟩

theorem Store.preserves_trans {s1 s2 s3 : Store} (h12 : s1.preserves s2)
    (h23 : s2.preserves s3) : s1.preserves s3 :=
  ⟨Nat.le_trans h12.1 h23.1, fun i t h => h23.2 i t (h12.2 i t h)⟩

theorem Store.binds_refl (s : Store) : s.binds s :=
  ⟨rfl, rfl, rfl, fun _ => Or.inl rfl⟩

theorem Store.binds_trans {s1 s2 s3 : Store} (h12 : s1.binds s2) (h23 : s2.binds s3) :
    s1.binds s3 := by
  obtain ⟨a1, b1, c1, d1⟩ := h12
  obtain ⟨a2, b2, c2, d2⟩ := h23
  refine ⟨a2.trans a1, b2.trans b1, c2.trans c1, fun i => ?_⟩
  rcases d1 i with e1 | ⟨e1, t, ht⟩
  · rcases d2 i with e2 | ⟨e2, t, ht⟩
    · exact Or.inl (e2.trans e1)
    · exact Or.inr ⟨e1 ▸ e2, t, ht⟩
  · rcases d2 i with e2 | ⟨e2, u, _⟩
    · exact Or.inr ⟨e1, t, e2.trans ht⟩
    · rw [ht] at e2; cases e2

theorem Store.binds_preserves {s s' : Store} (h : s.binds s') : s.preserves s' := by
  obtain ⟨_, _, c, d⟩ := h
  refine ⟨Nat.le_of_eq c.symm, fun i t hi => ?_⟩
  rcases d i with e | ⟨e, _⟩
  · rw [e, hi]
  · rw [hi] at e; cases e

theorem Store.grow_preserves (s : Store) (k : Nat) : s.preserves (s.grow k) := by
  refine ⟨by simp [Store.grow], fun i t hi => ?_⟩
  have hlt : i < s.typeVariables.length := by
    by_contra hge
    rw [List.getElem?_eq_none (by omega)] at hi
    cases hi
  simp only [Store.grow]
  rw [List.getElem?_append_left hlt]
  exact hi

theorem Store.grow_zero (s : Store) : s.grow 0 = s := by
  cases s
  simp [Store.grow]

theorem Store.grow_grow (s : Store) (j k : Nat) : (s.grow j).grow k = s.grow (j + k) := by
  simp only [Store.grow, List.append_assoc, List.replicate_add]

theorem freshTypeVariable_store (s : Store) (g : Bool) :
    (freshTypeVariable s g).2 = s.grow 1 := rfl

theorem instantiate_cases (s : Store) (v : TypeVariable) (t : Ty) :
    (∃ e, instantiate s v t = (.error e, s)) ∨
    (v.parent = s.self ∧ s.typeVariables[v.index]? = some none ∧
      instantiate s v t
        = (.ok (), { s with typeVariables := s.typeVariables.set v.index (some t) })) := by
  unfold instantiate validate
  by_cases hp : v.parent = s.self
  · by_cases hr : v.index < s.typeVariables.length
    · simp only [hp, ne_eq, not_true_eq_false, if_false, hr]
      cases hs : s.typeVariables[v.index]? with
      | none => exact Or.inl ⟨_, rfl⟩
      | some o =>
        cases o with
        | none => exact Or.inr ⟨trivial, rfl, rfl⟩
        | some u => exact Or.inl ⟨_, rfl⟩
    · simp only [hp, ne_eq, not_true_eq_false, if_false, hr, if_true]
      exact Or.inl ⟨_, rfl⟩
  · simp only [ne_eq, hp, not_false_eq_true, if_true]
    exact Or.inl ⟨_, rfl⟩

theorem instantiate_bound (s : Store) (v : TypeVariable) (t u : Ty)
    (h : s.typeVariables[v.index]? = some (some u)) :
    instantiate s v t = (.error .assertion, s) := by
  unfold instantiate validate
  by_cases hp : v.parent = s.self
  · by_cases hr : v.index < s.typeVariables.length
    · simp [hp, hr, h]
    · simp [hp, hr]
  · simp [hp]

theorem set_binds (s : Store) (i : Nat) (t : Ty) (h : s.typeVariables[i]? = some none) :
    s.binds { s with typeVariables := s.typeVariables.set i (some t) } := by
  refine ⟨rfl, rfl, by simp, fun j => ?_⟩
  by_cases hj : i = j
  · subst hj
    refine Or.inr ⟨h, t, ?_⟩
    have hlt : i < s.typeVariables.length := by
      by_contra hge
      rw [List.getElem?_eq_none (by omega)] at h
      cases h
    simp [List.getElem?_set, hlt]
  · exact Or.inl (by simp [List.getElem?_set, hj])

theorem instantiate_binds (s : Store) (v : TypeVariable) (t : Ty) :
    s.binds (instantiate s v t).2 := by
  rcases instantiate_cases s v t with ⟨e, h⟩ | ⟨_, hs, h⟩
  · rw [h]; exact Store.binds_refl s
  · rw [h]; exact set_binds s _ t hs

theorem afterInstantiate_store (x : Except Err Unit × Store) (r : UnifyResult)
    (h : afterInstantiate x = some r) : r.2 = x.2 := by
  obtain ⟨o, s1⟩ := x
  cases o <;> (simp only [afterInstantiate, Option.some.injEq] at h; subst h; rfl)

theorem unifyArguments_binds (u : Store → Ty → Ty → Option UnifyResult)
    (hu : ∀ s a b r, u s a b = some r → s.binds r.2) (l : List (Ty × Ty)) (s : Store)
    (r : UnifyResult) (h : unifyArguments u l s = some r) : s.binds r.2 := by
  induction l generalizing s r with
  | nil =>
    simp only [unifyArguments, Option.some.injEq] at h
    subst h
    exact Store.binds_refl s
  | cons p rest ih =>
    obtain ⟨left, right⟩ := p
    simp only [unifyArguments] at h
    split at h
    · cases h
    · rename_i e s1 hu1
      cases h
      exact hu _ _ _ _ hu1
    · rename_i fs s1 hu1
      have h1 : s.binds s1 := hu _ _ _ _ hu1
      split at h
      · cases h
      · rename_i e s2 hr
        cases h
        exact Store.binds_trans h1 (ih s1 (.error e, s2) hr)
      · rename_i more s2 hr
        cases h
        exact Store.binds_trans h1 (ih s1 (.ok more, s2) hr)

theorem unifyVisit_binds (u : Store → Ty → Ty → Option UnifyResult)
    (hu : ∀ s a b r, u s a b = some r → s.binds r.2) (s : Store) (ra rb : Ty)
    (r : UnifyResult) (h : unifyVisit u s ra rb = some r) : s.binds r.2 := by
  cases ra with
  | var v =>
    cases rb with
    | var w =>
      simp only [unifyVisit] at h
      split at h
      · cases h; exact Store.binds_refl s
      · split at h
        · cases h; exact Store.binds_refl s
        · split at h
          · rw [afterInstantiate_store _ _ h]; exact instantiate_binds s _ _
          · cases h; exact Store.binds_refl s
    | expr d ys =>
      simp only [unifyVisit] at h
      rw [afterInstantiate_store _ _ h]; exact instantiate_binds s _ _
  | expr c xs =>
    cases rb with
    | var w =>
      simp only [unifyVisit] at h
      rw [afterInstantiate_store _ _ h]; exact instantiate_binds s _ _
    | expr d ys =>
      simp only [unifyVisit] at h
      split at h
      · cases h; exact Store.binds_refl s
      · split at h
        · cases h; exact Store.binds_refl s
        · exact unifyArguments_binds u hu _ _ _ h

theorem unify_binds (n : Nat) (s : Store) (a b : Ty) (r : UnifyResult)
    (h : unify n s a b = some r) : s.binds r.2 := by
  induction n generalizing s a b r with
  | zero => simp [unify] at h
  | succ n ih =>
    simp only [unify] at h
    split at h
    · cases h
    · cases h; exact Store.binds_refl s
    · split at h
      · cases h
      · cases h; exact Store.binds_refl s
      · exact unifyVisit_binds (unify n) ih _ _ _ _ h

theorem Store.grow_length (s : Store) (k : Nat) :
    (s.grow k).typeVariables.length = s.typeVariables.length + k := by
  simp [Store.grow]

theorem Store.grow_self (s : Store) (k : Nat) : (s.grow k).self = s.self := rfl

theorem freshTypeVariable_grow (s : Store) (k : Nat) (g : Bool) :
    freshTypeVariable (s.grow k) g
      = (.var ⟨s.self, s.typeVariables.length + k, g⟩, s.grow (k + 1)) := by
  simp only [freshTypeVariable, Store.grow_length, Store.grow_self]
  rw [← Store.grow_grow]
  rfl

theorem FreshInv.refl (s0 : Store) (m : Mapping)
    (hm : Mapping.wellFormed s0.self s0.typeVariables.length m) :
    FreshInv s0 m (s0.grow m.length) m :=
  ⟨⟨[], rfl⟩, hm, rfl⟩

theorem FreshInv.trans {s0 : Store} {m m1 m2 : Mapping} {s1 s2 : Store}
    (h1 : FreshInv s0 m s1 m1) (h2 : FreshInv s0 m1 s2 m2) : FreshInv s0 m s2 m2 := by
  obtain ⟨⟨a1, e1⟩, _, _⟩ := h1
  obtain ⟨⟨a2, e2⟩, w2, g2⟩ := h2
  exact ⟨⟨a2 ++ a1, by rw [e2, e1, List.append_assoc]⟩, w2, g2⟩

theorem freshArguments_inv (f : Ty → Store → Mapping → Option (FreshResult Ty)) (s0 : Store)
    (hf : ∀ t m res, Mapping.wellFormed s0.self s0.typeVariables.length m →
      f t (s0.grow m.length) m = some res → FreshInv s0 m res.2.1 res.2.2)
    (args : List Ty) (m : Mapping) (res : FreshResult (List Ty))
    (hm : Mapping.wellFormed s0.self s0.typeVariables.length m)
    (h : freshArguments f args (s0.grow m.length) m = some res) :
    FreshInv s0 m res.2.1 res.2.2 := by
  induction args generalizing m res with
  | nil =>
    simp only [freshArguments, Option.some.injEq] at h
    subst h
    exact FreshInv.refl s0 m hm
  | cons t rest ih =>
    simp only [freshArguments] at h
    split at h
    · cases h
    · rename_i e s1 m1 h1
      cases h
      exact hf _ _ _ hm h1
    · rename_i t1 s1 m1 h1
      have i1 : FreshInv s0 m s1 m1 := hf _ _ _ hm h1
      have hs1 : s1 = s0.grow m1.length := i1.2.2
      subst hs1
      split at h
      · cases h
      · rename_i e s2 m2 h2
        cases h
        exact FreshInv.trans i1 (ih m1 (.error e, s2, m2) i1.2.1 h2)
      · rename_i r s2 m2 h2
        cases h
        exact FreshInv.trans i1 (ih m1 (.ok r, s2, m2) i1.2.1 h2)

theorem lookup_none_not_mem (m : Mapping) (i : Nat) (h : m.lookup i = none) :
    i ∉ m.map Prod.fst := by
  induction m with
  | nil => simp
  | cons p rest ih =>
    obtain ⟨j, w⟩ := p
    simp only [List.lookup] at h
    split at h
    · cases h
    · rename_i hne
      simp only [List.map_cons, List.mem_cons, not_or]
      refine ⟨fun e => ?_, ih h⟩
      subst e
      simp at hne

theorem freshVisit_inv (f : Ty → Store → Mapping → Option (FreshResult Ty)) (s0 : Store)
    (hf : ∀ t m res, Mapping.wellFormed s0.self s0.typeVariables.length m →
      f t (s0.grow m.length) m = some res → FreshInv s0 m res.2.1 res.2.2)
    (g : Bool) (t r : Ty) (m : Mapping) (res : FreshResult Ty)
    (hm : Mapping.wellFormed s0.self s0.typeVariables.length m)
    (h : freshVisit f g t (s0.grow m.length) m r = some res) :
    FreshInv s0 m res.2.1 res.2.2 := by
  cases r with
  | expr c args =>
    simp only [freshVisit] at h
    split at h
    · cases h
    · rename_i e s1 m1 h1
      cases h
      exact freshArguments_inv f s0 hf args m _ hm h1
    · rename_i a1 s1 m1 h1
      cases h
      exact freshArguments_inv f s0 hf args m _ hm h1
  | var v =>
    simp only [freshVisit] at h
    split at h
    · cases h; exact FreshInv.refl s0 m hm
    · split at h
      · split at h
        · cases h; exact FreshInv.refl s0 m hm
        · rename_i hl
          rw [freshTypeVariable_grow] at h
          cases h
          refine ⟨⟨[_], rfl⟩, ⟨rfl, lookup_none_not_mem m _ hl, hm⟩, rfl⟩
      · cases h; exact FreshInv.refl s0 m hm

theorem freshImpl_inv (n : Nat) (g : Bool) (s0 : Store) (t : Ty) (m : Mapping)
    (res : FreshResult Ty) (hm : Mapping.wellFormed s0.self s0.typeVariables.length m)
    (h : freshImpl n g t (s0.grow m.length) m = some res) :
    FreshInv s0 m res.2.1 res.2.2 := by
  induction n generalizing t m res with
  | zero => simp [freshImpl] at h
  | succ n ih =>
    simp only [freshImpl] at h
    split at h
    · cases h
    · cases h; exact FreshInv.refl s0 m hm
    · exact freshVisit_inv _ s0 (fun t m res hm h => ih t m res hm h) g t _ m res hm h

theorem fresh_inv (n : Nat) (s : Store) (t : Ty) (g : Bool) (res : FreshResult Ty)
    (h : fresh n s t g = some res) : FreshInv s [] res.2.1 res.2.2 := by
  unfold fresh at h
  have := freshImpl_inv n g s t [] res trivial (by simpa [Store.grow_zero] using h)
  exact this

/-- C9: single assignment.  `instantiate` on a variable whose slot is bound
fails an assertion and leaves the store as it was; and `freshTypeVariable`,
`instantiate`, `unify` and `fresh` (whether they return or throw) leave a
table that is not shorter and in which every slot that was bound is bound to
the same type.  More precisely `instantiate` and `unify` keep the length and
only fill empty slots, and `freshTypeVariable` and `fresh` only append empty
slots. -/
theorem single_assignment (s : Store) :
    (∀ (v : TypeVariable) (t u : Ty), s.typeVariables[v.index]? = some (some u) →
      instantiate s v t = (.error .assertion, s)) ∧
    (∀ g : Bool, s.preserves (freshTypeVariable s g).2 ∧ (freshTypeVariable s g).2 = s.grow 1) ∧
    (∀ (v : TypeVariable) (t : Ty),
      s.preserves (instantiate s v t).2 ∧ s.binds (instantiate s v t).2) ∧
    (∀ (n : Nat) (a b : Ty) (res : UnifyResult), unify n s a b = some res →
      s.preserves res.2 ∧ s.binds res.2) ∧
    (∀ (n : Nat) (t : Ty) (g : Bool) (res : FreshResult Ty), fresh n s t g = some res →
      s.preserves res.2.1 ∧ ∃ k, res.2.1 = s.grow k) := by
  refine ⟨fun v t u h => instantiate_bound s v t u h,
    fun g => ⟨Store.grow_preserves s 1, rfl⟩,
    fun v t => ⟨Store.binds_preserves (instantiate_binds s v t), instantiate_binds s v t⟩,
    fun n a b res h => ⟨Store.binds_preserves (unify_binds n s a b res h),
      unify_binds n s a b res h⟩,
    fun n t g res h => ?_⟩
  have := (fresh_inv n s t g res h).2.2
  rw [this]
  exact ⟨Store.grow_preserves s _, _, rfl⟩

/-- C9, at a store whose slot 0 is bound to `Integer`: binding it again fails
and changes nothing, and a `unify` that binds slot 1 keeps slot 0. -/
theorem single_assignment_witness :
    instantiate { exampleStore with typeVariables := [some (.expr (.builtin .Integer) []), none] }
        ⟨1, 0, false⟩ (.expr (.builtin .Unit) [])
      = (.error .assertion,
          { exampleStore with typeVariables := [some (.expr (.builtin .Integer) []), none] }) ∧
    Store.preserves
      { exampleStore with typeVariables := [some (.expr (.builtin .Integer) []), none] }
      { exampleStore with
        typeVariables := [some (.expr (.builtin .Integer) []), some (.expr (.builtin .Unit) [])] } :=
  ⟨(single_assignment _).1 ⟨1, 0, false⟩ _ (.expr (.builtin .Integer) []) rfl,
    ((single_assignment
        { exampleStore with typeVariables := [some (.expr (.builtin .Integer) []), none] }).2.2.2.1
      1 (.var ⟨1, 1, false⟩) (.expr (.builtin .Unit) [])
      (.ok [], { exampleStore with
        typeVariables :=
          [some (.expr (.builtin .Integer) []), some (.expr (.builtin .Unit) [])] }) rfl).1⟩

/-- C10: for a declared tag, `builtinType` fails its assertion exactly when the
number of arguments differs from the declared arity (and it throws nothing
else); when the numbers agree it returns the expression made of the tag and
the arguments in order.  The function only reads the store. -/
theorem builtinType_arity (s : Store) (tag : BuiltinType) (info : TypeConstructorInfo)
    (args : List Ty) (h : s.builtinTypes.lookup tag = some info) :
    (builtinType s tag args = .error .assertion ↔ args.length ≠ info.arity) ∧
    ((∃ e, builtinType s tag args = .error e) ↔ args.length ≠ info.arity) ∧
    (args.length = info.arity → builtinType s tag args = .ok (.expr (.builtin tag) args)) := by
  unfold builtinType
  rw [h]
  by_cases hl : info.arity = args.length
  · simp [hl]
  · have : args.length ≠ info.arity := fun e => hl e.symm
    simp [hl, this]

/-- C10, after `declareBuiltinType(Pair, "pair", 2)` on an empty registry: one
argument fails the assertion, two arguments build the expression. -/
theorem builtinType_arity_witness :
    (declareBuiltinType ⟨1, [], []⟩ .Pair "pair" 2).1 = .ok () ∧
    (builtinType (declareBuiltinType ⟨1, [], []⟩ .Pair "pair" 2).2 .Pair
        [.expr (.builtin .Unit) []] = .error .assertion) ∧
    (builtinType (declareBuiltinType ⟨1, [], []⟩ .Pair "pair" 2).2 .Pair
        [.var ⟨1, 0, false⟩, .var ⟨1, 1, false⟩]
      = .ok (.expr (.builtin .Pair) [.var ⟨1, 0, false⟩, .var ⟨1, 1, false⟩])) :=
  ⟨rfl,
    (builtinType_arity (declareBuiltinType ⟨1, [], []⟩ .Pair "pair" 2).2 .Pair ⟨"pair", 2⟩
      [.expr (.builtin .Unit) []] rfl).1.2 (by decide),
    (builtinType_arity (declareBuiltinType ⟨1, [], []⟩ .Pair "pair" 2).2 .Pair ⟨"pair", 2⟩
      [.var ⟨1, 0, false⟩, .var ⟨1, 1, false⟩] rfl).2.2 rfl⟩

theorem unifyArguments_cons (u : Store → Ty → Ty → Option UnifyResult) (x y : Ty)
    (l : List (Ty × Ty)) (s : Store) :
    unifyArguments u ((x, y) :: l) s =
      match u s x y with
      | none => none
      | some (.error e, s1) => some (.error e, s1)
      | some (.ok failures, s1) =>
        match unifyArguments u l s1 with
        | none => none
        | some (.error e, s2) => some (.error e, s2)
        | some (.ok more, s2) => some (.ok (failures ++ more), s2) := rfl

theorem unifyArguments_iff (n : Nat) (xs ys : List Ty) (hl : xs.length = ys.length)
    (s s' : Store) (fs : List UnificationFailure) :
    unifyArguments (unify n) (xs.zip ys) s = some (.ok fs, s') ↔
      ArgumentFailures n s xs ys fs s' := by
  induction xs generalizing ys s fs with
  | nil =>
    cases ys with
    | cons y ys => simp at hl
    | nil =>
      simp only [List.zip_nil_left, unifyArguments, Option.some.injEq, Prod.mk.injEq,
        Except.ok.injEq]
      constructor
      · rintro ⟨rfl, rfl⟩; exact ArgumentFailures.nil s
      · intro h; cases h; exact ⟨rfl, rfl⟩
  | cons x xs ih =>
    cases ys with
    | nil => simp at hl
    | cons y ys =>
      have hl' : xs.length = ys.length := by simpa using hl
      show unifyArguments (unify n) ((x, y) :: xs.zip ys) s = _ ↔ _
      rw [unifyArguments_cons]
      constructor
      · intro h
        split at h
        · cases h
        · cases h
        · rename_i f1 s1 h1
          split at h
          · cases h
          · cases h
          · rename_i more s2 h2
            cases h
            exact ArgumentFailures.cons s s1 _ x y xs ys f1 more h1 ((ih ys hl' s1 more).1 h2)
      · intro h
        cases h with
        | cons _ s1 _ _ _ _ _ f1 more h1 h2 =>
          rw [h1]
          simp only
          rw [(ih ys hl' s1 more).2 h2]

/-- C2: `unify` collects every mismatch.  When both sides resolve to type
expressions, a different constructor or a different number of arguments gives
exactly one failure and the store is unchanged; otherwise the call returns a
list exactly when the pairwise calls on the arguments, in order and on the
evolving store, return lists, and its list is their concatenation. -/
theorem unify_collects (n : Nat) (s : Store) (a b : Ty) (c d : Constructor) (xs ys : List Ty)
    (ha : resolve (n + 1) s a = some (.ok (.expr c xs)))
    (hb : resolve (n + 1) s b = some (.ok (.expr d ys))) :
    ((c ≠ d ∨ xs.length ≠ ys.length) →
      unify (n + 1) s a b = some (.ok [⟨.expr c xs, .expr d ys⟩], s)) ∧
    (c = d → xs.length = ys.length → ∀ (fs : List UnificationFailure) (s' : Store),
      unify (n + 1) s a b = some (.ok fs, s') ↔ ArgumentFailures n s xs ys fs s') := by
  have hu : unify (n + 1) s a b = unifyVisit (unify n) s (.expr c xs) (.expr d ys) := by
    simp only [unify, ha, hb]
  rw [hu]
  constructor
  · intro h
    simp only [unifyVisit]
    by_cases hc : c = d
    · rcases h with h | h
      · exact absurd hc h
      · simp [hc, h]
    · simp [hc]
  · intro hc hl fs s'
    simp only [unifyVisit, hc, hl, ne_eq, not_true_eq_false, if_false]
    exact unifyArguments_iff n xs ys hl s s' fs

/-- C2, the scenario of the spec: `unify(Pair(Integer, Unit), Pair(Unit,
Integer))` returns two failures, one per position, and leaves the store as
it was. -/
theorem unify_collects_witness :
    unify 2 exampleStore
        (.expr (.builtin .Pair) [.expr (.builtin .Integer) [], .expr (.builtin .Unit) []])
        (.expr (.builtin .Pair) [.expr (.builtin .Unit) [], .expr (.builtin .Integer) []])
      = some (.ok [⟨.expr (.builtin .Integer) [], .expr (.builtin .Unit) []⟩,
          ⟨.expr (.builtin .Unit) [], .expr (.builtin .Integer) []⟩], exampleStore) :=
  ((unify_collects 1 exampleStore
      (.expr (.builtin .Pair) [.expr (.builtin .Integer) [], .expr (.builtin .Unit) []])
      (.expr (.builtin .Pair) [.expr (.builtin .Unit) [], .expr (.builtin .Integer) []])
      (.builtin .Pair) (.builtin .Pair)
      [.expr (.builtin .Integer) [], .expr (.builtin .Unit) []]
      [.expr (.builtin .Unit) [], .expr (.builtin .Integer) []] rfl rfl).2 rfl rfl _ _).2
    (ArgumentFailures.cons _ _ _ _ _ _ _ [_] [_] rfl
      (ArgumentFailures.cons _ _ _ _ _ _ _ [_] [] rfl (ArgumentFailures.nil _)))

theorem resolve_mono (n k : Nat) (s : Store) (t : Ty) (x : Except Err Ty)
    (h : resolve n s t = some x) : resolve (n + k) s t = some x := by
  induction n generalizing t with
  | zero =>
    cases t with
    | var v => simp [resolve] at h
    | expr c args => rw [resolve_expr] at h ⊢; exact h
  | succ n ih =>
    cases t with
    | expr c args => rw [resolve_expr] at h ⊢; exact h
    | var v =>
      rw [show n + 1 + k = (n + k) + 1 by omega, resolve_var_succ]
      rw [resolve_var_succ] at h
      split at h
      · exact h
      · exact h
      · exact ih _ h

theorem resolve_mono_le {n m : Nat} (hnm : n ≤ m) (s : Store) (t : Ty) (x : Except Err Ty)
    (h : resolve n s t = some x) : resolve m s t = some x := by
  obtain ⟨k, rfl⟩ := Nat.exists_eq_add_of_le hnm
  exact resolve_mono n k s t x h

/-- Resolution after more slots have been bound: the chain that led to `r`
is still there, and resolution goes on from `r`. -/
theorem resolve_preserved (n m : Nat) (s s' : Store) (hp : s.preserves s') (t r : Ty)
    (x : Except Err Ty) (h : resolve n s t = some (.ok r))
    (hr : resolve (m + 1) s' r = some x) : resolve (n + m) s' t = some x := by
  induction n generalizing t with
  | zero =>
    cases t with
    | var v => simp [resolve] at h
    | expr c args =>
      rw [resolve_expr] at h
      cases h
      rw [resolve_expr] at hr ⊢
      exact hr
  | succ n ih =>
    cases t with
    | expr c args =>
      rw [resolve_expr] at h
      cases h
      rw [resolve_expr] at hr ⊢
      exact hr
    | var v =>
      rw [resolve_var_succ] at h
      split at h
      · cases h
      · cases h
        exact resolve_mono_le (by omega) s' _ x hr
      · rename_i u hu
        rw [show n + 1 + m = (n + m) + 1 by omega, resolve_var_succ, hp.2 _ _ hu]
        exact ih _ h

theorem resolve_preserved_expr (n : Nat) (s s' : Store) (hp : s.preserves s') (t : Ty)
    (c : Constructor) (args : List Ty) (h : resolve n s t = some (.ok (.expr c args))) :
    resolve n s' t = some (.ok (.expr c args)) :=
  resolve_preserved n 0 s s' hp t _ _ h (resolve_expr _ _ _ _)

theorem validate_ok_iff (s : Store) (v : TypeVariable) :
    validate s v = .ok () ↔ v.parent = s.self ∧ v.index < s.typeVariables.length := by
  unfold validate
  by_cases hp : v.parent = s.self
  · by_cases hr : v.index < s.typeVariables.length
    · simp [hp, hr]
    · simp [hp, hr]
  · simp [hp]

theorem afterInstantiate_ok (x : Except Err Unit × Store) (fs : List UnificationFailure)
    (s' : Store) (h : afterInstantiate x = some (.ok fs, s')) : x = (.ok (), s') ∧ fs = [] := by
  obtain ⟨o, s1⟩ := x
  cases o with
  | error e => simp [afterInstantiate] at h
  | ok u =>
    simp only [afterInstantiate, Option.some.injEq, Prod.mk.injEq, Except.ok.injEq] at h
    obtain ⟨h1, h2⟩ := h
    subst h2
    exact ⟨rfl, h1.symm⟩

theorem instantiate_ok (s s' : Store) (v : TypeVariable) (t : Ty)
    (h : instantiate s v t = (.ok (), s')) :
    v.parent = s.self ∧ s.typeVariables[v.index]? = some none ∧
      s' = { s with typeVariables := s.typeVariables.set v.index (some t) } := by
  rcases instantiate_cases s v t with ⟨e, he⟩ | ⟨hp, hs, he⟩
  · rw [he] at h; cases h
  · rw [he] at h
    cases h
    exact ⟨hp, hs, rfl⟩

theorem getElem?_set_self_of_some {α : Type} (l : List α) (i : Nat) (a b : α)
    (h : l[i]? = some a) : (l.set i b)[i]? = some b := by
  have hlt : i < l.length := by
    by_contra hge
    rw [List.getElem?_eq_none (by omega)] at h
    cases h
  simp [List.getElem?_set, hlt]

theorem resolve_var_unbound (n : Nat) (s : Store) (t : Ty) (v : TypeVariable)
    (h : resolve n s t = some (.ok (.var v))) : s.typeVariables[v.index]? = some none := by
  rcases resolve_shape n s t _ h with ⟨c, args, e⟩ | ⟨w, e, hw⟩
  · cases e
  · cases e; exact hw

/-- C1 (amended): when `unify(a, b)` returns no failures, `resolve` returned
for both sides before the call and returns for both in the store after it, and
the results after the call are fixed by the results before it.  Two variables
with different indices: both sides now resolve to the variable `b` resolved
to.  Two variables with one index: the store is unchanged, each side resolves
as before, and both are variables of this store (`unify` compares indices
only).  A variable and a type expression: both sides now resolve to that
expression.  Two type expressions: each side resolves to its expression as
before, the two have the same constructor and the same number of arguments,
and the arguments have been unified pairwise without failure. -/
theorem unify_ok_resolve (n : Nat) (s s' : Store) (a b : Ty)
    (h : unify n s a b = some (.ok [], s')) :
    ∃ pa pb ra rb, resolve n s a = some (.ok pa) ∧ resolve n s b = some (.ok pb) ∧
      resolve (n + 1) s' a = some (.ok ra) ∧ resolve (n + 1) s' b = some (.ok rb) ∧
      match pa, pb with
      | .var v, .var w =>
        if v.index ≠ w.index then ra = .var w ∧ rb = .var w
        else s' = s ∧ ra = .var v ∧ rb = .var w ∧ v.parent = s.self ∧ w.parent = s.self
      | .var _, .expr d ys => ra = .expr d ys ∧ rb = .expr d ys
      | .expr c xs, .var _ => ra = .expr c xs ∧ rb = .expr c xs
      | .expr c xs, .expr d ys =>
        ra = .expr c xs ∧ rb = .expr d ys ∧ c = d ∧ xs.length = ys.length ∧
          ArgumentFailures (n - 1) s xs ys [] s' := by
  cases n with
  | zero => simp [unify] at h
  | succ n =>
    simp only [unify] at h
    split at h
    · cases h
    · cases h
    · rename_i pa ha
      split at h
      · cases h
      · cases h
      · rename_i pb hb
        cases pa with
        | var v =>
          have hv := resolve_var_unbound _ _ _ _ ha
          cases pb with
          | var w =>
            have hw := resolve_var_unbound _ _ _ _ hb
            simp only [unifyVisit] at h
            split at h
            · cases h
            · rename_i hvv
              split at h
              · cases h
              · rename_i hvw
                rw [validate_ok_iff] at hvv hvw
                split at h
                · rename_i hne
                  obtain ⟨hi, _⟩ := afterInstantiate_ok _ _ _ h
                  obtain ⟨_, _, hs'⟩ := instantiate_ok _ _ _ _ hi
                  have hp : s.preserves s' := by
                    have := instantiate_binds s v (.var w)
                    rw [hi] at this
                    exact Store.binds_preserves this
                  have hw' : s'.typeVariables[w.index]? = some none := by
                    rw [hs']
                    simp only
                    rw [List.getElem?_set_ne hne]
                    exact hw
                  have hv' : s'.typeVariables[v.index]? = some (some (.var w)) := by
                    rw [hs']
                    exact getElem?_set_self_of_some _ _ _ _ hv
                  have r1 : resolve 1 s' (.var w) = some (.ok (.var w)) := by
                    rw [resolve_var_succ, hw']
                  have r2 : resolve 2 s' (.var v) = some (.ok (.var w)) := by
                    rw [resolve_var_succ, hv']
                    exact r1
                  refine ⟨.var v, .var w, .var w, .var w, ha, hb, ?_, ?_, ?_⟩
                  · exact resolve_preserved (n + 1) 1 s s' hp a _ _ ha r2
                  · exact resolve_mono_le (by omega) _ _ _
                      (resolve_preserved (n + 1) 0 s s' hp b _ _ hb r1)
                  · simp only [if_pos hne, and_self]
                · rename_i heq
                  cases h
                  refine ⟨.var v, .var w, .var v, .var w, ha, hb, resolve_mono _ 1 _ _ _ ha,
                    resolve_mono _ 1 _ _ _ hb, ?_⟩
                  simp only [if_neg heq, true_and]
                  exact ⟨hvv.1, hvw.1⟩
          | expr d ys =>
            simp only [unifyVisit] at h
            obtain ⟨hi, _⟩ := afterInstantiate_ok _ _ _ h
            obtain ⟨_, _, hs'⟩ := instantiate_ok _ _ _ _ hi
            have hp : s.preserves s' := by
              have := instantiate_binds s v (.expr d ys)
              rw [hi] at this
              exact Store.binds_preserves this
            have hv' : s'.typeVariables[v.index]? = some (some (.expr d ys)) := by
              rw [hs']
              exact getElem?_set_self_of_some _ _ _ _ hv
            have r1 : resolve 1 s' (.var v) = some (.ok (.expr d ys)) := by
              rw [resolve_var_succ, hv']
              exact resolve_expr _ _ _ _
            refine ⟨.var v, .expr d ys, .expr d ys, .expr d ys, ha, hb, ?_, ?_, rfl, rfl⟩
            · exact resolve_mono_le (by omega) _ _ _
                (resolve_preserved (n + 1) 0 s s' hp a _ _ ha r1)
            · exact resolve_mono _ 1 _ _ _ (resolve_preserved_expr _ s s' hp b _ _ hb)
        | expr c xs =>
          cases pb with
          | var w =>
            have hw := resolve_var_unbound _ _ _ _ hb
            simp only [unifyVisit] at h
            obtain ⟨hi, _⟩ := afterInstantiate_ok _ _ _ h
            obtain ⟨_, _, hs'⟩ := instantiate_ok _ _ _ _ hi
            have hp : s.preserves s' := by
              have := instantiate_binds s w (.expr c xs)
              rw [hi] at this
              exact Store.binds_preserves this
            have hw' : s'.typeVariables[w.index]? = some (some (.expr c xs)) := by
              rw [hs']
              exact getElem?_set_self_of_some _ _ _ _ hw
            have r1 : resolve 1 s' (.var w) = some (.ok (.expr c xs)) := by
              rw [resolve_var_succ, hw']
              exact resolve_expr _ _ _ _
            refine ⟨.expr c xs, .var w, .expr c xs, .expr c xs, ha, hb, ?_, ?_, rfl, rfl⟩
            · exact resolve_mono _ 1 _ _ _ (resolve_preserved_expr _ s s' hp a _ _ ha)
            · exact resolve_mono_le (by omega) _ _ _
                (resolve_preserved (n + 1) 0 s s' hp b _ _ hb r1)
          | expr d ys =>
            simp only [unifyVisit] at h
            split at h
            · cases h
            · rename_i hcd
              split at h
              · cases h
              · rename_i hl
                have hcd' : c = d := by simpa using hcd
                have hl' : xs.length = ys.length := by simpa using hl
                subst hcd'
                have hp : s.preserves s' :=
                  Store.binds_preserves (unifyArguments_binds (unify n)
                    (fun s a b r h => unify_binds n s a b r h) _ _ _ h)
                refine ⟨.expr c xs, .expr c ys, .expr c xs, .expr c ys, ha, hb,
                  resolve_mono _ 1 _ _ _ (resolve_preserved_expr _ s s' hp a _ _ ha),
                  resolve_mono _ 1 _ _ _ (resolve_preserved_expr _ s s' hp b _ _ hb),
                  rfl, rfl, rfl, hl', ?_⟩
                exact (unifyArguments_iff n xs ys hl' s s' []).1 h

/-- C1 fails when a variable sits below the top: `unify(Pair(v0, Integer),
Pair(Integer, Integer))` returns no failures and binds `v0`, and afterwards
`resolve` returns both sides as they are, `Pair(v0, Integer)` and
`Pair(Integer, Integer)`, which differ. -/
theorem unify_ok_resolve_counterexample :
    unify 2 exampleStore
        (.expr (.builtin .Pair) [.var ⟨1, 0, false⟩, .expr (.builtin .Integer) []])
        (.expr (.builtin .Pair) [.expr (.builtin .Integer) [], .expr (.builtin .Integer) []])
      = some (.ok [],
          { exampleStore with typeVariables := [some (.expr (.builtin .Integer) []), none] }) ∧
    resolve 2 { exampleStore with typeVariables := [some (.expr (.builtin .Integer) []), none] }
        (.expr (.builtin .Pair) [.var ⟨1, 0, false⟩, .expr (.builtin .Integer) []])
      = some (.ok (.expr (.builtin .Pair) [.var ⟨1, 0, false⟩, .expr (.builtin .Integer) []])) ∧
    resolve 2 { exampleStore with typeVariables := [some (.expr (.builtin .Integer) []), none] }
        (.expr (.builtin .Pair) [.expr (.builtin .Integer) [], .expr (.builtin .Integer) []])
      = some (.ok (.expr (.builtin .Pair)
          [.expr (.builtin .Integer) [], .expr (.builtin .Integer) []])) ∧
    (Ty.expr (.builtin .Pair) [.var ⟨1, 0, false⟩, .expr (.builtin .Integer) []])
      ≠ .expr (.builtin .Pair) [.expr (.builtin .Integer) [], .expr (.builtin .Integer) []] := by
  decide

/-- C1 (amended), at `unify(v0, Pair(v1, Integer))`: `v0` resolved to itself
before the call and the other side to the expression; afterwards both sides
resolve to the expression. -/
theorem unify_ok_resolve_witness :
    ∃ pa pb ra rb,
      resolve 2 exampleStore (.var ⟨1, 0, false⟩) = some (.ok pa) ∧
      resolve 2 exampleStore
          (.expr (.builtin .Pair) [.var ⟨1, 1, false⟩, .expr (.builtin .Integer) []])
        = some (.ok pb) ∧
      resolve (2 + 1)
          { exampleStore with typeVariables :=
              [some (.expr (.builtin .Pair) [.var ⟨1, 1, false⟩, .expr (.builtin .Integer) []]),
                none] }
          (.var ⟨1, 0, false⟩) = some (.ok ra) ∧
      resolve (2 + 1)
          { exampleStore with typeVariables :=
              [some (.expr (.builtin .Pair) [.var ⟨1, 1, false⟩, .expr (.builtin .Integer) []]),
                none] }
          (.expr (.builtin .Pair) [.var ⟨1, 1, false⟩, .expr (.builtin .Integer) []])
        = some (.ok rb) ∧
      match pa, pb with
      | .var v, .var w =>
        if v.index ≠ w.index then ra = .var w ∧ rb = .var w
        else
          ({ exampleStore with typeVariables :=
              [some (.expr (.builtin .Pair) [.var ⟨1, 1, false⟩, .expr (.builtin .Integer) []]),
                none] } : Store) = exampleStore ∧
            ra = .var v ∧ rb = .var w ∧ v.parent = exampleStore.self ∧
            w.parent = exampleStore.self
      | .var _, .expr d ys => ra = .expr d ys ∧ rb = .expr d ys
      | .expr c xs, .var _ => ra = .expr c xs ∧ rb = .expr c xs
      | .expr c xs, .expr d ys =>
        ra = .expr c xs ∧ rb = .expr d ys ∧ c = d ∧ xs.length = ys.length ∧
          ArgumentFailures (2 - 1) exampleStore xs ys []
            { exampleStore with typeVariables :=
              [some (.expr (.builtin .Pair) [.var ⟨1, 1, false⟩, .expr (.builtin .Integer) []]),
                none] } :=
  unify_ok_resolve 2 exampleStore _ (.var ⟨1, 0, false⟩)
    (.expr (.builtin .Pair) [.var ⟨1, 1, false⟩, .expr (.builtin .Integer) []]) rfl

theorem getElem?_grow_of_some (s : Store) (k i : Nat) (x : Option Ty)
    (h : s.typeVariables[i]? = some x) : (s.grow k).typeVariables[i]? = some x := by
  have hlt : i < s.typeVariables.length := by
    by_contra hge
    rw [List.getElem?_eq_none (by omega)] at h
    cases h
  simp only [Store.grow]
  rw [List.getElem?_append_left hlt]
  exact h

theorem resolve_grow (n : Nat) (s : Store) (k : Nat) (t r : Ty)
    (h : resolve n s t = some (.ok r)) : resolve n (s.grow k) t = some (.ok r) := by
  induction n generalizing t with
  | zero =>
    cases t with
    | var v => simp [resolve] at h
    | expr c args => rw [resolve_expr] at h ⊢; exact h
  | succ n ih =>
    cases t with
    | expr c args => rw [resolve_expr] at h ⊢; exact h
    | var v =>
      rw [resolve_var_succ] at h ⊢
      split at h
      · cases h
      · rename_i hs
        rw [getElem?_grow_of_some s k _ _ hs]
        exact h
      · rename_i u hs
        rw [getElem?_grow_of_some s k _ _ hs]
        exact ih _ h

theorem validate_grow (s : Store) (k : Nat) (v : TypeVariable) (h : validate s v = .ok ()) :
    validate (s.grow k) v = .ok () := by
  rw [validate_ok_iff] at h ⊢
  rw [Store.grow_length, Store.grow_self]
  exact ⟨h.1, by omega⟩

theorem validate_ok_unit (s : Store) (v : TypeVariable) (u : Unit)
    (h : validate s v = .ok u) : validate s v = .ok () := h

theorem lookup_append_of_some (added m : Mapping) (i : Nat) (w : Ty)
    (hn : i ∉ added.map Prod.fst) (h : m.lookup i = some w) :
    (added ++ m).lookup i = some w := by
  induction added with
  | nil => exact h
  | cons p rest ih =>
    obtain ⟨j, x⟩ := p
    simp only [List.map_cons, List.mem_cons, not_or] at hn
    simp only [List.cons_append, List.lookup]
    have : (i == j) = false := by simpa using hn.1
    rw [this]
    exact ih hn.2

theorem lookup_some_mem_keys (m : Mapping) (i : Nat) (w : Ty) (h : m.lookup i = some w) :
    i ∈ m.map Prod.fst := by
  by_contra hn
  induction m with
  | nil => simp [List.lookup] at h
  | cons p rest ih =>
    obtain ⟨j, x⟩ := p
    simp only [List.map_cons, List.mem_cons, not_or] at hn
    simp only [List.lookup] at h
    have : (i == j) = false := by simpa using hn.1
    rw [this] at h
    exact ih h hn.2

theorem wellFormed_keys_nodup (self size : Nat) (m : Mapping)
    (h : Mapping.wellFormed self size m) : (m.map Prod.fst).Nodup := by
  induction m with
  | nil => simp
  | cons p rest ih =>
    obtain ⟨j, x⟩ := p
    obtain ⟨_, h2, h3⟩ := h
    simp only [List.map_cons, List.nodup_cons]
    exact ⟨h2, ih h3⟩

theorem wellFormed_values (self size : Nat) (m : Mapping)
    (h : Mapping.wellFormed self size m) (p : Nat × Ty) (hp : p ∈ m) :
    ∃ j, j < m.length ∧ p.2 = .var ⟨self, size + j, true⟩ := by
  induction m with
  | nil => cases hp
  | cons q rest ih =>
    obtain ⟨i, x⟩ := q
    obtain ⟨h1, _, h3⟩ := h
    rcases List.mem_cons.1 hp with e | hm
    · subst e
      exact ⟨rest.length, by simp, h1⟩
    · obtain ⟨j, hj, e⟩ := ih h3 hm
      exact ⟨j, by simp; omega, e⟩

theorem wellFormed_values_nodup (self size : Nat) (m : Mapping)
    (h : Mapping.wellFormed self size m) : (m.map Prod.snd).Nodup := by
  induction m with
  | nil => simp
  | cons q rest ih =>
    obtain ⟨i, x⟩ := q
    obtain ⟨h1, _, h3⟩ := h
    simp only [List.map_cons, List.nodup_cons]
    refine ⟨fun hx => ?_, ih h3⟩
    obtain ⟨p, hp, e⟩ := List.mem_map.1 hx
    obtain ⟨j, hj, e2⟩ := wellFormed_values self size rest h3 p hp
    rw [e2, h1] at e
    simp only [Ty.var.injEq, TypeVariable.mk.injEq, and_true, true_and] at e
    omega

theorem mapArguments_mono {α : Type} (f f' : Ty → Option α) (l : List Ty) (rs : List α)
    (hff : ∀ t r, f t = some r → f' t = some r) (h : mapArguments f l = some rs) :
    mapArguments f' l = some rs := by
  induction l generalizing rs with
  | nil => exact h
  | cons t ts ih =>
    simp only [mapArguments] at h ⊢
    split at h
    · cases h
    · rename_i r hr
      rw [hff _ _ hr]
      split at h
      · cases h
      · rename_i rs1 hrs
        rw [ih _ hrs]
        exact h

theorem nodup_append_not_mem (added m : Mapping) (i : Nat)
    (hn : ((added ++ m).map Prod.fst).Nodup) (hi : i ∈ m.map Prod.fst) :
    i ∉ added.map Prod.fst := by
  rw [List.map_append] at hn
  intro ha
  exact (List.nodup_append.1 hn).2.2 ha hi

theorem renameWith_stable (m added : Mapping) (g : Bool)
    (hn : ((added ++ m).map Prod.fst).Nodup) (n : Nat) (s : Store) (k : Nat) (t r : Ty)
    (h : renameWith m g n s t = some r) :
    renameWith (added ++ m) g n (s.grow k) t = some r := by
  induction n generalizing t r with
  | zero => simp [renameWith] at h
  | succ n ih =>
    simp only [renameWith] at h ⊢
    split at h
    · rename_i v hv
      rw [resolve_grow _ _ k _ _ hv]
      simp only
      split at h
      · rename_i hg
        rw [if_pos hg]
        exact lookup_append_of_some added m _ _
          (nodup_append_not_mem added m _ hn (lookup_some_mem_keys m _ _ h)) h
      · rename_i hg
        rw [if_neg hg]
        exact h
    · rename_i c args hv
      rw [resolve_grow _ _ k _ _ hv]
      simp only
      split at h
      · cases h
      · rename_i args1 ha
        rw [mapArguments_mono _ _ _ _ (fun t r h => ih t r h) ha]
        exact h
    · cases h

theorem replacedIndices_grow (g : Bool) (n : Nat) (s : Store) (k : Nat) (t : Ty)
    (l : List Nat) (h : replacedIndices g n s t = some l) :
    replacedIndices g n (s.grow k) t = some l := by
  induction n generalizing t l with
  | zero => simp [replacedIndices] at h
  | succ n ih =>
    simp only [replacedIndices] at h ⊢
    split at h
    · rename_i v hv
      rw [resolve_grow _ _ k _ _ hv]
      exact h
    · rename_i c args hv
      rw [resolve_grow _ _ k _ _ hv]
      simp only
      split at h
      · cases h
      · rename_i ls ha
        rw [mapArguments_mono _ _ _ _ (fun t r h => ih t r h) ha]
        exact h
    · cases h

theorem fullResolve_grow (n : Nat) (s : Store) (k : Nat) (t u : Ty)
    (h : fullResolve n s t = some u) : fullResolve n (s.grow k) t = some u := by
  induction n generalizing t u with
  | zero => simp [fullResolve] at h
  | succ n ih =>
    simp only [fullResolve] at h ⊢
    split at h
    · rename_i v hv
      rw [resolve_grow _ _ k _ _ hv]
      exact h
    · rename_i c args hv
      rw [resolve_grow _ _ k _ _ hv]
      simp only
      split at h
      · cases h
      · rename_i ls ha
        rw [mapArguments_mono _ _ _ _ (fun t r h => ih t r h) ha]
        exact h
    · cases h

theorem FreshInv.store_eq {s0 : Store} {m m1 : Mapping} {s1 : Store}
    (h : FreshInv s0 m s1 m1) : ∃ k, s1 = (s0.grow m.length).grow k ∧ m1.length = m.length + k := by
  obtain ⟨⟨added, e⟩, _, hs⟩ := h
  refine ⟨added.length, ?_, ?_⟩
  · rw [hs, Store.grow_grow, e, List.length_append, Nat.add_comm]
  · rw [e, List.length_append, Nat.add_comm]

theorem freshArguments_spec (f : Ty → Store → Mapping → Option (FreshResult Ty)) (s0 : Store)
    (g : Bool) (n : Nat)
    (hinv : ∀ t m res, Mapping.wellFormed s0.self s0.typeVariables.length m →
      f t (s0.grow m.length) m = some res → FreshInv s0 m res.2.1 res.2.2)
    (hf : ∀ t m r s1 m1, Mapping.wellFormed s0.self s0.typeVariables.length m →
      f t (s0.grow m.length) m = some (.ok r, s1, m1) →
      renameWith m1 g n s1 t = some r ∧
      ∃ srcs, replacedIndices g n s1 t = some srcs ∧
        ∀ i, i ∈ m1.map Prod.fst ↔ (i ∈ m.map Prod.fst ∨ i ∈ srcs))
    (args : List Ty) (m : Mapping) (rs : List Ty) (s1 : Store) (m1 : Mapping)
    (hm : Mapping.wellFormed s0.self s0.typeVariables.length m)
    (h : freshArguments f args (s0.grow m.length) m = some (.ok rs, s1, m1)) :
    mapArguments (renameWith m1 g n s1) args = some rs ∧
    ∃ ls, mapArguments (replacedIndices g n s1) args = some ls ∧
      ∀ i, i ∈ m1.map Prod.fst ↔ (i ∈ m.map Prod.fst ∨ i ∈ ls.flatten) := by
  induction args generalizing m rs with
  | nil =>
    simp only [freshArguments, Option.some.injEq, Prod.mk.injEq, Except.ok.injEq] at h
    obtain ⟨rfl, rfl, rfl⟩ := h
    exact ⟨rfl, [], rfl, fun i => by simp⟩
  | cons t rest ih =>
    simp only [freshArguments] at h
    split at h
    · cases h
    · cases h
    · rename_i t1 sa ma h1
      have i1 : FreshInv s0 m sa ma := hinv _ _ _ hm h1
      have hsa : sa = s0.grow ma.length := i1.2.2
      subst hsa
      obtain ⟨ht1, srcs, hsrc, hkeys⟩ := hf _ _ _ _ _ hm h1
      split at h
      · cases h
      · cases h
      · rename_i rest1 s2 m2 h2
        simp only [Option.some.injEq, Prod.mk.injEq, Except.ok.injEq] at h
        obtain ⟨rfl, rfl, rfl⟩ := h
        have i2 : FreshInv s0 ma s2 m2 :=
          freshArguments_inv f s0 hinv rest ma _ i1.2.1 h2
        obtain ⟨hr, ls, hls, hk2⟩ := ih ma rest1 i1.2.1 h2
        obtain ⟨k, hs2, _⟩ := i2.store_eq
        obtain ⟨⟨added, hadd⟩, hw2, _⟩ := i2
        have hnd := wellFormed_keys_nodup _ _ _ hw2
        simp only [mapArguments]
        have e1 : renameWith m2 g n s2 t = some t1 := by
          rw [hs2, hadd]
          exact renameWith_stable ma added g (hadd ▸ hnd) n _ k t t1 ht1
        have e2 : replacedIndices g n s2 t = some srcs := by
          rw [hs2]
          exact replacedIndices_grow g n _ k t srcs hsrc
        rw [e1, e2, hr, hls]
        refine ⟨rfl, _, rfl, fun i => ?_⟩
        rw [hk2 i, hkeys i]
        simp only [List.flatten_cons, List.mem_append]
        tauto

theorem freshVisit_spec (f : Ty → Store → Mapping → Option (FreshResult Ty)) (s0 : Store)
    (g : Bool) (n : Nat)
    (hinv : ∀ t m res, Mapping.wellFormed s0.self s0.typeVariables.length m →
      f t (s0.grow m.length) m = some res → FreshInv s0 m res.2.1 res.2.2)
    (hf : ∀ t m r s1 m1, Mapping.wellFormed s0.self s0.typeVariables.length m →
      f t (s0.grow m.length) m = some (.ok r, s1, m1) →
      renameWith m1 g n s1 t = some r ∧
      ∃ srcs, replacedIndices g n s1 t = some srcs ∧
        ∀ i, i ∈ m1.map Prod.fst ↔ (i ∈ m.map Prod.fst ∨ i ∈ srcs))
    (t r0 : Ty) (m : Mapping) (r : Ty) (s1 : Store) (m1 : Mapping)
    (hm : Mapping.wellFormed s0.self s0.typeVariables.length m)
    (hres : resolve (n + 1) (s0.grow m.length) t = some (.ok r0))
    (h : freshVisit f g t (s0.grow m.length) m r0 = some (.ok r, s1, m1)) :
    renameWith m1 g (n + 1) s1 t = some r ∧
    ∃ srcs, replacedIndices g (n + 1) s1 t = some srcs ∧
      ∀ i, i ∈ m1.map Prod.fst ↔ (i ∈ m.map Prod.fst ∨ i ∈ srcs) := by
  have hI : FreshInv s0 m s1 m1 := freshVisit_inv f s0 hinv g t r0 m _ hm h
  obtain ⟨k, hs1, _⟩ := hI.store_eq
  have hres1 : resolve (n + 1) s1 t = some (.ok r0) := by
    rw [hs1]; exact resolve_grow _ _ k _ _ hres
  cases r0 with
  | expr c args =>
    simp only [freshVisit] at h
    split at h
    · cases h
    · cases h
    · rename_i args1 sa ma ha
      simp only [Option.some.injEq, Prod.mk.injEq, Except.ok.injEq] at h
      obtain ⟨rfl, rfl, rfl⟩ := h
      obtain ⟨hr, ls, hls, hk⟩ := freshArguments_spec f s0 g n hinv hf args m args1 _ _ hm ha
      simp only [renameWith, replacedIndices, hres1, hr, hls, true_and]
      exact ⟨_, rfl, hk⟩
  | var v =>
    simp only [freshVisit] at h
    split at h
    · cases h
    · split at h
      · rename_i hg
        split at h
        · rename_i w hl
          simp only [Option.some.injEq, Prod.mk.injEq, Except.ok.injEq] at h
          obtain ⟨rfl, rfl, rfl⟩ := h
          simp only [renameWith, replacedIndices, hres1, hg, if_true]
          refine ⟨hl, _, rfl, fun i => ?_⟩
          simp only [List.mem_singleton]
          constructor
          · exact fun hi => Or.inl hi
          · rintro (hi | rfl)
            · exact hi
            · exact lookup_some_mem_keys _ _ _ hl
        · rename_i hl
          rw [freshTypeVariable_grow] at h
          simp only [Option.some.injEq, Prod.mk.injEq, Except.ok.injEq] at h
          obtain ⟨rfl, rfl, rfl⟩ := h
          simp only [renameWith, replacedIndices, hres1, hg, if_true]
          refine ⟨by simp [List.lookup], _, rfl, fun i => ?_⟩
          simp only [List.map_cons, List.mem_cons, List.mem_singleton]
          tauto
      · rename_i hg
        simp only [Option.some.injEq, Prod.mk.injEq, Except.ok.injEq] at h
        obtain ⟨rfl, rfl, rfl⟩ := h
        simp only [renameWith, replacedIndices, hres1, hg]
        exact ⟨rfl, _, rfl, fun i => by simp⟩

theorem freshImpl_spec (n : Nat) (g : Bool) (s0 : Store) (t : Ty) (m : Mapping) (r : Ty)
    (s1 : Store) (m1 : Mapping) (hm : Mapping.wellFormed s0.self s0.typeVariables.length m)
    (h : freshImpl n g t (s0.grow m.length) m = some (.ok r, s1, m1)) :
    renameWith m1 g n s1 t = some r ∧
    ∃ srcs, replacedIndices g n s1 t = some srcs ∧
      ∀ i, i ∈ m1.map Prod.fst ↔ (i ∈ m.map Prod.fst ∨ i ∈ srcs) := by
  induction n generalizing t m r s1 m1 with
  | zero => simp [freshImpl] at h
  | succ n ih =>
    simp only [freshImpl] at h
    split at h
    · cases h
    · cases h
    · rename_i r0 hres
      exact freshVisit_spec (freshImpl n g) s0 g n
        (fun t m res hm h => freshImpl_inv n g s0 t m res hm h)
        (fun t m r s1 m1 hm h => ih t m r s1 m1 hm h) t r0 m r s1 m1 hm hres h

mutual
theorem Ty.variables_shift (k : Nat) : ∀ t : Ty,
    (Ty.shift k t).variables = t.variables.map fun v => ⟨v.parent, v.index + k, v.generic⟩
  | .var v => by simp [Ty.shift, Ty.variables]
  | .expr c args => by
    simp only [Ty.shift, Ty.variables]
    exact Ty.variablesList_shift k args
theorem Ty.variablesList_shift (k : Nat) : ∀ l : List Ty,
    Ty.variablesList (Ty.shiftList k l)
      = (Ty.variablesList l).map fun v => ⟨v.parent, v.index + k, v.generic⟩
  | [] => by simp [Ty.shiftList, Ty.variablesList]
  | t :: ts => by
    simp only [Ty.shiftList, Ty.variablesList, List.map_append]
    rw [Ty.variables_shift k t, Ty.variablesList_shift k ts]
end

theorem mem_variablesList (l : List Ty) (v : TypeVariable) :
    v ∈ Ty.variablesList l ↔ ∃ t ∈ l, v ∈ t.variables := by
  induction l with
  | nil => simp [Ty.variablesList]
  | cons t ts ih =>
    simp only [Ty.variablesList, List.mem_append, ih, List.mem_cons, exists_eq_or_imp]

theorem mapArguments_mem {α : Type} (f : Ty → Option α) (l : List Ty) (rs : List α)
    (h : mapArguments f l = some rs) (r : α) (hr : r ∈ rs) : ∃ t ∈ l, f t = some r := by
  induction l generalizing rs with
  | nil =>
    simp only [mapArguments, Option.some.injEq] at h
    subst h
    cases hr
  | cons t ts ih =>
    simp only [mapArguments] at h
    split at h
    · cases h
    · rename_i r1 h1
      split at h
      · cases h
      · rename_i rs1 h2
        simp only [Option.some.injEq] at h
        subst h
        rcases List.mem_cons.1 hr with e | hm
        · subst e
          exact ⟨t, List.mem_cons_self _ _, h1⟩
        · obtain ⟨t', ht', e⟩ := ih _ h2 hm
          exact ⟨t', List.mem_cons_of_mem _ ht', e⟩

theorem lookup_some_mem (m : Mapping) (i : Nat) (w : Ty) (h : m.lookup i = some w) :
    (i, w) ∈ m := by
  induction m with
  | nil => simp [List.lookup] at h
  | cons p rest ih =>
    obtain ⟨j, x⟩ := p
    simp only [List.lookup] at h
    split at h
    · rename_i e
      simp only [beq_iff_eq] at e
      simp only [Option.some.injEq] at h
      subst e h
      exact List.mem_cons_self _ _
    · exact List.mem_cons_of_mem _ (ih h)

theorem renameWith_variables (m : Mapping) (n : Nat) (s : Store) (t r : Ty)
    (h : renameWith m true n s t = some r) (v : TypeVariable) (hv : v ∈ r.variables) :
    ∃ p ∈ m, v ∈ p.2.variables := by
  induction n generalizing t r with
  | zero => simp [renameWith] at h
  | succ n ih =>
    simp only [renameWith] at h
    split at h
    · simp only [Bool.true_or, if_true] at h
      exact ⟨_, lookup_some_mem _ _ _ h, hv⟩
    · split at h
      · cases h
      · rename_i args1 ha
        simp only [Option.some.injEq] at h
        subst h
        simp only [Ty.variables] at hv
        obtain ⟨r1, hr1, hv1⟩ := (mem_variablesList _ _).1 hv
        obtain ⟨t1, _, e⟩ := mapArguments_mem _ _ _ ha r1 hr1
        exact ih t1 r1 e hv1
    · cases h

theorem lookup_shift (k : Nat) (m : Mapping) (i : Nat) :
    (Mapping.shift k m).lookup i = (m.lookup i).map (Ty.shift k) := by
  induction m with
  | nil => rfl
  | cons p rest ih =>
    obtain ⟨j, x⟩ := p
    simp only [Mapping.shift, List.map_cons, List.lookup]
    split
    · rfl
    · exact ih

theorem Store.grow_comm (s : Store) (j k : Nat) : (s.grow j).grow k = (s.grow k).grow j := by
  rw [Store.grow_grow, Store.grow_grow, Nat.add_comm]

theorem freshArguments_shift (f : Ty → Store → Mapping → Option (FreshResult Ty)) (k : Nat)
    (hf : ∀ t s m r s1 m1, f t s m = some (.ok r, s1, m1) →
      f t (s.grow k) (Mapping.shift k m) = some (.ok (Ty.shift k r), s1.grow k, Mapping.shift k m1))
    (args : List Ty) (s : Store) (m : Mapping) (rs : List Ty) (s1 : Store) (m1 : Mapping)
    (h : freshArguments f args s m = some (.ok rs, s1, m1)) :
    freshArguments f args (s.grow k) (Mapping.shift k m)
      = some (.ok (Ty.shiftList k rs), s1.grow k, Mapping.shift k m1) := by
  induction args generalizing s m rs with
  | nil =>
    simp only [freshArguments, Option.some.injEq, Prod.mk.injEq, Except.ok.injEq] at h
    obtain ⟨rfl, rfl, rfl⟩ := h
    rfl
  | cons t rest ih =>
    simp only [freshArguments] at h ⊢
    split at h
    · cases h
    · cases h
    · rename_i t1 sa ma h1
      rw [hf _ _ _ _ _ _ h1]
      simp only
      split at h
      · cases h
      · cases h
      · rename_i rest1 s2 m2 h2
        simp only [Option.some.injEq, Prod.mk.injEq, Except.ok.injEq] at h
        obtain ⟨rfl, rfl, rfl⟩ := h
        rw [ih _ _ _ h2]
        rfl

theorem freshImpl_shift (k n : Nat) (t : Ty) (s : Store) (m : Mapping) (r : Ty) (s1 : Store)
    (m1 : Mapping) (h : freshImpl n true t s m = some (.ok r, s1, m1)) :
    freshImpl n true t (s.grow k) (Mapping.shift k m)
      = some (.ok (Ty.shift k r), s1.grow k, Mapping.shift k m1) := by
  induction n generalizing t s m r s1 m1 with
  | zero => simp [freshImpl] at h
  | succ n ih =>
    simp only [freshImpl] at h ⊢
    split at h
    · cases h
    · cases h
    · rename_i r0 hres
      rw [resolve_grow _ _ k _ _ hres]
      simp only
      cases r0 with
      | expr c args =>
        simp only [freshVisit] at h ⊢
        split at h
        · cases h
        · cases h
        · rename_i args1 sa ma ha
          simp only [Option.some.injEq, Prod.mk.injEq, Except.ok.injEq] at h
          obtain ⟨rfl, rfl, rfl⟩ := h
          rw [freshArguments_shift (freshImpl n true) k
            (fun t s m r s1 m1 h => ih t s m r s1 m1 h) args s m args1 _ _ ha]
          rfl
      | var v =>
        simp only [freshVisit] at h ⊢
        split at h
        · cases h
        · rename_i u hval
          rw [validate_grow s k v hval]
          simp only [Bool.true_or, if_true] at h ⊢
          rw [lookup_shift]
          split at h
          · rename_i w hl
            simp only [Option.some.injEq, Prod.mk.injEq, Except.ok.injEq] at h
            obtain ⟨rfl, rfl, rfl⟩ := h
            rw [hl]
            rfl
          · rename_i hl
            simp only [Option.some.injEq, Prod.mk.injEq, Except.ok.injEq] at h
            obtain ⟨rfl, rfl, rfl⟩ := h
            rw [hl]
            simp only [Option.map_none', freshTypeVariable, Store.grow_length]
            rw [show ({ s with typeVariables := s.typeVariables ++ [none] } : Store) = s.grow 1
              from rfl]
            rw [show ({ s.grow k with
                typeVariables := (s.grow k).typeVariables ++ [none] } : Store) = (s.grow k).grow 1
              from rfl]
            rw [Store.grow_comm s 1 k]
            rfl

theorem freshArguments_returns (f : Ty → Store → Mapping → Option (FreshResult Ty)) (n : Nat)
    (hf : ∀ t s m u, fullResolve n s t = some u → (∀ v ∈ u.variables, v.parent = s.self) →
      ∃ r s1 m1 k, f t s m = some (.ok r, s1, m1) ∧ s1 = s.grow k)
    (args : List Ty) (s : Store) (m : Mapping) (us : List Ty)
    (hus : mapArguments (fullResolve n s) args = some us)
    (hp : ∀ v ∈ Ty.variablesList us, v.parent = s.self) :
    ∃ rs s1 m1 k, freshArguments f args s m = some (.ok rs, s1, m1) ∧ s1 = s.grow k := by
  induction args generalizing s m us with
  | nil => exact ⟨[], s, m, 0, rfl, (Store.grow_zero s).symm⟩
  | cons t rest ih =>
    simp only [mapArguments] at hus
    split at hus
    · cases hus
    · rename_i u hu
      split at hus
      · cases hus
      · rename_i us1 hus1
        simp only [Option.some.injEq] at hus
        subst hus
        simp only [Ty.variablesList, List.mem_append] at hp
        obtain ⟨t1, sa, ma, k1, h1, rfl⟩ := hf t s m u hu (fun v hv => hp v (Or.inl hv))
        have hus2 : mapArguments (fullResolve n (s.grow k1)) rest = some us1 :=
          mapArguments_mono _ _ _ _ (fun t r h => fullResolve_grow n s k1 t r h) hus1
        obtain ⟨rs, s2, m2, k2, h2, rfl⟩ :=
          ih (s.grow k1) ma us1 hus2 (fun v hv => hp v (Or.inr hv))
        refine ⟨t1 :: rs, _, m2, k1 + k2, ?_, Store.grow_grow s k1 k2⟩
        simp only [freshArguments, h1, h2]

theorem freshImpl_returns (n : Nat) (g : Bool) (t : Ty) (s : Store) (m : Mapping) (u : Ty)
    (hu : fullResolve n s t = some u) (hp : ∀ v ∈ u.variables, v.parent = s.self) :
    ∃ r s1 m1 k, freshImpl n g t s m = some (.ok r, s1, m1) ∧ s1 = s.grow k := by
  induction n generalizing t s m u with
  | zero => simp [fullResolve] at hu
  | succ n ih =>
    simp only [fullResolve] at hu
    simp only [freshImpl]
    split at hu
    · rename_i v hres
      simp only [Option.some.injEq] at hu
      subst hu
      rw [hres]
      simp only [freshVisit]
      have hval : validate s v = .ok () := by
        rw [validate_ok_iff]
        refine ⟨hp v (by simp [Ty.variables]), ?_⟩
        have := resolve_var_unbound _ _ _ _ hres
        by_contra hge
        rw [List.getElem?_eq_none (by omega)] at this
        cases this
      rw [hval]
      simp only
      split
      · split
        · exact ⟨_, s, m, 0, rfl, (Store.grow_zero s).symm⟩
        · exact ⟨_, _, _, 1, rfl, rfl⟩
      · exact ⟨_, s, m, 0, rfl, (Store.grow_zero s).symm⟩
    · rename_i c args hres
      rw [hres]
      simp only [freshVisit]
      split at hu
      · cases hu
      · rename_i us hus
        simp only [Option.some.injEq] at hu
        subst hu
        obtain ⟨rs, s1, m1, k, h1, hs1⟩ := freshArguments_returns (freshImpl n g) n
          (fun t s m u hu hp => ih t s m u hu hp) args s m us hus hp
        rw [h1]
        exact ⟨_, s1, m1, k, rfl, hs1⟩
    · cases hu

theorem freshArguments_false_frame (f : Ty → Store → Mapping → Option (FreshResult Ty))
    (n : Nat) (s : Store) (m : Mapping)
    (hf : ∀ t u, fullResolve n s t = some u → (∀ v ∈ u.variables, v.generic = false) →
      ∀ res, f t s m = some res → res.2.1 = s ∧ res.2.2 = m ∧
        ∀ r, res.1 = .ok r → fullResolve n s r = some u)
    (args us : List Ty) (hus : mapArguments (fullResolve n s) args = some us)
    (hg : ∀ v ∈ Ty.variablesList us, v.generic = false) (res : FreshResult (List Ty))
    (h : freshArguments f args s m = some res) :
    res.2.1 = s ∧ res.2.2 = m ∧
      ∀ rs, res.1 = .ok rs → mapArguments (fullResolve n s) rs = some us := by
  induction args generalizing us res with
  | nil =>
    simp only [freshArguments, Option.some.injEq] at h
    subst h
    refine ⟨rfl, rfl, fun rs hrs => ?_⟩
    cases hrs
    exact hus
  | cons t rest ih =>
    simp only [mapArguments] at hus
    split at hus
    · cases hus
    · rename_i u hu
      split at hus
      · cases hus
      · rename_i us1 hus1
        simp only [Option.some.injEq] at hus
        subst hus
        simp only [Ty.variablesList, List.mem_append] at hg
        simp only [freshArguments] at h
        split at h
        · cases h
        · rename_i e sa ma h1
          obtain ⟨e1, e2, _⟩ := hf t u hu (fun v hv => hg v (Or.inl hv)) _ h1
          cases h
          exact ⟨e1, e2, fun rs hrs => by cases hrs⟩
        · rename_i t1 sa ma h1
          obtain ⟨e1, e2, e3⟩ := hf t u hu (fun v hv => hg v (Or.inl hv)) _ h1
          simp only at e1 e2
          subst e1 e2
          have ht1 := e3 t1 rfl
          split at h
          · cases h
          · rename_i e s2 m2 h2
            obtain ⟨e4, e5, _⟩ := ih us1 hus1 (fun v hv => hg v (Or.inr hv)) _ h2
            cases h
            exact ⟨e4, e5, fun rs hrs => by cases hrs⟩
          · rename_i rest1 s2 m2 h2
            obtain ⟨e4, e5, e6⟩ := ih us1 hus1 (fun v hv => hg v (Or.inr hv)) _ h2
            cases h
            refine ⟨e4, e5, fun rs hrs => ?_⟩
            cases hrs
            simp only [mapArguments, ht1, e6 rest1 rfl]

theorem freshImpl_false_frame (n : Nat) (t : Ty) (s : Store) (m : Mapping) (u : Ty)
    (hu : fullResolve n s t = some u) (hg : ∀ v ∈ u.variables, v.generic = false)
    (res : FreshResult Ty) (h : freshImpl n false t s m = some res) :
    res.2.1 = s ∧ res.2.2 = m ∧ ∀ r, res.1 = .ok r → fullResolve n s r = some u := by
  induction n generalizing t u res with
  | zero => simp [freshImpl] at h
  | succ n ih =>
    have hu0 := hu
    simp only [fullResolve] at hu
    simp only [freshImpl] at h
    split at hu
    · rename_i v hres
      simp only [Option.some.injEq] at hu
      subst hu
      rw [hres] at h
      simp only [freshVisit] at h
      have hgv : v.generic = false := hg v (by simp [Ty.variables])
      split at h
      · cases h
        exact ⟨rfl, rfl, fun r hr => by cases hr⟩
      · simp only [hgv, Bool.or_self, Bool.false_eq_true, if_false] at h
        cases h
        refine ⟨rfl, rfl, fun r hr => ?_⟩
        cases hr
        exact hu0
    · rename_i c args hres
      rw [hres] at h
      simp only [freshVisit] at h
      split at hu
      · cases hu
      · rename_i us hus
        simp only [Option.some.injEq] at hu
        subst hu
        split at h
        · cases h
        · rename_i e s1 m1 h1
          obtain ⟨e1, e2, _⟩ := freshArguments_false_frame (freshImpl n false) n s m
            (fun t u hu hg res h => ih t u hu hg res h) args us hus hg _ h1
          cases h
          exact ⟨e1, e2, fun r hr => by cases hr⟩
        · rename_i args1 s1 m1 h1
          obtain ⟨e1, e2, e3⟩ := freshArguments_false_frame (freshImpl n false) n s m
            (fun t u hu hg res h => ih t u hu hg res h) args us hus hg _ h1
          cases h
          refine ⟨e1, e2, fun r hr => ?_⟩
          cases hr
          simp only [fullResolve, resolve_expr, e3 args1 rfl]
    · cases hu

theorem length_eq_dedup_length (keys srcs : List Nat) (hn : keys.Nodup)
    (h : ∀ i, i ∈ keys ↔ i ∈ srcs) : keys.length = srcs.dedup.length := by
  rw [← List.toFinset_card_of_nodup hn, ← List.card_toFinset]
  congr 1
  ext i
  simp [h i]

/-- C6: `fresh` preserves sharing.  When `fresh(t, generalize)` returns `r`,
leaving the store `s'` and the rename map `m`: `r` is the copy of `t` in
which every replaced variable is replaced by its one entry in `m`; the keys of
`m` are distinct and are exactly the indices of the replaced source variables,
and its values are distinct; the call has appended one slot per entry; and
every value is a generic variable of this store whose index did not exist
before the call and whose slot is empty after it. -/
theorem fresh_preserves_sharing (n : Nat) (s : Store) (t : Ty) (g : Bool) (r : Ty)
    (s' : Store) (m : Mapping) (h : fresh n s t g = some (.ok r, s', m)) :
    renameWith m g n s' t = some r ∧
    (m.map Prod.fst).Nodup ∧ (m.map Prod.snd).Nodup ∧
    (∃ srcs, replacedIndices g n s' t = some srcs ∧ (∀ i, i ∈ m.map Prod.fst ↔ i ∈ srcs) ∧
      m.length = srcs.dedup.length) ∧
    s' = s.grow m.length ∧
    (∀ p ∈ m, ∃ j, j < m.length ∧ p.2 = .var ⟨s.self, s.typeVariables.length + j, true⟩ ∧
      s.typeVariables[s.typeVariables.length + j]? = none ∧
      s'.typeVariables[s.typeVariables.length + j]? = some none) := by
  have hI := fresh_inv n s t g _ h
  obtain ⟨_, hw, hs'⟩ := hI
  simp only at hw hs'
  have h0 : freshImpl n g t (s.grow ([] : Mapping).length) [] = some (.ok r, s', m) := by
    simpa [Store.grow_zero] using h
  obtain ⟨hr, srcs, hsrc, hk⟩ := freshImpl_spec n g s t [] r s' m trivial h0
  have hnd := wellFormed_keys_nodup _ _ _ hw
  have hk' : ∀ i, i ∈ m.map Prod.fst ↔ i ∈ srcs := fun i => by
    rw [hk i]; simp
  refine ⟨hr, hnd, wellFormed_values_nodup _ _ _ hw,
    ⟨srcs, hsrc, hk', ?_⟩, hs', fun p hp => ?_⟩
  · have := length_eq_dedup_length _ _ hnd hk'
    simpa using this
  · obtain ⟨j, hj, e⟩ := wellFormed_values _ _ _ hw p hp
    refine ⟨j, hj, e, List.getElem?_eq_none (by omega), ?_⟩
    rw [hs']
    simp only [Store.grow]
    rw [List.getElem?_append_right (by omega)]
    simp [List.getElem?_replicate, hj]

/-- C6, the example of the claim: `fresh(Pair(v0, v0), true)` is `Pair(w, w)`
for the one new variable `w` with index 2. -/
theorem fresh_preserves_sharing_witness :
    fresh 2 exampleStore (.expr (.builtin .Pair) [.var ⟨1, 0, false⟩, .var ⟨1, 0, false⟩]) true
      = some (.ok (.expr (.builtin .Pair) [.var ⟨1, 2, true⟩, .var ⟨1, 2, true⟩]),
          exampleStore.grow 1, [(0, .var ⟨1, 2, true⟩)]) ∧
    renameWith [(0, .var ⟨1, 2, true⟩)] true 2 (exampleStore.grow 1)
        (.expr (.builtin .Pair) [.var ⟨1, 0, false⟩, .var ⟨1, 0, false⟩])
      = some (.expr (.builtin .Pair) [.var ⟨1, 2, true⟩, .var ⟨1, 2, true⟩]) :=
  ⟨rfl, (fresh_preserves_sharing 2 exampleStore
    (.expr (.builtin .Pair) [.var ⟨1, 0, false⟩, .var ⟨1, 0, false⟩]) true
    (.expr (.builtin .Pair) [.var ⟨1, 2, true⟩, .var ⟨1, 2, true⟩])
    (exampleStore.grow 1) [(0, .var ⟨1, 2, true⟩)] rfl).1⟩

/-- C7 (amended): a second `fresh(t, true)` on the store the first one left
returns the first result with every variable index moved up by the number of
variables the first call allocated (an injective renaming, so constructors, argument counts
and sharing agree); the variables of the first result all lie in the range the
first call appended, so the two results share no index.  The first call
returns whenever the full resolution of `t` is finite and its variables
belong to this store. -/
theorem fresh_twice (n : Nat) (s : Store) (t : Ty) :
    (∀ r1 s1 m1, fresh n s t true = some (.ok r1, s1, m1) →
      ∃ s2 m2, fresh n s1 t true = some (.ok (Ty.shift m1.length r1), s2, m2) ∧
        (∀ v ∈ r1.variables, s.typeVariables.length ≤ v.index ∧
          v.index < s.typeVariables.length + m1.length) ∧
        (∀ v ∈ r1.variables, ∀ w ∈ (Ty.shift m1.length r1).variables, v.index ≠ w.index)) ∧
    (∀ u, fullResolve n s t = some u → (∀ v ∈ u.variables, v.parent = s.self) →
      ∃ r1 s1 m1, fresh n s t true = some (.ok r1, s1, m1)) := by
  constructor
  · intro r1 s1 m1 h
    obtain ⟨_, hw, hs1⟩ := fresh_inv n s t true _ h
    simp only at hw hs1
    have h0 : freshImpl n true t (s.grow ([] : Mapping).length) [] = some (.ok r1, s1, m1) := by
      simpa [Store.grow_zero] using h
    obtain ⟨hr, _⟩ := freshImpl_spec n true s t [] r1 s1 m1 trivial h0
    have hrange : ∀ v ∈ r1.variables, s.typeVariables.length ≤ v.index ∧
        v.index < s.typeVariables.length + m1.length := by
      intro v hv
      obtain ⟨p, hp, hvp⟩ := renameWith_variables m1 n s1 t r1 hr v hv
      obtain ⟨j, hj, e⟩ := wellFormed_values _ _ _ hw p hp
      rw [e] at hvp
      simp only [Ty.variables, List.mem_singleton] at hvp
      subst hvp
      exact ⟨by simp, by simpa using hj⟩
    have h2 := freshImpl_shift m1.length n t s [] r1 s1 m1 h
    refine ⟨s1.grow m1.length, Mapping.shift m1.length m1, ?_, hrange, ?_⟩
    · unfold fresh
      rw [hs1] at h2 ⊢
      exact h2
    · intro v hv w hw'
      rw [Ty.variables_shift] at hw'
      obtain ⟨v', hv', e⟩ := List.mem_map.1 hw'
      subst e
      have a := hrange v hv
      have b := hrange v' hv'
      simp only
      omega
  · intro u hu hp
    obtain ⟨r, s1, m1, _, h, _⟩ := freshImpl_returns n true t s [] u hu hp
    exact ⟨r, s1, m1, h⟩

/-- C7 (amended), at `Pair(v0, Pair(v1, v0))`: the first call returns the
variables 2 and 3, the second one 4 and 5, in the same pattern. -/
theorem fresh_twice_witness :
    ∃ s2 m2,
      fresh 3 (exampleStore.grow 2)
          (.expr (.builtin .Pair) [.var ⟨1, 0, false⟩,
            .expr (.builtin .Pair) [.var ⟨1, 1, false⟩, .var ⟨1, 0, false⟩]]) true
        = some (.ok (Ty.shift 2 (.expr (.builtin .Pair) [.var ⟨1, 2, true⟩,
            .expr (.builtin .Pair) [.var ⟨1, 3, true⟩, .var ⟨1, 2, true⟩]])), s2, m2) ∧
      (∀ v ∈ (Ty.expr (.builtin .Pair) [.var ⟨1, 2, true⟩,
            .expr (.builtin .Pair) [.var ⟨1, 3, true⟩, .var ⟨1, 2, true⟩]]).variables,
        exampleStore.typeVariables.length ≤ v.index ∧
          v.index < exampleStore.typeVariables.length + 2) ∧
      (∀ v ∈ (Ty.expr (.builtin .Pair) [.var ⟨1, 2, true⟩,
            .expr (.builtin .Pair) [.var ⟨1, 3, true⟩, .var ⟨1, 2, true⟩]]).variables,
        ∀ w ∈ (Ty.shift 2 (.expr (.builtin .Pair) [.var ⟨1, 2, true⟩,
            .expr (.builtin .Pair) [.var ⟨1, 3, true⟩, .var ⟨1, 2, true⟩]])).variables,
          v.index ≠ w.index) :=
  (fresh_twice 3 exampleStore
    (.expr (.builtin .Pair) [.var ⟨1, 0, false⟩,
      .expr (.builtin .Pair) [.var ⟨1, 1, false⟩, .var ⟨1, 0, false⟩]])).1
    (.expr (.builtin .Pair) [.var ⟨1, 2, true⟩,
      .expr (.builtin .Pair) [.var ⟨1, 3, true⟩, .var ⟨1, 2, true⟩]])
    (exampleStore.grow 2) [(1, .var ⟨1, 3, true⟩), (0, .var ⟨1, 2, true⟩)] rfl

/-- C7 fails for a variable of another store: `f`, a variable of store 9 with
index 0, has the finite full resolution `f` in the example store, but
`fresh(f, true)` fails the assertion of `validate`, so there are no two
results to compare. -/
theorem fresh_twice_counterexample :
    fullResolve 1 exampleStore (.var ⟨9, 0, false⟩) = some (.var ⟨9, 0, false⟩) ∧
    fresh 1 exampleStore (.var ⟨9, 0, false⟩) true
      = some (.error .assertion, exampleStore, []) := by
  decide

/-- C8 (amended): `fresh` replaces a variable exactly when `generalize` is set
or the variable is generic.  When no generic variable occurs in the full
resolution of `t`, `fresh(t, false)` (whether it returns or throws) leaves the
store as it was and the rename map empty, a returned type has the full
resolution of `t`, and the call does return when the variables belong to this
store.  On a variable `v` of this store with an empty slot, `fresh(v, g)`
allocates a new variable exactly when `g` is set or `v` is generic, and
otherwise returns `v` and changes nothing.  And for every `t` with a finite
full resolution whose variables belong to this store, `fresh(t, g)` returns
the copy of `t` in which the variables the traversal resolves to are replaced
exactly when `g` is set or the variable is generic, at every depth: the keys
of the rename map are the replaced indices, and one slot is appended for each
distinct one. -/
theorem fresh_false_frame (n : Nat) (s : Store) (t : Ty) :
    (∀ u, fullResolve n s t = some u → (∀ v ∈ u.variables, v.generic = false) →
      (∀ res, fresh n s t false = some res →
        res.2.1 = s ∧ res.2.2 = [] ∧ ∀ r, res.1 = .ok r → fullResolve n s r = some u) ∧
      ((∀ v ∈ u.variables, v.parent = s.self) →
        ∃ r, fresh n s t false = some (.ok r, s, []))) ∧
    (∀ (v : TypeVariable) (g : Bool), v.parent = s.self →
      s.typeVariables[v.index]? = some none →
      fresh 1 s (.var v) g =
        if g || v.generic then
          some (.ok (.var ⟨s.self, s.typeVariables.length, true⟩), s.grow 1,
            [(v.index, .var ⟨s.self, s.typeVariables.length, true⟩)])
        else some (.ok (.var v), s, [])) ∧
    (∀ (g : Bool) (u : Ty), fullResolve n s t = some u →
      (∀ v ∈ u.variables, v.parent = s.self) →
      ∃ r s' m srcs, fresh n s t g = some (.ok r, s', m) ∧
        renameWith m g n s' t = some r ∧ replacedIndices g n s' t = some srcs ∧
        (∀ i, i ∈ m.map Prod.fst ↔ i ∈ srcs) ∧ (m.map Prod.fst).Nodup ∧
        s' = s.grow srcs.dedup.length) := by
  refine ⟨fun u hu hg => ⟨fun res h => freshImpl_false_frame n t s [] u hu hg res h,
    fun hp => ?_⟩, fun v g hp hs => ?_, fun g u hu hp => ?_⟩
  · obtain ⟨r, s1, m1, _, h, _⟩ := freshImpl_returns n false t s [] u hu hp
    obtain ⟨e1, e2, _⟩ := freshImpl_false_frame n t s [] u hu hg _ h
    simp only at e1 e2
    subst e1 e2
    exact ⟨r, h⟩
  · have hval : validate s v = .ok () := by
      rw [validate_ok_iff]
      refine ⟨hp, ?_⟩
      by_contra hge
      rw [List.getElem?_eq_none (by omega)] at hs
      cases hs
    simp only [fresh, freshImpl, resolve_var_succ, hs, freshVisit, hval, List.lookup]
    rfl
  · obtain ⟨r, s1, m1, _, h, _⟩ := freshImpl_returns n g t s [] u hu hp
    have hf : fresh n s t g = some (.ok r, s1, m1) := h
    obtain ⟨_, hw, hs1⟩ := fresh_inv n s t g _ hf
    simp only at hw hs1
    have h0 : freshImpl n g t (s.grow ([] : Mapping).length) [] = some (.ok r, s1, m1) := by
      simpa [Store.grow_zero] using hf
    obtain ⟨hr, srcs, hsrc, hk⟩ := freshImpl_spec n g s t [] r s1 m1 trivial h0
    have hnd := wellFormed_keys_nodup _ _ _ hw
    have hk' : ∀ i, i ∈ m1.map Prod.fst ↔ i ∈ srcs := fun i => by
      rw [hk i]; simp
    have hlen : m1.length = srcs.dedup.length := by
      have := length_eq_dedup_length _ _ hnd hk'
      simpa using this
    refine ⟨r, s1, m1, srcs, hf, hr, hsrc, hk', hnd, ?_⟩
    rw [hs1, hlen]

/-- C8 fails for a variable of another store: `f`, a variable of store 9 with
index 0, is not generic and resolves to itself in the example store, where
slot 0 is empty, but `fresh(f, false)` does not return `f`: it fails the
assertion of `validate`. -/
theorem fresh_false_frame_counterexample :
    resolve 1 exampleStore (.var ⟨9, 0, false⟩) = some (.ok (.var ⟨9, 0, false⟩)) ∧
    fullResolve 1 exampleStore (.var ⟨9, 0, false⟩) = some (.var ⟨9, 0, false⟩) ∧
    fresh 1 exampleStore (.var ⟨9, 0, false⟩) false
      = some (.error .assertion, exampleStore, []) ∧
    fresh 1 exampleStore (.var ⟨9, 0, false⟩) false
      ≠ some (.ok (.var ⟨9, 0, false⟩), exampleStore, []) := by
  decide

/-- C8 (amended), at `Pair(v0, Integer)`.  With `v0` not generic the call
returns and the store and the rename map are untouched; with `v0` generic,
`fresh(Pair(v0, Integer), false)` replaces it below the top by the new
variable 2. -/
theorem fresh_false_frame_witness :
    (∃ r, fresh 2 exampleStore
      (.expr (.builtin .Pair) [.var ⟨1, 0, false⟩, .expr (.builtin .Integer) []]) false
      = some (.ok r, exampleStore, [])) ∧
    fresh 2 exampleStore
        (.expr (.builtin .Pair) [.var ⟨1, 0, true⟩, .expr (.builtin .Integer) []]) false
      = some (.ok (.expr (.builtin .Pair) [.var ⟨1, 2, true⟩, .expr (.builtin .Integer) []]),
          exampleStore.grow 1, [(0, .var ⟨1, 2, true⟩)]) ∧
    (∃ r s' m srcs, fresh 2 exampleStore
          (.expr (.builtin .Pair) [.var ⟨1, 0, true⟩, .expr (.builtin .Integer) []]) false
        = some (.ok r, s', m) ∧
      renameWith m false 2 s'
          (.expr (.builtin .Pair) [.var ⟨1, 0, true⟩, .expr (.builtin .Integer) []]) = some r ∧
      replacedIndices false 2 s'
          (.expr (.builtin .Pair) [.var ⟨1, 0, true⟩, .expr (.builtin .Integer) []])
        = some srcs ∧
      (∀ i, i ∈ m.map Prod.fst ↔ i ∈ srcs) ∧ (m.map Prod.fst).Nodup ∧
      s' = exampleStore.grow srcs.dedup.length) :=
  ⟨((fresh_false_frame 2 exampleStore
      (.expr (.builtin .Pair) [.var ⟨1, 0, false⟩, .expr (.builtin .Integer) []])).1
      (.expr (.builtin .Pair) [.var ⟨1, 0, false⟩, .expr (.builtin .Integer) []])
      rfl (by decide)).2 (by decide),
    rfl,
    (fresh_false_frame 2 exampleStore
      (.expr (.builtin .Pair) [.var ⟨1, 0, true⟩, .expr (.builtin .Integer) []])).2.2 false
      (.expr (.builtin .Pair) [.var ⟨1, 0, true⟩, .expr (.builtin .Integer) []])
      rfl (by decide)⟩

theorem unifyArguments_congr (u u' : Store → Ty → Ty → Option UnifyResult)
    (h : ∀ s a b r, u s a b = some r → u' s a b = some r) (l : List (Ty × Ty)) (s : Store)
    (r : UnifyResult) (hr : unifyArguments u l s = some r) : unifyArguments u' l s = some r := by
  induction l generalizing s r with
  | nil => exact hr
  | cons p rest ih =>
    obtain ⟨x, y⟩ := p
    rw [unifyArguments_cons] at hr ⊢
    split at hr
    · cases hr
    · rename_i e s1 h1
      rw [h _ _ _ _ h1]
      exact hr
    · rename_i fs s1 h1
      rw [h _ _ _ _ h1]
      simp only
      split at hr
      · cases hr
      · rename_i e s2 h2
        rw [ih _ _ h2]
        exact hr
      · rename_i more s2 h2
        rw [ih _ _ h2]
        exact hr

theorem unifyVisit_congr (u u' : Store → Ty → Ty → Option UnifyResult)
    (h : ∀ s a b r, u s a b = some r → u' s a b = some r) (s : Store) (ra rb : Ty)
    (r : UnifyResult) (hr : unifyVisit u s ra rb = some r) : unifyVisit u' s ra rb = some r := by
  cases ra with
  | var v =>
    cases rb with
    | var w => exact hr
    | expr d ys => exact hr
  | expr c xs =>
    cases rb with
    | var w => exact hr
    | expr d ys =>
      simp only [unifyVisit] at hr ⊢
      split
      · rename_i hc
        rw [if_pos hc] at hr
        exact hr
      · rename_i hc
        rw [if_neg hc] at hr
        split
        · rename_i hl
          rw [if_pos hl] at hr
          exact hr
        · rename_i hl
          rw [if_neg hl] at hr
          exact unifyArguments_congr u u' h _ _ _ hr

theorem unify_mono (n k : Nat) (s : Store) (a b : Ty) (r : UnifyResult)
    (h : unify n s a b = some r) : unify (n + k) s a b = some r := by
  induction n generalizing s a b r with
  | zero => simp [unify] at h
  | succ n ih =>
    rw [show n + 1 + k = (n + k) + 1 by omega]
    simp only [unify] at h ⊢
    split at h
    · cases h
    · rename_i e he
      rw [resolve_mono_le (by omega) _ _ _ he]
      exact h
    · rename_i ra ha
      rw [resolve_mono_le (by omega) _ _ _ ha]
      simp only
      split at h
      · cases h
      · rename_i e he
        rw [resolve_mono_le (by omega) _ _ _ he]
        exact h
      · rename_i rb hb
        rw [resolve_mono_le (by omega) _ _ _ hb]
        simp only
        exact unifyVisit_congr (unify n) (unify (n + k)) (fun s a b r h => ih s a b r h) _ _ _ _ h

theorem unify_mono_le {n m : Nat} (hnm : n ≤ m) (s : Store) (a b : Ty) (r : UnifyResult)
    (h : unify n s a b = some r) : unify m s a b = some r := by
  obtain ⟨k, rfl⟩ := Nat.exists_eq_add_of_le hnm
  exact unify_mono n k s a b r h

theorem resolve_det (n m : Nat) (s : Store) (t : Ty) (x y : Except Err Ty)
    (hx : resolve n s t = some x) (hy : resolve m s t = some y) : x = y := by
  have h1 := resolve_mono_le (Nat.le_max_left n m) s t x hx
  have h2 := resolve_mono_le (Nat.le_max_right n m) s t y hy
  rw [h1] at h2
  exact Option.some.inj h2

theorem unify_det (n m : Nat) (s : Store) (a b : Ty) (x y : UnifyResult)
    (hx : unify n s a b = some x) (hy : unify m s a b = some y) : x = y := by
  have h1 := unify_mono_le (Nat.le_max_left n m) s a b x hx
  have h2 := unify_mono_le (Nat.le_max_right n m) s a b y hy
  rw [h1] at h2
  exact Option.some.inj h2

theorem Resolves.det {s : Store} {t x y : Ty} (hx : Resolves s t x) (hy : Resolves s t y) :
    x = y := by
  obtain ⟨n, hn⟩ := hx
  obtain ⟨m, hm⟩ := hy
  have := resolve_det n m s t _ _ hn hm
  cases this
  rfl

theorem Resolves.expr (s : Store) (c : Constructor) (xs : List Ty) :
    Resolves s (.expr c xs) (.expr c xs) :=
  ⟨0, resolve_expr 0 s c xs⟩

theorem Resolves.unbound (s : Store) (v : TypeVariable)
    (h : s.typeVariables[v.index]? = some none) : Resolves s (.var v) (.var v) :=
  ⟨1, by rw [resolve_var_succ, h]⟩

theorem Resolves.bound (s : Store) (v : TypeVariable) (t y : Ty)
    (h : s.typeVariables[v.index]? = some (some t)) (hy : Resolves s t y) :
    Resolves s (.var v) y := by
  obtain ⟨n, hn⟩ := hy
  exact ⟨n + 1, by rw [resolve_var_succ, h]; exact hn⟩

theorem Resolves.var_unbound {s : Store} {t : Ty} {v : TypeVariable}
    (h : Resolves s t (.var v)) : s.typeVariables[v.index]? = some none := by
  obtain ⟨n, hn⟩ := h
  exact resolve_var_unbound n s t v hn

theorem Resolves.sameHead_self {s : Store} {t x : Ty} (h : Resolves s t x) :
    Ty.sameHead x x := by
  cases x with
  | var v => trivial
  | expr c xs => exact ⟨rfl, rfl⟩

theorem Store.simulates_refl (s : Store) : s.simulates s := by
  refine ⟨fun t x h => ⟨x, h, h.sameHead_self⟩, ?_⟩
  intro t t' v v' w w' h1 h2 h3 h4
  have e1 := Resolves.det h1 h3
  have e2 := Resolves.det h2 h4
  cases e1
  cases e2
  rfl

/-- A chain of the store after a binding starts with a chain of the store
before it. -/
theorem resolve_prefix (s : Store) (i : Nat) (x : Ty) (hi : s.typeVariables[i]? = some none)
    (n : Nat) (t y : Ty)
    (h : resolve n { s with typeVariables := s.typeVariables.set i (some x) } t = some (.ok y)) :
    ∃ r, resolve n s t = some (.ok r) := by
  induction n generalizing t with
  | zero =>
    cases t with
    | var v => simp [resolve] at h
    | expr c args => exact ⟨_, resolve_expr _ _ _ _⟩
  | succ n ih =>
    cases t with
    | expr c args => exact ⟨_, resolve_expr _ _ _ _⟩
    | var v =>
      rw [resolve_var_succ] at h ⊢
      by_cases hv : i = v.index
      · subst hv
        rw [hi]
        exact ⟨_, rfl⟩
      · simp only at h
        rw [List.getElem?_set_ne hv] at h
        split at h
        · cases h
        · exact ⟨_, rfl⟩
        · exact ih _ h

theorem Resolves.rebind {s : Store} {i : Nat} {x : Ty} (hi : s.typeVariables[i]? = some none)
    (hx : Resolves { s with typeVariables := s.typeVariables.set i (some x) } x x)
    {t r : Ty} (h : Resolves s t r) :
    Resolves { s with typeVariables := s.typeVariables.set i (some x) } t (Ty.rebind i x r) := by
  have hp : s.preserves { s with typeVariables := s.typeVariables.set i (some x) } :=
    Store.binds_preserves (set_binds s i x hi)
  obtain ⟨n, hn⟩ := h
  cases r with
  | expr c xs => exact ⟨n, resolve_preserved_expr n _ _ hp t c xs hn⟩
  | var u =>
    have hu := resolve_var_unbound n s t u hn
    by_cases hui : u.index = i
    · simp only [Ty.rebind, hui, if_true]
      obtain ⟨m, hm⟩ := hx
      have h1 : resolve (m + 1) { s with typeVariables := s.typeVariables.set i (some x) }
          (.var u) = some (.ok x) := by
        rw [resolve_var_succ]
        simp only
        rw [hui, getElem?_set_self_of_some _ _ _ _ hi]
        exact hm
      exact ⟨n + m, resolve_preserved n m _ _ hp t _ _ hn h1⟩
    · simp only [Ty.rebind, hui, if_false]
      have h1 : resolve (0 + 1) { s with typeVariables := s.typeVariables.set i (some x) }
          (.var u) = some (.ok (.var u)) := by
        rw [resolve_var_succ]
        simp only
        rw [List.getElem?_set_ne (fun e => hui e.symm), hu]
      exact ⟨n + 0, resolve_preserved n 0 _ _ hp t _ _ hn h1⟩

theorem Resolves.of_rebind {s : Store} {i : Nat} {x : Ty}
    (hi : s.typeVariables[i]? = some none)
    (hx : Resolves { s with typeVariables := s.typeVariables.set i (some x) } x x)
    {t y : Ty} (h : Resolves { s with typeVariables := s.typeVariables.set i (some x) } t y) :
    ∃ r, Resolves s t r ∧ y = Ty.rebind i x r := by
  obtain ⟨n, hn⟩ := h
  obtain ⟨r, hr⟩ := resolve_prefix s i x hi n t y hn
  exact ⟨r, ⟨n, hr⟩, Resolves.det ⟨n, hn⟩ (Resolves.rebind hi hx ⟨n, hr⟩)⟩

theorem rebind_expr_eq_var (i : Nat) (c : Constructor) (xs : List Ty) (r : Ty)
    (v : TypeVariable) (h : Ty.rebind i (.expr c xs) r = .var v) :
    r = .var v ∧ v.index ≠ i := by
  cases r with
  | expr d ys => simp [Ty.rebind] at h
  | var u =>
    by_cases hu : u.index = i
    · simp [Ty.rebind, hu] at h
    · simp only [Ty.rebind, hu, if_false, Ty.var.injEq] at h
      subst h
      exact ⟨rfl, hu⟩

theorem rebind_var_eq_var (i : Nat) (x : TypeVariable) (r : Ty) (v : TypeVariable)
    (h : Ty.rebind i (.var x) r = .var v) :
    ∃ p, r = .var p ∧ v = if p.index = i then x else p := by
  cases r with
  | expr d ys => simp [Ty.rebind] at h
  | var u =>
    refine ⟨u, rfl, ?_⟩
    by_cases hu : u.index = i
    · simp only [Ty.rebind, hu, if_true, Ty.var.injEq] at h
      simp [hu, h]
    · simp only [Ty.rebind, hu, if_false, Ty.var.injEq] at h
      subst h
      simp [hu]

theorem Store.simulates_bind_expr (s1 s2 : Store) (a : Ty) (v1 v2 : TypeVariable)
    (c : Constructor) (xs : List Ty) (hs : s1.simulates s2) (h1 : Resolves s1 a (.var v1))
    (h2 : Resolves s2 a (.var v2)) :
    Store.simulates
      { s1 with typeVariables := s1.typeVariables.set v1.index (some (.expr c xs)) }
      { s2 with typeVariables := s2.typeVariables.set v2.index (some (.expr c xs)) } := by
  have hi1 := h1.var_unbound
  have hi2 := h2.var_unbound
  have hx1 := Resolves.expr
    { s1 with typeVariables := s1.typeVariables.set v1.index (some (.expr c xs)) } c xs
  have hx2 := Resolves.expr
    { s2 with typeVariables := s2.typeVariables.set v2.index (some (.expr c xs)) } c xs
  constructor
  · intro t x hx
    obtain ⟨r1, hr1, rfl⟩ := Resolves.of_rebind hi1 hx1 hx
    obtain ⟨r2, hr2, hsh⟩ := hs.1 t r1 hr1
    refine ⟨_, Resolves.rebind hi2 hx2 hr2, ?_⟩
    cases r1 with
    | expr d ys =>
      cases r2 with
      | expr d' ys' => exact hsh
      | var u2 => exact hsh.elim
    | var u1 =>
      cases r2 with
      | expr d' ys' => exact hsh.elim
      | var u2 =>
        have hiff := hs.2 t a u1 v1 u2 v2 hr1 h1 hr2 h2
        by_cases hu : u1.index = v1.index
        · simp only [Ty.rebind, hu, hiff.1 hu, if_true]
          exact ⟨rfl, rfl⟩
        · have hu2 : ¬ u2.index = v2.index := fun e => hu (hiff.2 e)
          simp only [Ty.rebind, hu, hu2, if_false]
          trivial
  · intro t t' v v' w w' ht ht' hw hw'
    obtain ⟨r, hr, e⟩ := Resolves.of_rebind hi1 hx1 ht
    obtain ⟨r', hr', e'⟩ := Resolves.of_rebind hi1 hx1 ht'
    obtain ⟨q, hq, f⟩ := Resolves.of_rebind hi2 hx2 hw
    obtain ⟨q', hq', f'⟩ := Resolves.of_rebind hi2 hx2 hw'
    obtain ⟨rfl, _⟩ := rebind_expr_eq_var _ _ _ _ _ e.symm
    obtain ⟨rfl, _⟩ := rebind_expr_eq_var _ _ _ _ _ e'.symm
    obtain ⟨rfl, _⟩ := rebind_expr_eq_var _ _ _ _ _ f.symm
    obtain ⟨rfl, _⟩ := rebind_expr_eq_var _ _ _ _ _ f'.symm
    exact hs.2 t t' v v' w w' hr hr' hq hq'

theorem Store.simulates_bind_var (s1 s2 : Store) (a b : Ty) (v1 w1 v2 w2 : TypeVariable)
    (hs : s1.simulates s2) (ha1 : Resolves s1 a (.var v1)) (hb1 : Resolves s1 b (.var w1))
    (ha2 : Resolves s2 a (.var v2)) (hb2 : Resolves s2 b (.var w2))
    (hne : v1.index ≠ w1.index) :
    Store.simulates
      { s1 with typeVariables := s1.typeVariables.set v1.index (some (.var w1)) }
      { s2 with typeVariables := s2.typeVariables.set w2.index (some (.var v2)) } := by
  have hne2 : v2.index ≠ w2.index :=
    fun e => hne ((hs.2 a b v1 w1 v2 w2 ha1 hb1 ha2 hb2).2 e)
  have hi1 := ha1.var_unbound
  have hi2 := hb2.var_unbound
  have hx1 : Resolves { s1 with typeVariables := s1.typeVariables.set v1.index (some (.var w1)) }
      (.var w1) (.var w1) := by
    apply Resolves.unbound
    simp only
    rw [List.getElem?_set_ne hne]
    exact hb1.var_unbound
  have hx2 : Resolves { s2 with typeVariables := s2.typeVariables.set w2.index (some (.var v2)) }
      (.var v2) (.var v2) := by
    apply Resolves.unbound
    simp only
    rw [List.getElem?_set_ne (fun e => hne2 e.symm)]
    exact ha2.var_unbound
  constructor
  · intro t x hx
    obtain ⟨r1, hr1, rfl⟩ := Resolves.of_rebind hi1 hx1 hx
    obtain ⟨r2, hr2, hsh⟩ := hs.1 t r1 hr1
    refine ⟨_, Resolves.rebind hi2 hx2 hr2, ?_⟩
    cases r1 with
    | expr d ys =>
      cases r2 with
      | expr d' ys' => exact hsh
      | var u2 => exact hsh.elim
    | var u1 =>
      cases r2 with
      | expr d' ys' => exact hsh.elim
      | var u2 =>
        simp only [Ty.rebind]
        split <;> split <;> trivial
  · intro t t' v v' w w' ht ht' hw hw'
    obtain ⟨r, hr, e⟩ := Resolves.of_rebind hi1 hx1 ht
    obtain ⟨r', hr', e'⟩ := Resolves.of_rebind hi1 hx1 ht'
    obtain ⟨q, hq, f⟩ := Resolves.of_rebind hi2 hx2 hw
    obtain ⟨q', hq', f'⟩ := Resolves.of_rebind hi2 hx2 hw'
    obtain ⟨p, rfl, ev⟩ := rebind_var_eq_var _ _ _ _ e.symm
    obtain ⟨p', rfl, ev'⟩ := rebind_var_eq_var _ _ _ _ e'.symm
    obtain ⟨z, rfl, ew⟩ := rebind_var_eq_var _ _ _ _ f.symm
    obtain ⟨z', rfl, ew'⟩ := rebind_var_eq_var _ _ _ _ f'.symm
    have A := hs.2 t t' p p' z z' hr hr' hq hq'
    have B := hs.2 t a p v1 z v2 hr ha1 hq ha2
    have C := hs.2 t b p w1 z w2 hr hb1 hq hb2
    have B' := hs.2 t' a p' v1 z' v2 hr' ha1 hq' ha2
    have C' := hs.2 t' b p' w1 z' w2 hr' hb1 hq' hb2
    subst ev ev' ew ew'
    split_ifs <;> constructor <;> intro hh <;> omega

theorem validate_cases (s : Store) (v : TypeVariable) :
    validate s v = .ok () ∨ validate s v = .error .assertion := by
  unfold validate
  split
  · exact Or.inr rfl
  · split
    · exact Or.inr rfl
    · exact Or.inl rfl

theorem afterInstantiate_unbound (s : Store) (v : TypeVariable) (t : Ty)
    (h : s.typeVariables[v.index]? = some none) :
    afterInstantiate (instantiate s v t)
        = some (.ok [], { s with typeVariables := s.typeVariables.set v.index (some t) }) ∨
      afterInstantiate (instantiate s v t) = some (.error .assertion, s) := by
  unfold instantiate
  rcases validate_cases s v with hv | hv
  · rw [hv]
    simp only [h]
    split
    · exact Or.inr rfl
    · exact Or.inl rfl
  · rw [hv]
    exact Or.inr rfl

theorem afterInstantiate_ok_set (s s' : Store) (v : TypeVariable) (t : Ty)
    (fs : List UnificationFailure) (h : afterInstantiate (instantiate s v t) = some (.ok fs, s')) :
    fs = [] ∧ s' = { s with typeVariables := s.typeVariables.set v.index (some t) } := by
  obtain ⟨hi, hf⟩ := afterInstantiate_ok _ _ _ h
  exact ⟨hf, (instantiate_ok _ _ _ _ hi).2.2⟩

theorem unify_intro (ka kb m : Nat) (s : Store) (a b ra rb : Ty) (r : UnifyResult)
    (ha : resolve ka s a = some (.ok ra)) (hb : resolve kb s b = some (.ok rb))
    (h : unifyVisit (unify m) s ra rb = some r) : ∃ M, unify M s a b = some r := by
  refine ⟨max (max ka kb) m + 1, ?_⟩
  simp only [unify]
  rw [resolve_mono_le (by omega) s a _ ha, resolve_mono_le (by omega) s b _ hb]
  exact unifyVisit_congr (unify m) _
    (fun s a b r h => unify_mono_le (by omega) s a b r h) _ _ _ _ h

theorem unifyArguments_mirror (n : Nat)
    (ih : ∀ s1 s2 a b f1 s1', Store.simulates s1 s2 → unify n s1 a b = some (.ok f1, s1') →
      ∃ m, (∃ f2 s2', unify m s2 b a = some (.ok f2, s2') ∧ (f1 = [] ↔ f2 = []) ∧
          Store.simulates s1' s2') ∨
        (∃ s2', unify m s2 b a = some (.error .assertion, s2')))
    (xs ys : List Ty) (s1 s2 : Store) (f1 : List UnificationFailure) (s1' : Store)
    (hs : Store.simulates s1 s2)
    (h : unifyArguments (unify n) (xs.zip ys) s1 = some (.ok f1, s1')) :
    ∃ m, (∃ f2 s2', unifyArguments (unify m) (ys.zip xs) s2 = some (.ok f2, s2') ∧
        (f1 = [] ↔ f2 = []) ∧ Store.simulates s1' s2') ∨
      (∃ s2', unifyArguments (unify m) (ys.zip xs) s2 = some (.error .assertion, s2')) := by
  induction xs generalizing ys s1 s2 f1 with
  | nil =>
    simp only [List.zip_nil_left, unifyArguments, Option.some.injEq, Prod.mk.injEq,
      Except.ok.injEq] at h
    obtain ⟨rfl, rfl⟩ := h
    exact ⟨0, Or.inl ⟨[], s2, by simp [unifyArguments], Iff.rfl, hs⟩⟩
  | cons x xs ihl =>
    cases ys with
    | nil =>
      simp only [List.zip_nil_right, unifyArguments, Option.some.injEq, Prod.mk.injEq,
        Except.ok.injEq] at h
      obtain ⟨rfl, rfl⟩ := h
      exact ⟨0, Or.inl ⟨[], s2, by simp [unifyArguments], Iff.rfl, hs⟩⟩
    | cons y ys =>
      have h' : unifyArguments (unify n) ((x, y) :: xs.zip ys) s1 = some (.ok f1, s1') := h
      rw [unifyArguments_cons] at h'
      split at h'
      · cases h'
      · cases h'
      · rename_i fs sa h1
        split at h'
        · cases h'
        · cases h'
        · rename_i more sb h2
          simp only [Option.some.injEq, Prod.mk.injEq, Except.ok.injEq] at h'
          obtain ⟨rfl, rfl⟩ := h'
          obtain ⟨m1, hm1⟩ := ih s1 s2 x y fs sa hs h1
          rcases hm1 with ⟨f2a, s2a, hu, hiff, hsa⟩ | ⟨s2a, hu⟩
          · obtain ⟨m2, hm2⟩ := ihl ys sa s2a more hsa h2
            rcases hm2 with ⟨f2b, s2b, hl, hiff2, hsb⟩ | ⟨s2b, hl⟩
            · refine ⟨max m1 m2, Or.inl ⟨f2a ++ f2b, s2b, ?_, ?_, hsb⟩⟩
              · show unifyArguments (unify (max m1 m2)) ((y, x) :: ys.zip xs) s2 = _
                rw [unifyArguments_cons, unify_mono_le (Nat.le_max_left m1 m2) _ _ _ _ hu]
                simp only
                rw [unifyArguments_congr (unify m2) _
                  (fun s a b r h => unify_mono_le (Nat.le_max_right m1 m2) s a b r h) _ _ _ hl]
              · simp only [List.append_eq_nil, hiff, hiff2]
            · refine ⟨max m1 m2, Or.inr ⟨s2b, ?_⟩⟩
              show unifyArguments (unify (max m1 m2)) ((y, x) :: ys.zip xs) s2 = _
              rw [unifyArguments_cons, unify_mono_le (Nat.le_max_left m1 m2) _ _ _ _ hu]
              simp only
              rw [unifyArguments_congr (unify m2) _
                (fun s a b r h => unify_mono_le (Nat.le_max_right m1 m2) s a b r h) _ _ _ hl]
          · refine ⟨m1, Or.inr ⟨s2a, ?_⟩⟩
            show unifyArguments (unify m1) ((y, x) :: ys.zip xs) s2 = _
            rw [unifyArguments_cons, hu]

theorem unifyVisit_mirror (n : Nat)
    (ih : ∀ s1 s2 a b f1 s1', Store.simulates s1 s2 → unify n s1 a b = some (.ok f1, s1') →
      ∃ m, (∃ f2 s2', unify m s2 b a = some (.ok f2, s2') ∧ (f1 = [] ↔ f2 = []) ∧
          Store.simulates s1' s2') ∨
        (∃ s2', unify m s2 b a = some (.error .assertion, s2')))
    (s1 s2 : Store) (a b ra rb ra2 rb2 : Ty) (f1 : List UnificationFailure) (s1' : Store)
    (hs : Store.simulates s1 s2)
    (ha1 : Resolves s1 a ra) (hb1 : Resolves s1 b rb)
    (ha2 : Resolves s2 a ra2) (hb2 : Resolves s2 b rb2)
    (hma : Ty.sameHead ra ra2) (hmb : Ty.sameHead rb rb2)
    (h : unifyVisit (unify n) s1 ra rb = some (.ok f1, s1')) :
    ∃ m, (∃ f2 s2', unifyVisit (unify m) s2 rb2 ra2 = some (.ok f2, s2') ∧
        (f1 = [] ↔ f2 = []) ∧ Store.simulates s1' s2') ∨
      (∃ s2', unifyVisit (unify m) s2 rb2 ra2 = some (.error .assertion, s2')) := by
  cases ra with
  | var v1 =>
    cases ra2 with
    | expr c2 xs2 => exact hma.elim
    | var v2 =>
      cases rb with
      | var w1 =>
        cases rb2 with
        | expr d2 ys2 => exact hmb.elim
        | var w2 =>
          refine ⟨0, ?_⟩
          have hiff := hs.2 a b v1 w1 v2 w2 ha1 hb1 ha2 hb2
          simp only [unifyVisit] at h ⊢
          rcases validate_cases s2 w2 with hw | hw
          · rcases validate_cases s2 v2 with hv | hv
            · rw [hw, hv]
              simp only
              split at h
              · cases h
              · split at h
                · cases h
                · split at h
                  · rename_i hne
                    obtain ⟨rfl, rfl⟩ := afterInstantiate_ok_set _ _ _ _ _ h
                    have hne2 : w2.index ≠ v2.index := fun e => hne (hiff.2 e.symm)
                    rw [if_pos hne2]
                    rcases afterInstantiate_unbound s2 w2 (.var v2) hb2.var_unbound with e | e
                    · exact Or.inl ⟨_, _, e, Iff.rfl,
                        Store.simulates_bind_var s1 s2 a b v1 w1 v2 w2 hs ha1 hb1 ha2 hb2 hne⟩
                    · exact Or.inr ⟨_, e⟩
                  · rename_i heq
                    have heq' : v1.index = w1.index := by simpa using heq
                    have heq2 : ¬ w2.index ≠ v2.index := fun e => e (hiff.1 heq').symm
                    rw [if_neg heq2]
                    simp only [Option.some.injEq, Prod.mk.injEq, Except.ok.injEq] at h
                    obtain ⟨rfl, rfl⟩ := h
                    exact Or.inl ⟨_, _, rfl, Iff.rfl, hs⟩
            · rw [hw, hv]
              exact Or.inr ⟨_, rfl⟩
          · rw [hw]
            exact Or.inr ⟨_, rfl⟩
      | expr d ys =>
        cases rb2 with
        | var w2 => exact hmb.elim
        | expr d2 ys2 =>
          obtain ⟨rfl, rfl⟩ := hmb
          refine ⟨0, ?_⟩
          simp only [unifyVisit] at h ⊢
          obtain ⟨rfl, rfl⟩ := afterInstantiate_ok_set _ _ _ _ _ h
          rcases afterInstantiate_unbound s2 v2 (.expr d ys) ha2.var_unbound with e | e
          · exact Or.inl ⟨_, _, e, Iff.rfl,
              Store.simulates_bind_expr s1 s2 a v1 v2 d ys hs ha1 ha2⟩
          · exact Or.inr ⟨_, e⟩
  | expr c xs =>
    cases ra2 with
    | var v2 => exact hma.elim
    | expr c2 xs2 =>
      obtain ⟨rfl, rfl⟩ := hma
      cases rb with
      | var w1 =>
        cases rb2 with
        | expr d2 ys2 => exact hmb.elim
        | var w2 =>
          refine ⟨0, ?_⟩
          simp only [unifyVisit] at h ⊢
          obtain ⟨rfl, rfl⟩ := afterInstantiate_ok_set _ _ _ _ _ h
          rcases afterInstantiate_unbound s2 w2 (.expr c xs) hb2.var_unbound with e | e
          · exact Or.inl ⟨_, _, e, Iff.rfl,
              Store.simulates_bind_expr s1 s2 b w1 w2 c xs hs hb1 hb2⟩
          · exact Or.inr ⟨_, e⟩
      | expr d ys =>
        cases rb2 with
        | var w2 => exact hmb.elim
        | expr d2 ys2 =>
          obtain ⟨rfl, rfl⟩ := hmb
          simp only [unifyVisit] at h ⊢
          split at h
          · rename_i hcd
            simp only [Option.some.injEq, Prod.mk.injEq, Except.ok.injEq] at h
            obtain ⟨rfl, rfl⟩ := h
            have hdc : d ≠ c := fun e => hcd e.symm
            refine ⟨0, Or.inl ⟨_, _, by rw [if_pos hdc], by simp, hs⟩⟩
          · rename_i hcd
            have hcd' : c = d := by simpa using hcd
            have hdc : ¬ d ≠ c := fun e => e hcd'.symm
            split at h
            · rename_i hl
              simp only [Option.some.injEq, Prod.mk.injEq, Except.ok.injEq] at h
              obtain ⟨rfl, rfl⟩ := h
              have hl2 : ys.length ≠ xs.length := fun e => hl e.symm
              refine ⟨0, Or.inl ⟨_, _, by rw [if_neg hdc, if_pos hl2], by simp, hs⟩⟩
            · rename_i hl
              have hl' : xs.length = ys.length := by simpa using hl
              have hl2 : ¬ ys.length ≠ xs.length := fun e => e hl'.symm
              obtain ⟨m, hm⟩ := unifyArguments_mirror n ih xs ys s1 s2 f1 s1' hs h
              refine ⟨m, ?_⟩
              rw [if_neg hdc, if_neg hl2]
              exact hm

theorem unify_mirror (n : Nat) (s1 s2 : Store) (a b : Ty) (f1 : List UnificationFailure)
    (s1' : Store) (hs : Store.simulates s1 s2) (h : unify n s1 a b = some (.ok f1, s1')) :
    ∃ m, (∃ f2 s2', unify m s2 b a = some (.ok f2, s2') ∧ (f1 = [] ↔ f2 = []) ∧
        Store.simulates s1' s2') ∨
      (∃ s2', unify m s2 b a = some (.error .assertion, s2')) := by
  induction n generalizing s1 s2 a b f1 s1' with
  | zero => simp [unify] at h
  | succ n ih =>
    simp only [unify] at h
    split at h
    · cases h
    · cases h
    · rename_i ra hra
      split at h
      · cases h
      · cases h
      · rename_i rb hrb
        obtain ⟨ra2, ⟨ka, hka⟩, hma⟩ := hs.1 a ra ⟨_, hra⟩
        obtain ⟨rb2, ⟨kb, hkb⟩, hmb⟩ := hs.1 b rb ⟨_, hrb⟩
        obtain ⟨m, hm⟩ := unifyVisit_mirror n ih s1 s2 a b ra rb ra2 rb2 f1 s1' hs
          ⟨_, hra⟩ ⟨_, hrb⟩ ⟨ka, hka⟩ ⟨kb, hkb⟩ hma hmb h
        rcases hm with ⟨f2, s2', hv, hiff, hsim⟩ | ⟨s2', hv⟩
        · obtain ⟨M, hM⟩ := unify_intro kb ka m s2 b a rb2 ra2 _ hkb hka hv
          exact ⟨M, Or.inl ⟨f2, s2', hM, hiff, hsim⟩⟩
        · obtain ⟨M, hM⟩ := unify_intro kb ka m s2 b a rb2 ra2 _ hkb hka hv
          exact ⟨M, Or.inr ⟨s2', hM⟩⟩

theorem localTo_expr (p : Nat) (c : Constructor) (xs : List Ty) :
    Ty.localTo p (.expr c xs) ↔ ∀ x ∈ xs, Ty.localTo p x := by
  simp only [Ty.localTo, Ty.variables, mem_variablesList]
  constructor
  · intro h x hx v hv
    exact h v ⟨x, hx, hv⟩
  · rintro h v ⟨x, hx, hv⟩
    exact h x hx v hv

theorem resolve_local (n : Nat) (s : Store) (t r : Ty) (hs : s.local)
    (ht : Ty.localTo s.self t) (h : resolve n s t = some (.ok r)) : Ty.localTo s.self r := by
  induction n generalizing t with
  | zero =>
    cases t with
    | var v => simp [resolve] at h
    | expr c args =>
      rw [resolve_expr] at h
      cases h
      exact ht
  | succ n ih =>
    cases t with
    | expr c args =>
      rw [resolve_expr] at h
      cases h
      exact ht
    | var v =>
      rw [resolve_var_succ] at h
      split at h
      · cases h
      · cases h
        exact ht
      · rename_i u hu
        exact ih u (hs _ _ hu) h

theorem set_local (s : Store) (i : Nat) (x : Ty) (hs : s.local) (hx : Ty.localTo s.self x) :
    Store.local { s with typeVariables := s.typeVariables.set i (some x) } := by
  intro j t hj
  simp only at hj ⊢
  by_cases hij : i = j
  · subst hij
    rw [List.getElem?_set] at hj
    split at hj
    · split at hj
      · simp only [Option.some.injEq] at hj
        subst hj
        exact hx
      · cases hj
    · exact absurd rfl ‹_›
  · rw [List.getElem?_set_ne hij] at hj
    exact hs j t hj

theorem afterInstantiate_local (s : Store) (v : TypeVariable) (t : Ty)
    (hp : v.parent = s.self) (h : s.typeVariables[v.index]? = some none) :
    afterInstantiate (instantiate s v t)
      = some (.ok [], { s with typeVariables := s.typeVariables.set v.index (some t) }) := by
  have hval : validate s v = .ok () := by
    rw [validate_ok_iff]
    refine ⟨hp, ?_⟩
    by_contra hge
    rw [List.getElem?_eq_none (by omega)] at h
    cases h
  simp only [instantiate, hval, h, hp, ne_eq, not_true_eq_false, if_false, afterInstantiate]

theorem validate_local (s : Store) (v : TypeVariable) (hp : v.parent = s.self)
    (h : s.typeVariables[v.index]? = some none) : validate s v = .ok () := by
  rw [validate_ok_iff]
  refine ⟨hp, ?_⟩
  by_contra hge
  rw [List.getElem?_eq_none (by omega)] at h
  cases h

/-- The only exception of `resolve` is the one of the checked `at`. -/
theorem resolve_ne_assertion (k : Nat) (s : Store) (t : Ty) :
    resolve k s t ≠ some (.error .assertion) := by
  induction k generalizing t with
  | zero =>
    cases t with
    | var v => simp [resolve]
    | expr c xs => rw [resolve_expr]; simp
  | succ k ihk =>
    cases t with
    | expr c xs => rw [resolve_expr]; simp
    | var v =>
      rw [resolve_var_succ]
      split
      · simp
      · simp
      · exact ihk _

theorem unifyArguments_local (u : Store → Ty → Ty → Option UnifyResult)
    (hu : ∀ s a b res, s.local → Ty.localTo s.self a → Ty.localTo s.self b →
      u s a b = some res → res.1 ≠ .error .assertion ∧ res.2.local ∧ res.2.self = s.self)
    (l : List (Ty × Ty)) (s : Store) (res : UnifyResult) (hs : s.local)
    (hl : ∀ p ∈ l, Ty.localTo s.self p.1 ∧ Ty.localTo s.self p.2)
    (h : unifyArguments u l s = some res) :
    res.1 ≠ .error .assertion ∧ res.2.local ∧ res.2.self = s.self := by
  induction l generalizing s res with
  | nil =>
    simp only [unifyArguments, Option.some.injEq] at h
    subst h
    exact ⟨(fun e => by cases e), hs, rfl⟩
  | cons p rest ih =>
    obtain ⟨x, y⟩ := p
    rw [unifyArguments_cons] at h
    have hxy := hl (x, y) (List.mem_cons_self _ _)
    split at h
    · cases h
    · rename_i e s1 h1
      cases h
      exact hu s x y _ hs hxy.1 hxy.2 h1
    · rename_i fs s1 h1
      obtain ⟨_, hs1, hself⟩ := hu s x y _ hs hxy.1 hxy.2 h1
      simp only at hs1 hself
      have hl1 : ∀ p ∈ rest, Ty.localTo s1.self p.1 ∧ Ty.localTo s1.self p.2 := by
        intro p hp
        rw [hself]
        exact hl p (List.mem_cons_of_mem _ hp)
      split at h
      · cases h
      · rename_i e s2 h2
        cases h
        obtain ⟨e1, e2, e3⟩ := ih s1 (.error e, s2) hs1 hl1 h2
        exact ⟨e1, e2, e3.trans hself⟩
      · rename_i more s2 h2
        cases h
        obtain ⟨_, e2, e3⟩ := ih s1 (.ok more, s2) hs1 hl1 h2
        exact ⟨(fun e => by cases e), e2, e3.trans hself⟩

theorem unify_local (n : Nat) (s : Store) (a b : Ty) (res : UnifyResult) (hs : s.local)
    (ha : Ty.localTo s.self a) (hb : Ty.localTo s.self b) (h : unify n s a b = some res) :
    res.1 ≠ .error .assertion ∧ res.2.local ∧ res.2.self = s.self := by
  induction n generalizing s a b res with
  | zero => simp [unify] at h
  | succ n ih =>
    simp only [unify] at h
    split at h
    · cases h
    · rename_i e he
      cases h
      refine ⟨fun e' => ?_, hs, rfl⟩
      simp only [Except.error.injEq] at e'
      subst e'
      exact resolve_ne_assertion _ s _ he
    · rename_i ra hra
      split at h
      · cases h
      · rename_i e he
        cases h
        refine ⟨fun e' => ?_, hs, rfl⟩
        simp only [Except.error.injEq] at e'
        subst e'
        exact resolve_ne_assertion _ s _ he
      · rename_i rb hrb
        have hla := resolve_local _ s a ra hs ha hra
        have hlb := resolve_local _ s b rb hs hb hrb
        cases ra with
        | var v =>
          have hv := resolve_var_unbound _ _ _ _ hra
          have hpv : v.parent = s.self := hla v (by simp [Ty.variables])
          cases rb with
          | var w =>
            have hw := resolve_var_unbound _ _ _ _ hrb
            have hpw : w.parent = s.self := hlb w (by simp [Ty.variables])
            simp only [unifyVisit, validate_local s v hpv hv, validate_local s w hpw hw] at h
            split at h
            · rw [afterInstantiate_local s v _ hpv hv] at h
              cases h
              exact ⟨(fun e => by cases e), set_local s _ _ hs hlb, rfl⟩
            · cases h
              exact ⟨(fun e => by cases e), hs, rfl⟩
          | expr d ys =>
            simp only [unifyVisit] at h
            rw [afterInstantiate_local s v _ hpv hv] at h
            cases h
            exact ⟨(fun e => by cases e), set_local s _ _ hs hlb, rfl⟩
        | expr c xs =>
          cases rb with
          | var w =>
            have hw := resolve_var_unbound _ _ _ _ hrb
            have hpw : w.parent = s.self := hlb w (by simp [Ty.variables])
            simp only [unifyVisit] at h
            rw [afterInstantiate_local s w _ hpw hw] at h
            cases h
            exact ⟨(fun e => by cases e), set_local s _ _ hs hla, rfl⟩
          | expr d ys =>
            simp only [unifyVisit] at h
            split at h
            · cases h
              exact ⟨(fun e => by cases e), hs, rfl⟩
            · split at h
              · cases h
                exact ⟨(fun e => by cases e), hs, rfl⟩
              · refine unifyArguments_local (unify n)
                  (fun s a b res hs ha hb h => ih s a b res hs ha hb h) _ s res hs ?_ h
                intro p hp
                have h1 := (List.of_mem_zip hp)
                exact ⟨(localTo_expr _ _ _).1 hla _ h1.1, (localTo_expr _ _ _).1 hlb _ h1.2⟩

/-- C3 (amended): unifiability is symmetric.  Let `unify(a, b)` return a
failure list.  Whenever `unify(b, a)` from the same store returns a list as
well, the two lists are both empty or both non-empty; and `unify(b, a)` does
return a list when every variable in `a`, in `b` and in the bound slots
belongs to this store. -/
theorem unify_symmetric (n : Nat) (s : Store) (a b : Ty) (f1 : List UnificationFailure)
    (s1 : Store) (h : unify n s a b = some (.ok f1, s1)) :
    (∀ m f2 s2, unify m s b a = some (.ok f2, s2) → (f1 = [] ↔ f2 = [])) ∧
    (s.local → Ty.localTo s.self a → Ty.localTo s.self b →
      ∃ m f2 s2, unify m s b a = some (.ok f2, s2) ∧ (f1 = [] ↔ f2 = [])) := by
  obtain ⟨M, hM⟩ := unify_mirror n s s a b f1 s1 (Store.simulates_refl s) h
  constructor
  · intro m f2 s2 h2
    rcases hM with ⟨f2', s2', hu, hiff, _⟩ | ⟨s2', hu⟩
    · have := unify_det _ _ _ _ _ _ _ h2 hu
      simp only [Prod.mk.injEq, Except.ok.injEq] at this
      rw [this.1]
      exact hiff
    · have := unify_det _ _ _ _ _ _ _ h2 hu
      simp at this
  · intro hs ha hb
    rcases hM with ⟨f2', s2', hu, hiff, _⟩ | ⟨s2', hu⟩
    · exact ⟨M, f2', s2', hu, hiff⟩
    · exact absurd rfl (unify_local M s b a _ hs hb ha hu).1

/-- C3 fails when a variable of another store is mixed in.  With `f` a
variable of store 9 with index 0, `unify(Pair(v0, f), Pair(v1, Integer))` in
store 1 binds `v0` to `v1`, resolves `f` through slot 0 to `v1`, binds it and
returns no failure; `unify(Pair(v1, Integer), Pair(v0, f))` binds `v1` to
`v0`, finds slot 0 empty, and fails the assertion of `validate` on `f`: with
no amount of fuel does it return a list. -/
theorem unify_symmetric_counterexample :
    unify 3 exampleStore
        (.expr (.builtin .Pair) [.var ⟨1, 0, false⟩, .var ⟨9, 0, false⟩])
        (.expr (.builtin .Pair) [.var ⟨1, 1, false⟩, .expr (.builtin .Integer) []])
      = some (.ok [], { exampleStore with typeVariables :=
          [some (.var ⟨1, 1, false⟩), some (.expr (.builtin .Integer) [])] }) ∧
    unify 3 exampleStore
        (.expr (.builtin .Pair) [.var ⟨1, 1, false⟩, .expr (.builtin .Integer) []])
        (.expr (.builtin .Pair) [.var ⟨1, 0, false⟩, .var ⟨9, 0, false⟩])
      = some (.error .assertion, { exampleStore with typeVariables :=
          [none, some (.var ⟨1, 0, false⟩)] }) ∧
    (∀ m f2 s2, unify m exampleStore
        (.expr (.builtin .Pair) [.var ⟨1, 1, false⟩, .expr (.builtin .Integer) []])
        (.expr (.builtin .Pair) [.var ⟨1, 0, false⟩, .var ⟨9, 0, false⟩])
      ≠ some (.ok f2, s2)) := by
  refine ⟨by decide, by decide, fun m f2 s2 h => ?_⟩
  have h3 : unify 3 exampleStore
      (.expr (.builtin .Pair) [.var ⟨1, 1, false⟩, .expr (.builtin .Integer) []])
      (.expr (.builtin .Pair) [.var ⟨1, 0, false⟩, .var ⟨9, 0, false⟩])
      = some (.error .assertion, { exampleStore with typeVariables :=
          [none, some (.var ⟨1, 0, false⟩)] }) := by decide
  have := unify_det _ _ _ _ _ _ _ h h3
  simp at this

/-- C3 (amended), at `unify(Pair(v0, Integer), Pair(Unit, Unit))`, which
returns one failure: the mirrored call returns a non-empty list too. -/
theorem unify_symmetric_witness :
    ∃ m f2 s2,
      unify m exampleStore
          (.expr (.builtin .Pair) [.expr (.builtin .Unit) [], .expr (.builtin .Unit) []])
          (.expr (.builtin .Pair) [.var ⟨1, 0, false⟩, .expr (.builtin .Integer) []])
        = some (.ok f2, s2) ∧
      (([⟨.expr (.builtin .Integer) [], .expr (.builtin .Unit) []⟩] : List UnificationFailure)
        = [] ↔ f2 = []) :=
  (unify_symmetric 2 exampleStore
    (.expr (.builtin .Pair) [.var ⟨1, 0, false⟩, .expr (.builtin .Integer) []])
    (.expr (.builtin .Pair) [.expr (.builtin .Unit) [], .expr (.builtin .Unit) []])
    [⟨.expr (.builtin .Integer) [], .expr (.builtin .Unit) []⟩]
    { exampleStore with typeVariables := [some (.expr (.builtin .Unit) []), none] } rfl).2
    (by intro i t hi; rcases i with _ | _ | i <;> simp [exampleStore] at hi)
    (by intro v hv; simp [Ty.variables, Ty.variablesList] at hv; subst hv; rfl)
    (by intro v hv; simp [Ty.variables, Ty.variablesList] at hv)

theorem tupleType_cons (s : Store) (name : String)
    (hPair : s.builtinTypes.lookup .Pair = some ⟨name, 2⟩) (y : Ty) (rest : List Ty) :
    tupleType s (y :: rest)
      = .ok (((y :: rest).dropLast).foldr (fun t r => .expr (.builtin .Pair) [t, r])
          ((y :: rest).getLast (by simp))) := by
  cases rest with
  | nil => rfl
  | cons z r =>
    rw [tupleType_two s name hPair]
    have h2 : (y :: z :: r).dropLast = y :: (z :: r).dropLast := by simp
    have h3 : (y :: z :: r).getLast (by simp) = (z :: r).getLast (by simp) := by simp
    rw [h2, h3]
    rfl

/-- C15: `tupleType` builds a right-nested chain of `Pair`.  With `Unit`
declared at arity 0 and `Pair` at arity 2, the empty sequence gives `Unit`, a
single element gives the element itself, and an element in front of a
non-empty rest gives `Pair` of the element and the tuple type of the rest. -/
theorem tupleType_nested (s : Store) (nameUnit namePair : String)
    (hUnit : s.builtinTypes.lookup .Unit = some ⟨nameUnit, 0⟩)
    (hPair : s.builtinTypes.lookup .Pair = some ⟨namePair, 2⟩) :
    tupleType s [] = .ok (.expr (.builtin .Unit) []) ∧
    (∀ x, tupleType s [x] = .ok x) ∧
    (∀ x y rest, ∃ tl, tupleType s (y :: rest) = .ok tl ∧
      tupleType s (x :: y :: rest) = .ok (.expr (.builtin .Pair) [x, tl])) := by
  refine ⟨by simp [tupleType, builtinType, hUnit], fun x => rfl, fun x y rest => ?_⟩
  exact ⟨_, tupleType_cons s namePair hPair y rest, tupleType_two s namePair hPair x y rest⟩

/-- C15, at three elements: `tupleType([v0, Integer, v1])` is
`Pair(v0, Pair(Integer, v1))`. -/
theorem tupleType_nested_witness :
    ∃ tl, tupleType exampleStore [.expr (.builtin .Integer) [], .var ⟨1, 1, false⟩] = .ok tl ∧
      tupleType exampleStore [.var ⟨1, 0, false⟩, .expr (.builtin .Integer) [], .var ⟨1, 1, false⟩]
        = .ok (.expr (.builtin .Pair) [.var ⟨1, 0, false⟩, tl]) :=
  (tupleType_nested exampleStore "unit" "pair" (by decide) (by decide)).2.2
    (.var ⟨1, 0, false⟩) (.expr (.builtin .Integer) []) [.var ⟨1, 1, false⟩]

theorem destTupleLoop_cons (a : Ty) (acc : List Ty) (t : Ty) :
    destTupleLoop (a :: acc) t = consResult a (destTupleLoop acc t) := by
  induction acc, t using destTupleLoop.induct with
  | case1 acc x y ih =>
    rw [destTupleLoop, destTupleLoop]
    exact ih
  | case2 acc args hne =>
    rw [destTupleLoop.eq_2 _ _ hne, destTupleLoop.eq_2 _ _ hne]
    rfl
  | case3 acc t h1 h2 =>
    rw [destTupleLoop.eq_3 _ _ h1 h2, destTupleLoop.eq_3 _ _ h1 h2]
    rfl

/-- C16 (amended): `destTupleType` by cases.  `Unit` gives the empty
sequence; a type expression that is neither `Unit` nor `Pair` gives itself as
the only element; a type variable fails the assertion of `destTypeExpression`;
`Pair(a, b)` gives `a` followed by `destTupleType(b)` when `b` is a `Pair`
expression and `a` followed by `b` otherwise; a `Pair` that does not have two
arguments fails the assertion. -/
theorem destTupleType_cases :
    (∀ args, destTupleType (.expr (.builtin .Unit) args) = .ok []) ∧
    (∀ c args, c ≠ .builtin .Unit → c ≠ .builtin .Pair →
      destTupleType (.expr c args) = .ok [.expr c args]) ∧
    (∀ v, destTupleType (.var v) = .error .assertion) ∧
    (∀ a b, isPairExpression b = true →
      destTupleType (.expr (.builtin .Pair) [a, b]) = consResult a (destTupleType b)) ∧
    (∀ a b, isPairExpression b = false →
      destTupleType (.expr (.builtin .Pair) [a, b]) = .ok [a, b]) ∧
    (∀ args, args.length ≠ 2 →
      destTupleType (.expr (.builtin .Pair) args) = .error .assertion) := by
  refine ⟨fun args => rfl, ?_, fun v => rfl, ?_, ?_, ?_⟩
  · intro c args h1 h2
    cases c with
    | declaration p => rfl
    | builtin tag =>
      cases tag
      case Unit => exact absurd rfl h1
      case Pair => exact absurd rfl h2
      all_goals rfl
  · intro a b hb
    cases b with
    | var v => simp [isPairExpression] at hb
    | expr c args =>
      cases c with
      | declaration p => simp [isPairExpression] at hb
      | builtin tag =>
        cases tag <;> simp [isPairExpression] at hb
        match args with
        | [x, y] =>
          show destTupleLoop [a] (.expr (.builtin .Pair) [x, y])
            = consResult a (destTupleLoop [x] y)
          rw [destTupleLoop.eq_1]
          exact destTupleLoop_cons a [x] y
        | [] =>
          simp only [destTupleType, destTypeExpression]
          rw [destTupleLoop.eq_2 _ _ (by simp)]
          rfl
        | [_] =>
          simp only [destTupleType, destTypeExpression]
          rw [destTupleLoop.eq_2 _ _ (by simp)]
          rfl
        | _ :: _ :: _ :: _ =>
          simp only [destTupleType, destTypeExpression]
          rw [destTupleLoop.eq_2 _ _ (by simp)]
          rfl
  · intro a b hb
    simp only [destTupleType, destTypeExpression]
    rw [destTupleLoop_not_pair _ _ hb]
    rfl
  · intro args hl
    match args, hl with
    | [], _ => rfl
    | [_], _ => rfl
    | [_, _], hl => simp at hl
    | _ :: _ :: _ :: _, _ => rfl

/-- C16 fails on a type variable: `destTupleType(v0)` does not return `[v0]`
but fails the assertion of `destTypeExpression`. -/
theorem destTupleType_cases_counterexample :
    destTupleType (.var ⟨1, 0, false⟩) = .error .assertion ∧
    destTupleType (.var ⟨1, 0, false⟩) ≠ .ok [.var ⟨1, 0, false⟩] := by
  decide

/-- C16 (amended), at `Pair(v0, Pair(Integer, Unit))`: the result is `v0`
followed by the elements of `Pair(Integer, Unit)`, which are `Integer` and
`Unit`. -/
theorem destTupleType_cases_witness :
    destTupleType (.expr (.builtin .Pair) [.var ⟨1, 0, false⟩,
        .expr (.builtin .Pair) [.expr (.builtin .Integer) [], .expr (.builtin .Unit) []]])
      = consResult (.var ⟨1, 0, false⟩)
          (destTupleType
            (.expr (.builtin .Pair) [.expr (.builtin .Integer) [], .expr (.builtin .Unit) []])) ∧
    destTupleType
        (.expr (.builtin .Pair) [.expr (.builtin .Integer) [], .expr (.builtin .Unit) []])
      = .ok [.expr (.builtin .Integer) [], .expr (.builtin .Unit) []] :=
  ⟨destTupleType_cases.2.2.2.1 _ _ rfl, destTupleType_cases.2.2.2.2.1 _ _ rfl⟩

/-- C17: with `Function` declared at arity 2, `destFunctionType(functionType(a,
b))` returns `(a, b)`; and `destFunctionType(t)` throws (a failed assertion)
exactly when `t` is not the builtin `Function` applied to two arguments. -/
theorem destFunctionType_spec (s : Store) (name : String)
    (hF : s.builtinTypes.lookup .Function = some ⟨name, 2⟩) :
    (∀ a b, destFunctionOfFunctionType s a b = .ok (a, b)) ∧
    (∀ t, destFunctionType t = .error .assertion ↔
      ¬ ∃ a b, t = .expr (.builtin .Function) [a, b]) ∧
    (∀ t, (∃ e, destFunctionType t = .error e) ↔
      ¬ ∃ a b, t = .expr (.builtin .Function) [a, b]) := by
  have key : ∀ t, (∃ a b, t = Ty.expr (.builtin .Function) [a, b] ∧
      destFunctionType t = .ok (a, b)) ∨
      ((¬ ∃ a b, t = Ty.expr (.builtin .Function) [a, b]) ∧
        destFunctionType t = .error .assertion) := by
    intro t
    cases t with
    | var v => exact Or.inr ⟨by simp, rfl⟩
    | expr c args =>
      cases c with
      | declaration p => exact Or.inr ⟨by simp, rfl⟩
      | builtin tag =>
        cases tag
        case Function =>
          match args with
          | [a, b] => exact Or.inl ⟨a, b, rfl, rfl⟩
          | [] => exact Or.inr ⟨by simp, rfl⟩
          | [_] => exact Or.inr ⟨by simp, rfl⟩
          | _ :: _ :: _ :: _ => exact Or.inr ⟨by simp, rfl⟩
        all_goals exact Or.inr ⟨by simp, rfl⟩
  refine ⟨fun a b => ?_, fun t => ?_, fun t => ?_⟩
  · simp [destFunctionOfFunctionType, functionType, builtinType, hF, destFunctionType,
      destTypeExpression]
  · rcases key t with ⟨a, b, e, h⟩ | ⟨hn, h⟩
    · rw [h]
      constructor
      · intro h'; cases h'
      · intro h'; exact absurd ⟨a, b, e⟩ h'
    · rw [h]
      exact ⟨fun _ => hn, fun _ => rfl⟩
  · rcases key t with ⟨a, b, e, h⟩ | ⟨hn, h⟩
    · rw [h]
      constructor
      · rintro ⟨e', h'⟩; cases h'
      · intro h'; exact absurd ⟨a, b, e⟩ h'
    · rw [h]
      exact ⟨fun _ => hn, fun _ => ⟨_, rfl⟩⟩

/-- C17, on `Function(v0, Integer)` built by `functionType`, and on `Pair(v0,
Integer)`, which is not a function type. -/
theorem destFunctionType_spec_witness :
    destFunctionOfFunctionType exampleStore (.var ⟨1, 0, false⟩) (.expr (.builtin .Integer) [])
      = .ok (.var ⟨1, 0, false⟩, .expr (.builtin .Integer) []) ∧
    destFunctionType (.expr (.builtin .Pair) [.var ⟨1, 0, false⟩, .expr (.builtin .Integer) []])
      = .error .assertion :=
  ⟨(destFunctionType_spec exampleStore "fun" (by decide)).1 _ _,
    ((destFunctionType_spec exampleStore "fun" (by decide)).2.1 _).2 (by simp)⟩

/-- C12 (amended): for two variables `v0` and `v1` of the store with empty
slots and different indices and a type `T` without variables, `unify(Function(v0, T),
Function(T, v1))` returns no failures, and afterwards `resolve(v0)` and
`resolve(v1)` both return `T`. -/
theorem unify_function_scenario (s : Store) (v0 v1 : TypeVariable) (T : Ty)
    (h0 : s.typeVariables[v0.index]? = some none) (h1 : s.typeVariables[v1.index]? = some none)
    (hne : v0.index ≠ v1.index) (hp0 : v0.parent = s.self) (hp1 : v1.parent = s.self)
    (hT : T.variables = []) :
    ∃ s', unify 2 s (.expr (.builtin .Function) [.var v0, T])
        (.expr (.builtin .Function) [T, .var v1]) = some (.ok [], s') ∧
      resolve 1 s' (.var v0) = some (.ok T) ∧ resolve 1 s' (.var v1) = some (.ok T) := by
  cases T with
  | var w => simp [Ty.variables] at hT
  | expr c xs =>
    have hs1 : ({ s with typeVariables := s.typeVariables.set v0.index (some (.expr c xs)) }
        : Store).typeVariables[v1.index]? = some none := by
      simp only
      rw [List.getElem?_set_ne hne]
      exact h1
    have e1 : unify 1 s (.var v0) (.expr c xs)
        = some (.ok [], { s with
            typeVariables := s.typeVariables.set v0.index (some (.expr c xs)) }) := by
      simp only [unify, resolve_var_succ, h0, resolve_expr, unifyVisit]
      exact afterInstantiate_local s v0 _ hp0 h0
    have e2 : unify 1
        { s with typeVariables := s.typeVariables.set v0.index (some (.expr c xs)) }
        (.expr c xs) (.var v1)
        = some (.ok [], { s with
            typeVariables := (s.typeVariables.set v0.index (some (.expr c xs))).set
              v1.index (some (.expr c xs)) }) := by
      simp only [unify, resolve_var_succ, hs1, resolve_expr, unifyVisit]
      exact afterInstantiate_local _ v1 _ hp1 hs1
    refine ⟨{ s with
        typeVariables := (s.typeVariables.set v0.index (some (.expr c xs))).set
          v1.index (some (.expr c xs)) }, ?_, ?_, ?_⟩
    · have hu : unify 2 s (.expr (.builtin .Function) [.var v0, .expr c xs])
          (.expr (.builtin .Function) [.expr c xs, .var v1])
          = unifyArguments (unify 1) [(.var v0, .expr c xs), (.expr c xs, .var v1)] s := by
        show unify (1 + 1) s _ _ = _
        rw [unify]
        simp only [resolve_expr]
        rfl
      rw [hu, unifyArguments_cons, e1]
      simp only
      rw [unifyArguments_cons, e2]
      rfl
    · rw [resolve_var_succ]
      simp only
      rw [List.getElem?_set_ne (fun e => hne e.symm),
        getElem?_set_self_of_some _ _ _ _ h0]
      exact resolve_expr _ _ _ _
    · rw [resolve_var_succ]
      simp only
      rw [getElem?_set_self_of_some _ _ _ _ (by rw [List.getElem?_set_ne hne]; exact h1)]
      exact resolve_expr _ _ _ _

/-- C12 (amended), the scenario of the spec with `T = Integer`. -/
theorem unify_function_scenario_witness :
    ∃ s', unify 2 exampleStore
        (.expr (.builtin .Function) [.var ⟨1, 0, false⟩, .expr (.builtin .Integer) []])
        (.expr (.builtin .Function) [.expr (.builtin .Integer) [], .var ⟨1, 1, false⟩])
        = some (.ok [], s') ∧
      resolve 1 s' (.var ⟨1, 0, false⟩) = some (.ok (.expr (.builtin .Integer) [])) ∧
      resolve 1 s' (.var ⟨1, 1, false⟩) = some (.ok (.expr (.builtin .Integer) [])) :=
  unify_function_scenario exampleStore ⟨1, 0, false⟩ ⟨1, 1, false⟩ (.expr (.builtin .Integer) [])
    rfl rfl (by decide) rfl rfl rfl

/-- C12 fails for a variable of another store: with `v1` the variable of
store 9 with index 1, whose slot in the example store is empty,
`unify(Function(v0, Integer), Function(Integer, v1))` binds `v0` and then
fails the assertion of `validate` on `v1`. -/
theorem unify_function_scenario_counterexample :
    exampleStore.typeVariables[0]? = some none ∧ exampleStore.typeVariables[1]? = some none ∧
    resolve 1 exampleStore (.var ⟨9, 1, false⟩) = some (.ok (.var ⟨9, 1, false⟩)) ∧
    unify 2 exampleStore
        (.expr (.builtin .Function) [.var ⟨1, 0, false⟩, .expr (.builtin .Integer) []])
        (.expr (.builtin .Function) [.expr (.builtin .Integer) [], .var ⟨9, 1, false⟩])
      = some (.error .assertion,
          { exampleStore with typeVariables := [some (.expr (.builtin .Integer) []), none] }) := by
  decide

/-- C13 (amended): variable binding in `unify`, with no occurs check.  When `a`
resolves to a variable `v` of the store and `b` to a type expression, or to
a variable of the store with another index, `unify(a, b)` returns no failures
and the store afterwards is the store before with the slot of `v` set to the
resolution of `b`; symmetrically when `a` resolves to a type expression and
`b` to a variable; and when both resolve to variables with one index the
store is unchanged.  Nothing is asked of the expression: it may contain `v`. -/
theorem unify_binds_variable (n : Nat) (s : Store) (a b : Ty) :
    (∀ v c xs, resolve (n + 1) s a = some (.ok (.var v)) →
      resolve (n + 1) s b = some (.ok (.expr c xs)) → v.parent = s.self →
      unify (n + 1) s a b = some (.ok [],
        { s with typeVariables := s.typeVariables.set v.index (some (.expr c xs)) })) ∧
    (∀ v w, resolve (n + 1) s a = some (.ok (.var v)) →
      resolve (n + 1) s b = some (.ok (.var w)) → v.parent = s.self → w.parent = s.self →
      v.index ≠ w.index →
      unify (n + 1) s a b = some (.ok [],
        { s with typeVariables := s.typeVariables.set v.index (some (.var w)) })) ∧
    (∀ w c xs, resolve (n + 1) s a = some (.ok (.expr c xs)) →
      resolve (n + 1) s b = some (.ok (.var w)) → w.parent = s.self →
      unify (n + 1) s a b = some (.ok [],
        { s with typeVariables := s.typeVariables.set w.index (some (.expr c xs)) })) ∧
    (∀ v w, resolve (n + 1) s a = some (.ok (.var v)) →
      resolve (n + 1) s b = some (.ok (.var w)) → v.parent = s.self → w.parent = s.self →
      v.index = w.index → unify (n + 1) s a b = some (.ok [], s)) := by
  refine ⟨?_, ?_, ?_, ?_⟩
  · intro v c xs ha hb hp
    simp only [unify, ha, hb, unifyVisit]
    exact afterInstantiate_local s v _ hp (resolve_var_unbound _ _ _ _ ha)
  · intro v w ha hb hpv hpw hne
    have hv := resolve_var_unbound _ _ _ _ ha
    have hw := resolve_var_unbound _ _ _ _ hb
    simp only [unify, ha, hb, unifyVisit, validate_local s v hpv hv, validate_local s w hpw hw,
      hne, ne_eq, not_false_eq_true, if_true]
    exact afterInstantiate_local s v _ hpv hv
  · intro w c xs ha hb hp
    simp only [unify, ha, hb, unifyVisit]
    exact afterInstantiate_local s w _ hp (resolve_var_unbound _ _ _ _ hb)
  · intro v w ha hb hpv hpw heq
    have hv := resolve_var_unbound _ _ _ _ ha
    have hw := resolve_var_unbound _ _ _ _ hb
    simp only [unify, ha, hb, unifyVisit, validate_local s v hpv hv, validate_local s w hpw hw,
      heq, ne_eq, not_true_eq_false, if_false]

/-- C13 (amended), the example of the claim: `unify(v0, Function(v0,
Integer))` returns no failures and leaves `v0` bound to `Function(v0, Integer)`. -/
theorem unify_binds_variable_witness :
    unify 1 exampleStore (.var ⟨1, 0, false⟩)
        (.expr (.builtin .Function) [.var ⟨1, 0, false⟩, .expr (.builtin .Integer) []])
      = some (.ok [], { exampleStore with
          typeVariables := exampleStore.typeVariables.set 0
            (some (.expr (.builtin .Function)
              [.var ⟨1, 0, false⟩, .expr (.builtin .Integer) []])) }) :=
  (unify_binds_variable 0 exampleStore (.var ⟨1, 0, false⟩)
    (.expr (.builtin .Function) [.var ⟨1, 0, false⟩, .expr (.builtin .Integer) []])).1
    ⟨1, 0, false⟩ (.builtin .Function) [.var ⟨1, 0, false⟩, .expr (.builtin .Integer) []]
    rfl rfl rfl

/-- C13 fails for a variable of another store: `f`, a variable of store 9 with
index 0, resolves to itself in the example store, where slot 0 is empty, and
`Function(f, Integer)` is not that variable, but `unify(f, Function(f,
Integer))` and `unify(Function(f, Integer), f)` fail the assertion of
`validate` and bind nothing. -/
theorem unify_binds_variable_counterexample :
    resolve 1 exampleStore (.var ⟨9, 0, false⟩) = some (.ok (.var ⟨9, 0, false⟩)) ∧
    unify 1 exampleStore (.var ⟨9, 0, false⟩)
        (.expr (.builtin .Function) [.var ⟨9, 0, false⟩, .expr (.builtin .Integer) []])
      = some (.error .assertion, exampleStore) ∧
    unify 1 exampleStore
        (.expr (.builtin .Function) [.var ⟨9, 0, false⟩, .expr (.builtin .Integer) []])
        (.var ⟨9, 0, false⟩)
      = some (.error .assertion, exampleStore) := by
  decide

theorem chain_var_succ (n : Nat) (s : Store) (v : TypeVariable) :
    chain (n + 1) s (.var v) =
      v.index ::
        (match s.typeVariables[v.index]? with
        | some (some t) => chain n s t
        | _ => []) := rfl

theorem resolve_none_chain (n : Nat) (s : Store) (t : Ty) (h : resolve n s t = none) :
    (chain n s t).length = n := by
  induction n generalizing t with
  | zero =>
    cases t with
    | var v => rfl
    | expr c xs => rw [resolve_expr] at h; cases h
  | succ n ih =>
    cases t with
    | expr c xs => rw [resolve_expr] at h; cases h
    | var v =>
      rw [resolve_var_succ] at h
      rw [chain_var_succ]
      split at h
      · cases h
      · cases h
      · rename_i u hu
        simp only [hu, List.length_cons, ih u h]

theorem resolve_error_chain (n : Nat) (s : Store) (t : Ty) (e : Err)
    (h : resolve n s t = some (.error e)) :
    ∃ i ∈ chain n s t, s.typeVariables.length ≤ i := by
  induction n generalizing t with
  | zero =>
    cases t with
    | var v => simp [resolve] at h
    | expr c xs => rw [resolve_expr] at h; cases h
  | succ n ih =>
    cases t with
    | expr c xs => rw [resolve_expr] at h; cases h
    | var v =>
      rw [resolve_var_succ] at h
      rw [chain_var_succ]
      split at h
      · rename_i hnone
        refine ⟨v.index, List.mem_cons_self _ _, ?_⟩
        by_contra hlt
        have : v.index < s.typeVariables.length := by omega
        rw [List.getElem?_eq_getElem this] at hnone
        cases hnone
      · cases h
      · rename_i u hu
        obtain ⟨i, hi, hle⟩ := ih u h
        exact ⟨i, by simp only [hu]; exact List.mem_cons_of_mem _ hi, hle⟩

theorem nodup_bounded_length (l : List Nat) (N : Nat) (hn : l.Nodup) (hb : ∀ i ∈ l, i < N) :
    l.length ≤ N := by
  have h1 : l.toFinset ⊆ Finset.range N := by
    intro i hi
    rw [List.mem_toFinset] at hi
    exact Finset.mem_range.2 (hb i hi)
  have h2 := Finset.card_le_card h1
  rw [List.toFinset_card_of_nodup hn, Finset.card_range] at h2
  exact h2

theorem resolve_chainEnds (n : Nat) (s : Store) (t r : Ty)
    (h : resolve n s t = some (.ok r)) : ChainEnds s t r := by
  induction n generalizing t with
  | zero =>
    cases t with
    | var v => simp [resolve] at h
    | expr c xs =>
      rw [resolve_expr] at h
      cases h
      exact ChainEnds.expr c xs
  | succ n ih =>
    cases t with
    | expr c xs =>
      rw [resolve_expr] at h
      cases h
      exact ChainEnds.expr c xs
    | var v =>
      rw [resolve_var_succ] at h
      split at h
      · cases h
      · rename_i hs
        cases h
        exact ChainEnds.unbound v hs
      · rename_i u hu
        exact ChainEnds.step v u r hu (ih u h)

theorem chainEnds_det {s : Store} {t r r' : Ty} (h : ChainEnds s t r) (h' : ChainEnds s t r') :
    r = r' := by
  induction h generalizing r' with
  | expr c args => cases h'; rfl
  | unbound v hv =>
    cases h' with
    | unbound _ _ => rfl
    | step _ u _ hu _ => rw [hv] at hu; cases hu
  | step v u r hu _ ih =>
    cases h' with
    | unbound _ hv => rw [hv] at hu; cases hu
    | step _ u' _ hu' hr' =>
      rw [hu] at hu'
      cases hu'
      exact ih hr'

/-- C14: `resolve` terminates on an acyclic chain.  When the chain that
starts at `t` repeats no index and stays in range, `resolve` returns within as
many iterations as the table has slots, plus one; what it returns is the first
element of the chain that is a type expression or a variable with an empty
slot, and no other type is.  (`resolve` is a `const` member: it only reads the
store.) -/
theorem resolve_terminates (s : Store) (t : Ty)
    (hn : (chain (s.typeVariables.length + 1) s t).Nodup)
    (hr : ∀ i ∈ chain (s.typeVariables.length + 1) s t, i < s.typeVariables.length) :
    ∃ r, resolve (s.typeVariables.length + 1) s t = some (.ok r) ∧ ChainEnds s t r ∧
      ∀ r', ChainEnds s t r' → r' = r := by
  cases h : resolve (s.typeVariables.length + 1) s t with
  | none =>
    have h1 := resolve_none_chain _ s t h
    have h2 := nodup_bounded_length _ _ hn hr
    omega
  | some x =>
    cases x with
    | error e =>
      obtain ⟨i, hi, hle⟩ := resolve_error_chain _ s t e h
      have := hr i hi
      omega
    | ok r =>
      have hc := resolve_chainEnds _ s t r h
      exact ⟨r, rfl, hc, fun r' h' => chainEnds_det h' hc⟩

/-- C14, on the chain `v0`, `v1`, `v2` of a table with three slots, which ends
in the empty slot of `v2`. -/
theorem resolve_terminates_witness :
    ∃ r, resolve 4 ⟨1, [some (.var ⟨1, 1, false⟩), some (.var ⟨1, 2, false⟩), none], []⟩
        (.var ⟨1, 0, false⟩) = some (.ok r) ∧
      ChainEnds ⟨1, [some (.var ⟨1, 1, false⟩), some (.var ⟨1, 2, false⟩), none], []⟩
        (.var ⟨1, 0, false⟩) r ∧
      ∀ r', ChainEnds ⟨1, [some (.var ⟨1, 1, false⟩), some (.var ⟨1, 2, false⟩), none], []⟩
        (.var ⟨1, 0, false⟩) r' → r' = r :=
  resolve_terminates ⟨1, [some (.var ⟨1, 1, false⟩), some (.var ⟨1, 2, false⟩), none], []⟩
    (.var ⟨1, 0, false⟩) (by decide) (by decide)

theorem allVariables_expr (P : TypeVariable → Prop) (c : Constructor) (xs : List Ty) :
    Ty.allVariables P (.expr c xs) ↔ ∀ x ∈ xs, Ty.allVariables P x := by
  simp only [Ty.allVariables, Ty.variables, mem_variablesList]
  constructor
  · intro h x hx v hv
    exact h v ⟨x, hx, hv⟩
  · rintro h v ⟨x, hx, hv⟩
    exact h x hx v hv

theorem resolve_allVariables (P : TypeVariable → Prop) (n : Nat) (s : Store) (t r : Ty)
    (hs : s.allVariables P) (ht : Ty.allVariables P t) (h : resolve n s t = some (.ok r)) :
    Ty.allVariables P r := by
  induction n generalizing t with
  | zero =>
    cases t with
    | var v => simp [resolve] at h
    | expr c args =>
      rw [resolve_expr] at h
      cases h
      exact ht
  | succ n ih =>
    cases t with
    | expr c args =>
      rw [resolve_expr] at h
      cases h
      exact ht
    | var v =>
      rw [resolve_var_succ] at h
      split at h
      · cases h
      · cases h
        exact ht
      · rename_i u hu
        exact ih u (hs _ _ hu) h

theorem set_allVariables (P : TypeVariable → Prop) (s : Store) (i : Nat) (x : Ty)
    (hs : s.allVariables P) (hx : Ty.allVariables P x) :
    Store.allVariables P { s with typeVariables := s.typeVariables.set i (some x) } := by
  intro j t hj
  simp only at hj
  by_cases hij : i = j
  · subst hij
    rw [List.getElem?_set] at hj
    split at hj
    · split at hj
      · simp only [Option.some.injEq] at hj
        subst hj
        exact hx
      · cases hj
    · exact absurd rfl ‹_›
  · rw [List.getElem?_set_ne hij] at hj
    exact hs j t hj

theorem instantiate_allVariables (P : TypeVariable → Prop) (s : Store) (v : TypeVariable)
    (t : Ty) (hs : s.allVariables P) (ht : Ty.allVariables P t) :
    (instantiate s v t).2.allVariables P := by
  rcases instantiate_cases s v t with ⟨e, h⟩ | ⟨_, _, h⟩
  · rw [h]; exact hs
  · rw [h]; exact set_allVariables P s _ t hs ht

theorem unifyArguments_allVariables (P : TypeVariable → Prop)
    (u : Store → Ty → Ty → Option UnifyResult)
    (hu : ∀ s a b res, s.allVariables P → Ty.allVariables P a → Ty.allVariables P b →
      u s a b = some res → res.2.allVariables P)
    (l : List (Ty × Ty)) (s : Store) (res : UnifyResult) (hs : s.allVariables P)
    (hl : ∀ p ∈ l, Ty.allVariables P p.1 ∧ Ty.allVariables P p.2)
    (h : unifyArguments u l s = some res) : res.2.allVariables P := by
  induction l generalizing s res with
  | nil =>
    simp only [unifyArguments, Option.some.injEq] at h
    subst h
    exact hs
  | cons p rest ih =>
    obtain ⟨x, y⟩ := p
    rw [unifyArguments_cons] at h
    have hxy := hl (x, y) (List.mem_cons_self _ _)
    split at h
    · cases h
    · rename_i e s1 h1
      cases h
      exact hu s x y _ hs hxy.1 hxy.2 h1
    · rename_i fs s1 h1
      have hs1 : s1.allVariables P := hu s x y _ hs hxy.1 hxy.2 h1
      have hl1 : ∀ p ∈ rest, Ty.allVariables P p.1 ∧ Ty.allVariables P p.2 :=
        fun p hp => hl p (List.mem_cons_of_mem _ hp)
      split at h
      · cases h
      · rename_i e s2 h2
        cases h
        exact ih s1 (.error e, s2) hs1 hl1 h2
      · rename_i more s2 h2
        cases h
        exact ih s1 (.ok more, s2) hs1 hl1 h2

theorem unify_allVariables (P : TypeVariable → Prop) (n : Nat) (s : Store) (a b : Ty)
    (res : UnifyResult) (hs : s.allVariables P) (ha : Ty.allVariables P a)
    (hb : Ty.allVariables P b) (h : unify n s a b = some res) : res.2.allVariables P := by
  induction n generalizing s a b res with
  | zero => simp [unify] at h
  | succ n ih =>
    simp only [unify] at h
    split at h
    · cases h
    · cases h; exact hs
    · rename_i ra hra
      split at h
      · cases h
      · cases h; exact hs
      · rename_i rb hrb
        have hla := resolve_allVariables P _ s a ra hs ha hra
        have hlb := resolve_allVariables P _ s b rb hs hb hrb
        cases ra with
        | var v =>
          cases rb with
          | var w =>
            simp only [unifyVisit] at h
            split at h
            · cases h; exact hs
            · split at h
              · cases h; exact hs
              · split at h
                · rw [afterInstantiate_store _ _ h]
                  exact instantiate_allVariables P s v _ hs hlb
                · cases h; exact hs
          | expr d ys =>
            simp only [unifyVisit] at h
            rw [afterInstantiate_store _ _ h]
            exact instantiate_allVariables P s v _ hs hlb
        | expr c xs =>
          cases rb with
          | var w =>
            simp only [unifyVisit] at h
            rw [afterInstantiate_store _ _ h]
            exact instantiate_allVariables P s w _ hs hla
          | expr d ys =>
            simp only [unifyVisit] at h
            split at h
            · cases h; exact hs
            · split at h
              · cases h; exact hs
              · refine unifyArguments_allVariables P (unify n)
                  (fun s a b res hs ha hb h => ih s a b res hs ha hb h) _ s res hs ?_ h
                intro p hp
                have h1 := List.of_mem_zip hp
                exact ⟨(allVariables_expr P _ _).1 hla _ h1.1,
                  (allVariables_expr P _ _).1 hlb _ h1.2⟩

theorem resolve_inRange (n : Nat) (s : Store) (t : Ty) (e : Err)
    (hs : s.allVariables fun v => v.index < s.typeVariables.length)
    (ht : Ty.allVariables (fun v => v.index < s.typeVariables.length) t) :
    resolve n s t ≠ some (.error e) := by
  induction n generalizing t with
  | zero =>
    cases t with
    | var v => simp [resolve]
    | expr c xs => rw [resolve_expr]; simp
  | succ n ih =>
    cases t with
    | expr c xs => rw [resolve_expr]; simp
    | var v =>
      rw [resolve_var_succ]
      have hv : v.index < s.typeVariables.length := ht v (by simp [Ty.variables])
      split
      · rename_i hnone
        rw [List.getElem?_eq_getElem hv] at hnone
        cases hnone
      · simp
      · rename_i u hu
        exact ih u (hs _ _ hu)

theorem afterInstantiate_ne_outOfRange (s s' : Store) (v : TypeVariable) (t : Ty)
    (hv : s.typeVariables[v.index]? = some none) :
    afterInstantiate (instantiate s v t) ≠ some (.error .outOfRange, s') := by
  rcases afterInstantiate_unbound s v t hv with e | e
  · rw [e]; simp
  · rw [e]; simp

theorem unifyArguments_inRange (N : Nat) (u : Store → Ty → Ty → Option UnifyResult)
    (hu : ∀ s a b res, s.typeVariables.length = N →
      s.allVariables (fun v => v.index < N) → Ty.allVariables (fun v => v.index < N) a →
      Ty.allVariables (fun v => v.index < N) b → u s a b = some res →
      res.1 ≠ .error .outOfRange ∧ res.2.typeVariables.length = N ∧
        res.2.allVariables (fun v => v.index < N))
    (l : List (Ty × Ty)) (s : Store) (res : UnifyResult) (hN : s.typeVariables.length = N)
    (hs : s.allVariables fun v => v.index < N)
    (hl : ∀ p ∈ l, Ty.allVariables (fun v => v.index < N) p.1 ∧
      Ty.allVariables (fun v => v.index < N) p.2)
    (h : unifyArguments u l s = some res) :
    res.1 ≠ .error .outOfRange ∧ res.2.typeVariables.length = N ∧
      res.2.allVariables (fun v => v.index < N) := by
  induction l generalizing s res with
  | nil =>
    simp only [unifyArguments, Option.some.injEq] at h
    subst h
    exact ⟨(fun e => by cases e), hN, hs⟩
  | cons p rest ih =>
    obtain ⟨x, y⟩ := p
    rw [unifyArguments_cons] at h
    have hxy := hl (x, y) (List.mem_cons_self _ _)
    split at h
    · cases h
    · rename_i e s1 h1
      cases h
      exact hu s x y _ hN hs hxy.1 hxy.2 h1
    · rename_i fs s1 h1
      obtain ⟨_, hN1, hs1⟩ := hu s x y _ hN hs hxy.1 hxy.2 h1
      have hl1 : ∀ p ∈ rest, Ty.allVariables (fun v => v.index < N) p.1 ∧
          Ty.allVariables (fun v => v.index < N) p.2 :=
        fun p hp => hl p (List.mem_cons_of_mem _ hp)
      split at h
      · cases h
      · rename_i e s2 h2
        cases h
        exact ih s1 (.error e, s2) hN1 hs1 hl1 h2
      · rename_i more s2 h2
        cases h
        obtain ⟨_, e2, e3⟩ := ih s1 (.ok more, s2) hN1 hs1 hl1 h2
        exact ⟨(fun e => by cases e), e2, e3⟩

theorem unify_inRange (N n : Nat) (s : Store) (a b : Ty) (res : UnifyResult)
    (hN : s.typeVariables.length = N) (hs : s.allVariables fun v => v.index < N)
    (ha : Ty.allVariables (fun v => v.index < N) a)
    (hb : Ty.allVariables (fun v => v.index < N) b) (h : unify n s a b = some res) :
    res.1 ≠ .error .outOfRange ∧ res.2.typeVariables.length = N ∧
      res.2.allVariables (fun v => v.index < N) := by
  have hlen : res.2.typeVariables.length = N := by
    rw [(unify_binds n s a b res h).2.2.1, hN]
  refine ⟨?_, hlen, unify_allVariables _ n s a b res hs ha hb h⟩
  induction n generalizing s a b res with
  | zero => simp [unify] at h
  | succ n ih =>
    subst hN
    simp only [unify] at h
    split at h
    · cases h
    · rename_i e he
      exact absurd he (resolve_inRange _ s a e hs ha)
    · rename_i ra hra
      split at h
      · cases h
      · rename_i e he
        exact absurd he (resolve_inRange _ s b e hs hb)
      · rename_i rb hrb
        have hla := resolve_allVariables _ _ s a ra hs ha hra
        have hlb := resolve_allVariables _ _ s b rb hs hb hrb
        intro herr
        have h' : unifyVisit (unify n) s ra rb = some (.error .outOfRange, res.2) := by
          rw [h, ← herr]
        cases ra with
        | var v =>
          have hv := resolve_var_unbound _ _ _ _ hra
          cases rb with
          | var w =>
            simp only [unifyVisit] at h'
            rcases validate_cases s v with e | e
            · rcases validate_cases s w with e2 | e2
              · rw [e, e2] at h'
                simp only at h'
                split at h'
                · exact afterInstantiate_ne_outOfRange s _ v _ hv h'
                · cases h'
              · rw [e, e2] at h'
                cases h'
            · rw [e] at h'
              cases h'
          | expr d ys =>
            simp only [unifyVisit] at h'
            exact afterInstantiate_ne_outOfRange s _ v _ hv h'
        | expr c xs =>
          cases rb with
          | var w =>
            have hw := resolve_var_unbound _ _ _ _ hrb
            simp only [unifyVisit] at h'
            exact afterInstantiate_ne_outOfRange s _ w _ hw h'
          | expr d ys =>
            simp only [unifyVisit] at h'
            split at h'
            · cases h'
            · split at h'
              · cases h'
              · have := unifyArguments_inRange s.typeVariables.length (unify n)
                  (fun s1 a b res hN hs ha hb h =>
                    ⟨ih s1 a b res hN hs ha hb h
                        (by rw [(unify_binds n s1 a b res h).2.2.1, hN]),
                      by rw [(unify_binds n s1 a b res h).2.2.1, hN],
                      unify_allVariables _ n s1 a b res hs ha hb h⟩)
                  _ s _ rfl hs ?_ h'
                · exact this.1 rfl
                · intro p hp
                  have h1 := List.of_mem_zip hp
                  exact ⟨(allVariables_expr _ _ _).1 hla _ h1.1,
                    (allVariables_expr _ _ _).1 hlb _ h1.2⟩

theorem exampleStore_allVariables (P : TypeVariable → Prop) :
    exampleStore.allVariables P := by
  intro i t hi
  rcases i with _ | _ | i <;> simp [exampleStore] at hi

theorem exampleStore_local : exampleStore.local := by
  intro i t hi
  rcases i with _ | _ | i <;> simp [exampleStore] at hi

/-- C11 (amended): structural mismatches are returned, never thrown.  In a
store in which every variable index that occurs in `a`, in `b` and in the
bound slots is in range, a finished `unify(a, b)` has not thrown the
exception of a checked `at`; and when moreover every such variable belongs to
this store, it has thrown nothing at all: it has returned a failure list. -/
theorem unify_never_throws (n : Nat) (s : Store) (a b : Ty) (res : UnifyResult)
    (hs : s.allVariables fun v => v.index < s.typeVariables.length)
    (ha : Ty.allVariables (fun v => v.index < s.typeVariables.length) a)
    (hb : Ty.allVariables (fun v => v.index < s.typeVariables.length) b)
    (h : unify n s a b = some res) :
    res.1 ≠ .error .outOfRange ∧
    (s.local → Ty.localTo s.self a → Ty.localTo s.self b → ∃ fs, res.1 = .ok fs) := by
  have h1 := (unify_inRange _ n s a b res rfl hs ha hb h).1
  refine ⟨h1, fun hl hla hlb => ?_⟩
  have h2 := (unify_local n s a b res hl hla hlb h).1
  cases hres : res.1 with
  | ok fs => exact ⟨fs, rfl⟩
  | error e =>
    cases e with
    | assertion => exact absurd hres h2
    | outOfRange => exact absurd hres h1

/-- C11 fails for a variable of another store: every index is in range, but
`unify(f, Integer)` with `f` a variable of store 9 fails the assertion of
`validate`. -/
theorem unify_never_throws_counterexample :
    (0 < exampleStore.typeVariables.length) ∧
    (∀ (i : Nat) (t : Ty), exampleStore.typeVariables[i]? ≠ some (some t)) ∧
    unify 1 exampleStore (.var ⟨9, 0, false⟩) (.expr (.builtin .Integer) [])
      = some (.error .assertion, exampleStore) := by
  refine ⟨by decide, fun i t hi => ?_, by decide⟩
  rcases i with _ | _ | i <;> simp [exampleStore] at hi

/-- C11 (amended), on `unify(Pair(v0, Integer), Pair(Unit, Unit))`: the
mismatch of `Integer` and `Unit` is an entry of the returned list. -/
theorem unify_never_throws_witness :
    unify 2 exampleStore
        (.expr (.builtin .Pair) [.var ⟨1, 0, false⟩, .expr (.builtin .Integer) []])
        (.expr (.builtin .Pair) [.expr (.builtin .Unit) [], .expr (.builtin .Unit) []])
      = some (.ok [⟨.expr (.builtin .Integer) [], .expr (.builtin .Unit) []⟩],
          { exampleStore with typeVariables := [some (.expr (.builtin .Unit) []), none] }) ∧
    ∃ fs, (Except.ok [⟨.expr (.builtin .Integer) [], .expr (.builtin .Unit) []⟩]
      : Except Err (List UnificationFailure)) = .ok fs :=
  ⟨rfl, (unify_never_throws 2 exampleStore
    (.expr (.builtin .Pair) [.var ⟨1, 0, false⟩, .expr (.builtin .Integer) []])
    (.expr (.builtin .Pair) [.expr (.builtin .Unit) [], .expr (.builtin .Unit) []])
    (.ok [⟨.expr (.builtin .Integer) [], .expr (.builtin .Unit) []⟩],
      { exampleStore with typeVariables := [some (.expr (.builtin .Unit) []), none] })
    (exampleStore_allVariables _)
    (by intro v hv; simp [Ty.variables, Ty.variablesList] at hv; subst hv; decide)
    (by intro v hv; simp [Ty.variables, Ty.variablesList] at hv)
    rfl).2 exampleStore_local
    (by intro v hv; simp [Ty.variables, Ty.variablesList] at hv; subst hv; rfl)
    (by intro v hv; simp [Ty.variables, Ty.variablesList] at hv)⟩

theorem Store.terminating_grow (s : Store) (k : Nat) (hs : s.terminating) :
    (s.grow k).terminating := by
  intro v hv
  by_cases hlt : v.index < s.typeVariables.length
  · obtain ⟨r, n, hr⟩ := hs v hlt
    exact ⟨r, n, resolve_grow n s k _ r hr⟩
  · refine ⟨.var v, Resolves.unbound _ v ?_⟩
    rw [Store.grow_length] at hv
    simp only [Store.grow]
    rw [List.getElem?_append_right (by omega)]
    simp only [List.getElem?_replicate]
    rw [if_pos (by omega)]

theorem Store.terminating_set (s : Store) (i : Nat) (x : Ty)
    (hi : s.typeVariables[i]? = some none)
    (hx : Resolves { s with typeVariables := s.typeVariables.set i (some x) } x x)
    (hs : s.terminating) :
    Store.terminating { s with typeVariables := s.typeVariables.set i (some x) } := by
  intro v hv
  simp only [List.length_set] at hv
  obtain ⟨r, hr⟩ := hs v hv
  exact ⟨_, Resolves.rebind hi hx hr⟩

theorem afterInstantiate_terminating (s : Store) (v : TypeVariable) (x : Ty) (res : UnifyResult)
    (hv : s.typeVariables[v.index]? = some none)
    (hx : Resolves { s with typeVariables := s.typeVariables.set v.index (some x) } x x)
    (hs : s.terminating) (h : afterInstantiate (instantiate s v x) = some res) :
    res.2.terminating := by
  rcases afterInstantiate_unbound s v x hv with e | e
  · rw [e] at h
    cases h
    exact Store.terminating_set s _ x hv hx hs
  · rw [e] at h
    cases h
    exact hs

theorem unifyArguments_terminating (u : Store → Ty → Ty → Option UnifyResult)
    (hu : ∀ s a b res, s.terminating → u s a b = some res → res.2.terminating)
    (l : List (Ty × Ty)) (s : Store) (res : UnifyResult) (hs : s.terminating)
    (h : unifyArguments u l s = some res) : res.2.terminating := by
  induction l generalizing s res with
  | nil =>
    simp only [unifyArguments, Option.some.injEq] at h
    subst h
    exact hs
  | cons p rest ih =>
    obtain ⟨x, y⟩ := p
    rw [unifyArguments_cons] at h
    split at h
    · cases h
    · rename_i e s1 h1
      cases h
      exact hu s x y _ hs h1
    · rename_i fs s1 h1
      have hs1 : s1.terminating := hu s x y _ hs h1
      split at h
      · cases h
      · rename_i e s2 h2
        cases h
        exact ih s1 (.error e, s2) hs1 h2
      · rename_i more s2 h2
        cases h
        exact ih s1 (.ok more, s2) hs1 h2

theorem unify_terminating (n : Nat) (s : Store) (a b : Ty) (res : UnifyResult)
    (hs : s.terminating) (h : unify n s a b = some res) : res.2.terminating := by
  induction n generalizing s a b res with
  | zero => simp [unify] at h
  | succ n ih =>
    simp only [unify] at h
    split at h
    · cases h
    · cases h; exact hs
    · rename_i ra hra
      split at h
      · cases h
      · cases h; exact hs
      · rename_i rb hrb
        cases ra with
        | var v =>
          have hv := resolve_var_unbound _ _ _ _ hra
          cases rb with
          | var w =>
            have hw := resolve_var_unbound _ _ _ _ hrb
            simp only [unifyVisit] at h
            split at h
            · cases h; exact hs
            · split at h
              · cases h; exact hs
              · split at h
                · rename_i hne
                  refine afterInstantiate_terminating s v _ res hv ?_ hs h
                  apply Resolves.unbound
                  simp only
                  rw [List.getElem?_set_ne hne]
                  exact hw
                · cases h; exact hs
          | expr d ys =>
            simp only [unifyVisit] at h
            exact afterInstantiate_terminating s v _ res hv (Resolves.expr _ _ _) hs h
        | expr c xs =>
          cases rb with
          | var w =>
            have hw := resolve_var_unbound _ _ _ _ hrb
            simp only [unifyVisit] at h
            exact afterInstantiate_terminating s w _ res hw (Resolves.expr _ _ _) hs h
          | expr d ys =>
            simp only [unifyVisit] at h
            split at h
            · cases h; exact hs
            · split at h
              · cases h; exact hs
              · exact unifyArguments_terminating (unify n)
                  (fun s a b res hs h => ih s a b res hs h) _ s res hs h

theorem Reachable.terminating {s : Store} (h : Reachable s) : s.terminating := by
  induction h with
  | empty self registry =>
    intro v hv
    simp at hv
  | freshTypeVariable s g _ ih => exact Store.terminating_grow s 1 ih
  | unify s n a b res _ hu ih => exact unify_terminating n s a b res ih hu
  | fresh s n t g res _ hf ih =>
    rw [(fresh_inv n s t g res hf).2.2]
    exact Store.terminating_grow s _ ih

/-- C20: `unify` never creates a cycle of variables.  In every store reached
from an empty table by `freshTypeVariable`, `unify` and `fresh` (calls that
return or throw), the chain from every variable of the table ends in a type
expression or in a variable with an empty slot, and `resolve` terminates on
every type: it returns for a type expression and for a variable of the table,
and throws the exception of the checked `at` for an index out of range. -/
theorem reachable_store_terminating (s : Store) (h : Reachable s) :
    (∀ v : TypeVariable, v.index < s.typeVariables.length →
      ∃ r, ChainEnds s (.var v) r ∧ ∃ n, resolve n s (.var v) = some (.ok r)) ∧
    (∀ t : Ty, ∃ n x, resolve n s t = some x) := by
  have ht := h.terminating
  constructor
  · intro v hv
    obtain ⟨r, n, hr⟩ := ht v hv
    exact ⟨r, resolve_chainEnds n s _ r hr, n, hr⟩
  · intro t
    cases t with
    | expr c xs => exact ⟨0, _, resolve_expr 0 s c xs⟩
    | var v =>
      by_cases hv : v.index < s.typeVariables.length
      · obtain ⟨r, n, hr⟩ := ht v hv
        exact ⟨n, _, hr⟩
      · refine ⟨1, .error .outOfRange, ?_⟩
        rw [resolve_var_succ, List.getElem?_eq_none (by omega)]

/-- C20, on the store reached by two `freshTypeVariable`, `unify(v0, v1)` and
`unify(v1, v0)`: the second call finds both sides resolved to `v1` and binds
nothing, and the chain from `v0` ends in `v1`. -/
theorem reachable_store_terminating_witness :
    ∃ r, ChainEnds ⟨1, [some (.var ⟨1, 1, false⟩), none], []⟩ (.var ⟨1, 0, false⟩) r ∧
      ∃ n, resolve n ⟨1, [some (.var ⟨1, 1, false⟩), none], []⟩ (.var ⟨1, 0, false⟩)
        = some (.ok r) :=
  (reachable_store_terminating ⟨1, [some (.var ⟨1, 1, false⟩), none], []⟩
    (Reachable.unify ⟨1, [some (.var ⟨1, 1, false⟩), none], []⟩ 2
      (.var ⟨1, 1, false⟩) (.var ⟨1, 0, false⟩) (.ok [], _)
      (Reachable.unify ⟨1, [none, none], []⟩ 1 (.var ⟨1, 0, false⟩) (.var ⟨1, 1, false⟩)
        (.ok [], ⟨1, [some (.var ⟨1, 1, false⟩), none], []⟩)
        (Reachable.freshTypeVariable ⟨1, [none], []⟩ false
          (Reachable.freshTypeVariable ⟨1, [], []⟩ false (Reachable.empty 1 [])))
        rfl)
      rfl)).1 ⟨1, 0, false⟩ (by decide)

theorem typeToString_succ (names : Nat → String) (n : Nat) (s : Store) (t : Ty) :
    typeToString names (n + 1) s t =
      match resolve (n + 1) s t with
      | none => none
      | some (.error e) => some (.error e)
      | some (.ok r) => typeToStringVisit names s (typeToString names n s) r := rfl

/-- C18: `typeToString` resolves first and prints by shape.  The string of
`t` is the string of `resolve(t)`; `Function(a, b)` prints as the string of
`a`, then `" -> "`, then the string of `b`; `Unit` prints as `"()"`; a
variable with an empty slot and index `N` prints as `?varN` when generic and
as `'varN` otherwise; and `Function(Integer, Integer)` prints as `"Integer ->
Integer"` when `Integer` is registered under the name `"Integer"`. -/
theorem typeToString_spec (names : Nat → String) (n : Nat) (s : Store) :
    (∀ t r, resolve n s t = some (.ok r) →
      typeToString names n s t = typeToString names n s r) ∧
    (∀ a b x y, typeToString names n s a = some (.ok x) →
      typeToString names n s b = some (.ok y) →
      typeToString names (n + 1) s (.expr (.builtin .Function) [a, b])
        = some (.ok (x ++ " -> " ++ y))) ∧
    typeToString names (n + 1) s (.expr (.builtin .Unit) []) = some (.ok "()") ∧
    (∀ v : TypeVariable, s.typeVariables[v.index]? = some none →
      typeToString names (n + 1) s (.var v)
        = some (.ok ((if v.generic then "?" else "\x27") ++ "var" ++ toString v.index))) ∧
    (∀ arity : Nat, s.builtinTypes.lookup .Integer = some ⟨"Integer", arity⟩ →
      typeToString names (n + 2) s
          (.expr (.builtin .Function) [.expr (.builtin .Integer) [], .expr (.builtin .Integer) []])
        = some (.ok "Integer -> Integer")) := by
  refine ⟨?_, ?_, ?_, ?_, ?_⟩
  · intro t r h
    cases n with
    | zero => rfl
    | succ n =>
      have h2 : resolve (n + 1) s r = some (.ok r) := by
        rcases resolve_shape _ s t r h with ⟨c, args, rfl⟩ | ⟨v, rfl, hv⟩
        · exact resolve_expr _ s c args
        · rw [resolve_var_succ, hv]
      rw [typeToString_succ, typeToString_succ, h, h2]
  · intro a b x y ha hb
    rw [typeToString_succ, resolve_expr]
    simp only [typeToStringVisit, ha, hb, thenPrint]
  · rw [typeToString_succ, resolve_expr]
    rfl
  · intro v hv
    rw [typeToString_succ, resolve_var_succ, hv]
    rfl
  · intro arity hI
    have hint : typeToString names (n + 1) s (.expr (.builtin .Integer) [])
        = some (.ok "Integer") := by
      rw [typeToString_succ, resolve_expr]
      simp only [typeToStringVisit, printTypeArguments, thenPrint, builtinTypeName, hI]
      rfl
    rw [typeToString_succ, resolve_expr]
    simp only [typeToStringVisit, hint, thenPrint]
    rfl

/-- C18, the scenarios of the spec: a generic variable with index 3 and an
empty slot prints as `?var3`, and `Function(Integer, Integer)` prints as
`Integer -> Integer` in a registry that names the tag `Integer`. -/
theorem typeToString_spec_witness :
    typeToString (fun _ => "") 1 ⟨1, [none, none, none, none], []⟩ (.var ⟨1, 3, true⟩)
      = some (.ok "?var3") ∧
    typeToString (fun _ => "") 2 ⟨1, [], [(.Integer, ⟨"Integer", 0⟩)]⟩
        (.expr (.builtin .Function) [.expr (.builtin .Integer) [], .expr (.builtin .Integer) []])
      = some (.ok "Integer -> Integer") :=
  ⟨(typeToString_spec (fun _ => "") 0 ⟨1, [none, none, none, none], []⟩).2.2.2.1
      ⟨1, 3, true⟩ rfl,
    (typeToString_spec (fun _ => "") 0 ⟨1, [], [(.Integer, ⟨"Integer", 0⟩)]⟩).2.2.2.2 0 rfl⟩

theorem fullResolve_mono (n k : Nat) (s : Store) (t u : Ty)
    (h : fullResolve n s t = some u) : fullResolve (n + k) s t = some u := by
  induction n generalizing t u with
  | zero => simp [fullResolve] at h
  | succ n ih =>
    rw [show n + 1 + k = (n + k) + 1 by omega]
    simp only [fullResolve] at h ⊢
    split at h
    · rename_i v hv
      rw [resolve_mono_le (by omega) s t _ hv]
      exact h
    · rename_i c args hv
      rw [resolve_mono_le (by omega) s t _ hv]
      simp only
      split at h
      · cases h
      · rename_i us hus
        rw [mapArguments_mono _ _ _ _ (fun t r h => ih t r h) hus]
        exact h
    · cases h

theorem fullResolve_mono_le {n m : Nat} (hnm : n ≤ m) (s : Store) (t u : Ty)
    (h : fullResolve n s t = some u) : fullResolve m s t = some u := by
  obtain ⟨k, rfl⟩ := Nat.exists_eq_add_of_le hnm
  exact fullResolve_mono n k s t u h

theorem fullResolve_of_var (n : Nat) (s : Store) (t u : Ty) (v : TypeVariable)
    (hr : Resolves s t (.var v)) (h : fullResolve n s t = some u) : u = .var v := by
  cases n with
  | zero => simp [fullResolve] at h
  | succ n =>
    simp only [fullResolve] at h
    split at h
    · rename_i w hw
      have := Resolves.det hr ⟨_, hw⟩
      cases this
      exact (Option.some.inj h).symm
    · rename_i c args hw
      have := Resolves.det hr ⟨_, hw⟩
      cases this
    · cases h

theorem fullResolve_of_expr (n : Nat) (s : Store) (t u : Ty) (c : Constructor)
    (args : List Ty) (hr : Resolves s t (.expr c args)) (h : fullResolve n s t = some u) :
    ∃ us, u = .expr c us ∧ mapArguments (fullResolve (n - 1) s) args = some us := by
  cases n with
  | zero => simp [fullResolve] at h
  | succ n =>
    simp only [fullResolve] at h
    split at h
    · rename_i w hw
      have := Resolves.det hr ⟨_, hw⟩
      cases this
    · rename_i c' args' hw
      have := Resolves.det hr ⟨_, hw⟩
      cases this
      split at h
      · cases h
      · rename_i us hus
        exact ⟨us, (Option.some.inj h).symm, hus⟩
    · cases h

theorem FullResolves.of_var {s : Store} {t : Ty} {v : TypeVariable}
    (hr : Resolves s t (.var v)) : FullResolves s t (.var v) := by
  obtain ⟨n, hn⟩ := hr
  cases n with
  | zero =>
    cases t with
    | var w => simp [resolve] at hn
    | expr c xs => rw [resolve_expr] at hn; cases hn
  | succ n => exact ⟨n + 1, by simp only [fullResolve, hn]⟩

theorem FullResolves.of_expr {s : Store} {t : Ty} {c : Constructor} {args us : List Ty}
    (hr : Resolves s t (.expr c args)) (m : Nat)
    (h : mapArguments (fullResolve m s) args = some us) : FullResolves s t (.expr c us) := by
  obtain ⟨n, hn⟩ := hr
  refine ⟨max n m + 1, ?_⟩
  simp only [fullResolve]
  rw [resolve_mono_le (by omega) s t _ hn]
  simp only
  rw [mapArguments_mono _ _ _ _
    (fun t r h => fullResolve_mono_le (Nat.le_max_right n m) s t r h) h]

/-- The full resolution depends on the type only through what `resolve`
returns for it. -/
theorem FullResolves.congr {s : Store} {t t' r u : Ty} (hr : Resolves s t r)
    (hr' : Resolves s t' r) (h : FullResolves s t u) : FullResolves s t' u := by
  obtain ⟨n, hn⟩ := h
  cases r with
  | var v =>
    have := fullResolve_of_var n s t u v hr hn
    subst this
    exact FullResolves.of_var hr'
  | expr c args =>
    obtain ⟨us, rfl, hus⟩ := fullResolve_of_expr n s t u c args hr hn
    exact FullResolves.of_expr hr' _ hus

theorem destTupleLoop_foldr (acc : List Ty) (t : Ty) (r : List Ty)
    (h : destTupleLoop acc t = .ok r) :
    ∃ pre last, r = acc ++ pre ++ [last] ∧
      t = pre.foldr (fun t r => .expr (.builtin .Pair) [t, r]) last := by
  induction acc, t using destTupleLoop.induct generalizing r with
  | case1 acc a b ih =>
    rw [destTupleLoop] at h
    obtain ⟨pre, last, hr, hb⟩ := ih r h
    refine ⟨a :: pre, last, ?_, ?_⟩
    · rw [hr]; simp
    · rw [List.foldr_cons, ← hb]
  | case2 acc args hne =>
    rw [destTupleLoop.eq_2 _ _ hne] at h
    cases h
  | case3 acc t h1 h2 =>
    rw [destTupleLoop.eq_3 _ _ h1 h2] at h
    cases h
    exact ⟨[], t, by simp, rfl⟩

theorem Ty.tupleWellFormed_pair (args : List Ty)
    (h : Ty.tupleWellFormed (.expr (.builtin .Pair) args) = true) :
    ∃ a b, args = [a, b] ∧ Ty.tupleWellFormed a = true ∧ Ty.tupleWellFormed b = true := by
  match args, h with
  | [a, b], h =>
    simp [Ty.tupleWellFormed, Ty.tupleWellFormedList] at h
    exact ⟨a, b, rfl, h.1, h.2⟩
  | [], h => simp [Ty.tupleWellFormed] at h
  | [_], h => simp [Ty.tupleWellFormed] at h
  | _ :: _ :: _ :: _, h => simp [Ty.tupleWellFormed] at h

theorem destTupleLoop_returns (acc : List Ty) (t : Ty)
    (h : Ty.tupleWellFormed t = true) : ∃ r, destTupleLoop acc t = .ok r := by
  induction acc, t using destTupleLoop.induct with
  | case1 acc a b ih =>
    obtain ⟨a', b', e, _, hb⟩ := Ty.tupleWellFormed_pair _ h
    cases e
    rw [destTupleLoop]
    exact ih hb
  | case2 acc args hne =>
    obtain ⟨a, b, e, _, _⟩ := Ty.tupleWellFormed_pair _ h
    exact absurd e (hne a b)
  | case3 acc t h1 h2 =>
    rw [destTupleLoop.eq_3 _ _ h1 h2]
    exact ⟨_, rfl⟩

theorem tupleType_snoc (s : Store) (name : String)
    (hPair : s.builtinTypes.lookup .Pair = some ⟨name, 2⟩) (a : Ty) (pre : List Ty) (last : Ty) :
    tupleType s (a :: (pre ++ [last]))
      = .ok (.expr (.builtin .Pair)
          [a, pre.foldr (fun t r => .expr (.builtin .Pair) [t, r]) last]) := by
  cases hp : pre ++ [last] with
  | nil => simp at hp
  | cons y rest =>
    rw [tupleType_two s name hPair]
    have h1 : (y :: rest).dropLast = pre := by rw [← hp]; simp
    have h2 : (y :: rest).getLast (by simp) = last := by
      simp only [← hp]; simp
    rw [h1, h2]

/-- C21: `tupleType` undoes `destTupleType` on well-formed type expressions.
With `Unit` declared at arity 0 and `Pair` at arity 2, for every type
expression `t` in which every `Unit` has no arguments and every `Pair` has
exactly two arguments, `destTupleType(t)` returns a sequence and `tupleType`
of that sequence returns `t`. -/
theorem tupleType_destTupleType (s : Store) (nameUnit namePair : String)
    (hUnit : s.builtinTypes.lookup .Unit = some ⟨nameUnit, 0⟩)
    (hPair : s.builtinTypes.lookup .Pair = some ⟨namePair, 2⟩)
    (c : Constructor) (args : List Ty)
    (hwf : Ty.tupleWellFormed (.expr c args) = true) :
    (∃ xs, destTupleType (.expr c args) = .ok xs) ∧
    tupleOfDestTupleType s (.expr c args) = .ok (.expr c args) := by
  cases c with
  | declaration p => exact ⟨⟨_, rfl⟩, rfl⟩
  | builtin tag =>
    cases tag
    case Unit =>
      have hargs : args = [] := by
        cases args with
        | nil => rfl
        | cons x xs => simp [Ty.tupleWellFormed] at hwf
      subst hargs
      refine ⟨⟨_, rfl⟩, ?_⟩
      simp [tupleOfDestTupleType, destTupleType, destTypeExpression, tupleType, builtinType,
        hUnit]
    case Pair =>
      obtain ⟨a, b, e, _, hb⟩ := Ty.tupleWellFormed_pair _ hwf
      subst e
      obtain ⟨r, hr⟩ := destTupleLoop_returns [a] b hb
      obtain ⟨pre, last, hpre, hlast⟩ := destTupleLoop_foldr _ _ _ hr
      have hd : destTupleType (.expr (.builtin .Pair) [a, b]) = .ok r := hr
      refine ⟨⟨r, hd⟩, ?_⟩
      unfold tupleOfDestTupleType
      rw [hd]
      simp only
      rw [hpre, hlast]
      exact tupleType_snoc s namePair hPair a pre last
    all_goals exact ⟨⟨_, rfl⟩, rfl⟩

/-- C21, at `Pair(v0, Pair(Integer, Unit))`: `destTupleType` gives `[v0,
Integer, Unit]` and `tupleType` of that gives the expression back. -/
theorem tupleType_destTupleType_witness :
    destTupleType (.expr (.builtin .Pair) [.var ⟨1, 0, false⟩,
        .expr (.builtin .Pair) [.expr (.builtin .Integer) [], .expr (.builtin .Unit) []]])
      = .ok [.var ⟨1, 0, false⟩, .expr (.builtin .Integer) [], .expr (.builtin .Unit) []] ∧
    tupleOfDestTupleType exampleStore (.expr (.builtin .Pair) [.var ⟨1, 0, false⟩,
        .expr (.builtin .Pair) [.expr (.builtin .Integer) [], .expr (.builtin .Unit) []]])
      = .ok (.expr (.builtin .Pair) [.var ⟨1, 0, false⟩,
        .expr (.builtin .Pair) [.expr (.builtin .Integer) [], .expr (.builtin .Unit) []]]) :=
  ⟨by decide,
    (tupleType_destTupleType exampleStore "unit" "pair" (by decide) (by decide)
      (.builtin .Pair) [.var ⟨1, 0, false⟩,
        .expr (.builtin .Pair) [.expr (.builtin .Integer) [], .expr (.builtin .Unit) []]]
      (by decide)).2⟩

end TypeSystem
